import Mathlib

/-!
# md2pdf: a verification development

A shallow embedding of the parts of `mdtopdf.go` and `containers.go` that decide the
properties below, followed by the theorems.

Conventions of the embedding.

* Go strings are lists of characters (`GoString`); the text is taken to be valid UTF-8, so
  a rune is a `Char`.
* A Go run-time panic (index out of range, nil dereference, negative repeat count) is the
  value `none`.
* `float64` widths are exact rationals.
* The markdown syntax tree of `gomarkdown/markdown/ast` is the type `Node`; the pointer
  identity of a node is its field `id`.
* The page surface (`fpdf.Fpdf`) is the list of operations issued to it, together with the
  queries the renderer makes, which are parameters.
-/

namespace Mdtopdf

/-! ## The syntax tree and its walker (`gomarkdown/markdown/ast`) -/

/-- Go strings, as lists of runes. -/
abbrev GoString := List Char

/-- Node kinds that embed `ast.Leaf`: they have a literal and no children. -/
inductive LeafKind where
  | Text
  | Softbreak
  | Hardbreak
  | Code
  | HTMLSpan
  | HTMLBlock
  | HorizontalRule
  | CodeBlock
  | OtherLeaf (tag : Nat)
  deriving DecidableEq, Repr

/-- Node kinds that embed `ast.Container`: they have children. `Heading` carries its
`Level`. -/
inductive ContainerKind where
  | Document
  | Paragraph
  | BlockQuote
  | Heading (Level : Int)
  | List
  | ListItem
  | Emph
  | Strong
  | Del
  | Link
  | Image
  | Table
  | TableHeader
  | TableBody
  | TableRow
  | TableCell
  | OtherContainer (tag : Nat)
  deriving DecidableEq, Repr

/-- The type `ast.Node`. `id` stands for the address of the node. -/
inductive Node where
  | leaf (id : Nat) (kind : LeafKind) (Literal : GoString)
  | container (id : Nat) (kind : ContainerKind) (children : List Node)
  deriving Repr

/-- The type `ast.WalkStatus`. -/
inductive WalkStatus where
  | GoToNext
  | SkipChildren
  | Terminate
  deriving DecidableEq, Repr

mutual
/-- The function `ast.Walk` (and `ast.WalkFunc`): the visitor is called on a node with
`entering = true`, then the children of a container are walked in order, then the visitor
is called on a container with `entering = false`. The visitor acts on a state `σ`. -/
def Walk {σ : Type} (visit : Node → Bool → σ → σ × WalkStatus) : Node → σ → σ × WalkStatus
  | .leaf i k l, s =>
    -- a leaf is not a container: one call, and the walk goes on unless it terminates
    let r := visit (.leaf i k l) true s
    if r.2 = .Terminate then r else (r.1, .GoToNext)
  | .container i k cs, s =>
    let r := visit (.container i k cs) true s
    if r.2 = .Terminate then
      -- even if terminating, close container node
      ((visit (.container i k cs) false r.1).1, .Terminate)
    else
      let r1 := if r.2 = .SkipChildren then (r.1, WalkStatus.GoToNext) else WalkChildren visit cs r.1
      if r1.2 = .Terminate then r1
      else
        let r2 := visit (.container i k cs) false r1.1
        if r2.2 = .Terminate then r2 else (r2.1, .GoToNext)
/-- The loop of `ast.Walk` over the children; it stops at the first `Terminate`. -/
def WalkChildren {σ : Type} (visit : Node → Bool → σ → σ × WalkStatus) :
    List Node → σ → σ × WalkStatus
  | [], s => (s, .GoToNext)
  | n :: ns, s =>
    let r := Walk visit n s
    if r.2 = .Terminate then r else WalkChildren visit ns r.1
end

/-! ## Strings (`strings`, `unicode`) -/

/-- The function `unicode.IsSpace`: the Latin-1 spaces and the other code points of the
Unicode property White_Space. -/
def IsSpace (c : Char) : Bool :=
  c = '\t' || c = '\n' || c.val = 0x0B || c.val = 0x0C || c = '\r' || c = ' ' ||
  c.val = 0x85 || c.val = 0xA0 || c.val = 0x1680 || (0x2000 ≤ c.val && c.val ≤ 0x200A) ||
  c.val = 0x2028 || c.val = 0x2029 || c.val = 0x202F || c.val = 0x205F || c.val = 0x3000

/-- The function `strings.TrimSpace`: drop the leading and the trailing white space. -/
def TrimSpace (s : GoString) : GoString :=
  ((s.dropWhile IsSpace).reverse.dropWhile IsSpace).reverse

/-- The scan of `strings.Replace` for a non-empty `old`: leftmost, non-overlapping
occurrences. The counter is the number of runes of the current occurrence still to skip. -/
def replaceScan (old new : GoString) : Nat → GoString → GoString
  | _, [] => []
  | k + 1, _ :: cs => replaceScan old new k cs
  | 0, c :: cs =>
    if old.isPrefixOf (c :: cs) then new ++ replaceScan old new (old.length - 1) cs
    else c :: replaceScan old new 0 cs

/-- The function `strings.ReplaceAll`. With an empty `old`, `new` is inserted before every
rune and at the end. -/
def ReplaceAll (s old new : GoString) : GoString :=
  if old = new then s
  else if old = [] then new ++ s.flatMap (fun c => c :: new)
  else replaceScan old new 0 s

/-- The function `unicode.ToLower`: ASCII is mapped directly, the other code points
through the case tables of the Go library, which are the parameter `caseTable`. -/
def unicodeToLower (caseTable : Char → Char) (c : Char) : Char :=
  if c.val ≤ 0x7F then (if 'A' ≤ c ∧ c ≤ 'Z' then Char.ofNat (c.toNat + 32) else c)
  else caseTable c

/-- The function `strings.ToLower`. -/
def ToLower (caseTable : Char → Char) (s : GoString) : GoString :=
  s.map (unicodeToLower caseTable)

/-! ## Table of contents (`mdtopdf.go`, lines 134-213) -/

/-- The struct `TOCEntry`. -/
structure TOCEntry where
  Level : Int
  Title : GoString
  ID : GoString
  deriving DecidableEq, Repr

/-- The struct `TOCVisitor`. -/
structure TOCVisitor where
  entries : List TOCEntry
  deriving DecidableEq, Repr

/-- The callback of `ExtractTextFromNode`: on entering a `Text` or a `Code` node its
literal is written to the builder. -/
def extractVisit (node : Node) (entering : Bool) (text : GoString) : GoString × WalkStatus :=
  if entering then
    match node with
    | .leaf _ .Text lit => (text ++ lit, .GoToNext)
    | .leaf _ .Code lit => (text ++ lit, .GoToNext)
    | _ => (text, .GoToNext)
  else (text, .GoToNext)

/-- The function `ExtractTextFromNode`. -/
def ExtractTextFromNode (node : Node) : GoString :=
  (Walk extractVisit node []).1

/-- The identifier computed in `TOCVisitor.Visit` from the title (lines 158-163). -/
def slugID (caseTable : Char → Char) (title : GoString) : GoString :=
  let id := ToLower caseTable (ReplaceAll (TrimSpace title) [' '] ['-'])
  let id := ReplaceAll id ['.'] []
  let id := ReplaceAll id [','] []
  let id := ReplaceAll id ['!'] []
  let id := ReplaceAll id ['?'] []
  id

/-- The method `TOCVisitor.Visit`. -/
def TOCVisitor.Visit (caseTable : Char → Char) (node : Node) (entering : Bool)
    (v : TOCVisitor) : TOCVisitor × WalkStatus :=
  if !entering then (v, .GoToNext)
  else
    match node with
    | .container _ (.Heading level) _ =>
      let title := ExtractTextFromNode node
      if title ≠ [] then
        (⟨v.entries ++ [⟨level, title, slugID caseTable title⟩]⟩,
          .GoToNext)
      else (v, .GoToNext)
    | _ => (v, .GoToNext)

/-- The function `GetTOCEntries`; `parse` is the markdown parser with the extensions set
there. -/
def GetTOCEntries (caseTable : Char → Char) (parse : GoString → Node) (content : GoString) :
    List TOCEntry :=
  (Walk (TOCVisitor.Visit caseTable) (parse content) ⟨[]⟩).1.entries

/-! ## The container stack (`containers.go`) -/

/-- The type `listType`. -/
inductive listType where
  | notlist
  | unordered
  | ordered
  | definition
  deriving DecidableEq, Repr

/-- The struct `Color`. -/
structure Color where
  Red : Int
  Green : Int
  Blue : Int
  deriving DecidableEq, Repr

/-- The struct `Styler`. -/
structure Styler where
  Font : String
  Style : String
  Size : ℚ
  Spacing : ℚ
  TextColor : Color
  FillColor : Color
  deriving DecidableEq, Repr

/-- The zero value of `Styler`. -/
def Styler.zero : Styler := ⟨"", "", 0, 0, ⟨0, 0, 0⟩, ⟨0, 0, 0⟩⟩

/-- The struct `containerState`. The stack holds pointers to frames; a pointer is
represented by the frame it points to, which the stack operations never write. -/
structure containerState where
  textStyle : Styler
  leftMargin : ℚ
  firstParagraph : Bool
  listkind : listType
  itemNumber : Int
  destination : String
  isHeader : Bool
  cellInnerString : String
  cellInnerStringStyle : Option Styler
  deriving DecidableEq, Repr

/-- The struct `states`: the slice `stack`, bottom first, top last. -/
structure states where
  stack : List containerState
  deriving DecidableEq, Repr

/-- The Go index expression `s[i]` on a slice, for a signed index: it panics when the
index is out of range. -/
def goIndex {α : Type} (s : List α) (i : Int) : Option α :=
  if i < 0 then none else s.get? i.toNat

/-- The Go slice expression `s[:j]`: it panics when `j` is out of range. -/
def goSliceTo {α : Type} (s : List α) (j : Int) : Option (List α) :=
  if j < 0 ∨ (s.length : Int) < j then none else some (s.take j.toNat)

/-- The method `states.push`. -/
def states.push (s : states) (c : containerState) : states :=
  ⟨s.stack ++ [c]⟩

/-- The method `states.pop`: the popped frame and the stack left. -/
def states.pop (s : states) : Option (containerState × states) :=
  match goIndex s.stack ((s.stack.length : Int) - 1), goSliceTo s.stack ((s.stack.length : Int) - 1) with
  | some x, some rest => some (x, ⟨rest⟩)
  | _, _ => none

/-- The method `states.peek`. -/
def states.peek (s : states) : Option containerState :=
  goIndex s.stack ((s.stack.length : Int) - 1)

/-- The method `states.parent`. -/
def states.parent (s : states) : Option containerState :=
  goIndex s.stack ((s.stack.length : Int) - 2)

/-! ## The page surface (`fpdf.Fpdf`) -/

/-- The operations the renderer issues to the page surface. -/
inductive PdfOp where
  | New (orientation units papersize fontdir : String)
  | SetHeaderFunc
  | AddPage
  | SetFont (family style : String) (size : ℚ)
  | SetTextColor (r g b : Int)
  | SetFillColor (r g b : Int)
  | Rect (x y w h : ℚ) (style : String)
  | Write (h : ℚ) (txt : GoString)
  | MultiCell (w h : ℚ) (txt : GoString) (border align : String) (fill : Bool)
  | WriteLinkString (h : ℚ) (display url : GoString)
  | OutputFileAndClose (file : String)
  | AddLink
  | Cell (w h : ℚ) (txt : GoString)
  | Ln (h : ℚ)
  | WriteLinkID (h : ℚ) (display : GoString) (link : Int)
  deriving DecidableEq, Repr

/-- The page surface: the operations issued so far, oldest first. -/
structure Fpdf where
  ops : List PdfOp
  deriving DecidableEq, Repr

/-- Effects outside the renderer and the page surface, in the order they happen. -/
inductive Event where
  | created (path : String)
  | parsed (content : GoString)
  | flushed (path : String) (lines : List GoString)
  | closed (path : String)
  | printed (line : GoString)
  deriving DecidableEq, Repr

/-! ## The renderer (`mdtopdf.go`) -/

/-- The type `Theme`, an `int`. -/
abbrev Theme := Int

/-- The constant `DARK`. -/
def DARK : Theme := 1
/-- The constant `LIGHT`. -/
def LIGHT : Theme := 2
/-- The constant `CUSTOM`. -/
def CUSTOM : Theme := 3

/-- The struct `PdfRenderer`. The writer `w` is `none` for the nil pointer and otherwise
the strings written to it and the file it is opened on. The last field, `journal`, is not
a field of the Go struct: it records the effects on the world outside. -/
structure PdfRenderer where
  Pdf : Fpdf
  orientation : String
  units : String
  papersize : String
  fontdir : String
  pdfFile : String
  tracerFile : String
  w : Option (String × List GoString)
  mleft : ℚ
  mtop : ℚ
  mright : ℚ
  mbottom : ℚ
  Normal : Styler
  em : ℚ
  unicodeTranslator : Option (GoString → GoString)
  Link : Styler
  Backtick : Styler
  Blockquote : Styler
  IndentValue : ℚ
  H1 : Styler
  H2 : Styler
  H3 : Styler
  H4 : Styler
  H5 : Styler
  H6 : Styler
  THeader : Styler
  TBody : Styler
  cs : states
  Code : Styler
  NeedCodeStyleUpdate : Bool
  NeedBlockquoteStyleUpdate : Bool
  HorizontalRuleNewPage : Bool
  SyntaxHighlightBaseDir : String
  InputBaseURL : String
  Theme : Theme
  BackgroundColor : Color
  documentMatter : Nat
  Extensions : Nat
  ColumnWidths : List (Nat × List ℚ)
  journal : List Event

/-- The type `RenderOption`. -/
abbrev RenderOption := PdfRenderer → PdfRenderer

/-- The value of `new(PdfRenderer)`. -/
def PdfRenderer.zero : PdfRenderer :=
  { Pdf := ⟨[]⟩, orientation := "", units := "", papersize := "", fontdir := "",
    pdfFile := "", tracerFile := "", w := none, mleft := 0, mtop := 0, mright := 0,
    mbottom := 0, Normal := Styler.zero, em := 0, unicodeTranslator := none,
    Link := Styler.zero, Backtick := Styler.zero, Blockquote := Styler.zero,
    IndentValue := 0, H1 := Styler.zero, H2 := Styler.zero, H3 := Styler.zero,
    H4 := Styler.zero, H5 := Styler.zero, H6 := Styler.zero, THeader := Styler.zero,
    TBody := Styler.zero, cs := ⟨[]⟩, Code := Styler.zero, NeedCodeStyleUpdate := false,
    NeedBlockquoteStyleUpdate := false, HorizontalRuleNewPage := false,
    SyntaxHighlightBaseDir := "", InputBaseURL := "", Theme := 0,
    BackgroundColor := ⟨0, 0, 0⟩, documentMatter := 0, Extensions := 0,
    ColumnWidths := [], journal := [] }

/-- What the renderer takes from outside this file: the queries of the page surface, the
colour table (`Colorlookup`), the files, the markdown parser and the growth of slices. -/
structure Env where
  /-- The function `Colorlookup` of the package. -/
  Colorlookup : String → Color
  /-- The method `Fpdf.GetStringWidth`, in the current font of the surface. -/
  GetStringWidth : Fpdf → GoString → ℚ
  /-- The method `Fpdf.GetMargins`: left, top, right, bottom. -/
  GetMargins : Fpdf → ℚ × ℚ × ℚ × ℚ
  /-- The method `Fpdf.GetPageSize`. -/
  GetPageSize : Fpdf → ℚ × ℚ
  /-- Reading and decoding a custom theme file (`os.ReadFile`, `json.Unmarshal`): `none`
  when either fails, otherwise the fields it sets. -/
  readTheme : String → Option (PdfRenderer → PdfRenderer)
  /-- Whether `os.Create` succeeds on a path. -/
  canCreate : String → Bool
  /-- The error of `Fpdf.OutputFileAndClose` on a surface and a path, if any. -/
  outputError : Fpdf → String → Option String
  /-- The function `markdown.NormalizeNewlines`. -/
  NormalizeNewlines : GoString → GoString
  /-- The function `markdown.Parse` with a parser for the given extensions. -/
  Parse : Nat → GoString → Node
  /-- The capacity the Go run time gives a full slice of the given capacity that is
  appended one element. -/
  growCap : Nat → Nat
  /-- The text `fmt.Sprintf` gives a float under the verb `%v`. -/
  fmtFloat : ℚ → GoString
  /-- The text of the verb `%T` for a node of a kind the renderer has no case for. -/
  typeName : Node → GoString

/-- Issue one operation to the page surface. -/
def PdfRenderer.issue (r : PdfRenderer) (op : PdfOp) : PdfRenderer :=
  { r with Pdf := ⟨r.Pdf.ops ++ [op]⟩ }

/-- The function `dorect`. -/
def dorect (r : PdfRenderer) (x y w h : ℚ) (color : Color) : PdfRenderer :=
  (r.issue (.SetFillColor color.Red color.Green color.Blue)).issue (.Rect x y w h "F")

/-- The method `SetPageBackground`. -/
def PdfRenderer.SetPageBackground (env : Env) (r : PdfRenderer) (colorStr : String)
    (color : Color) : PdfRenderer :=
  let wh := env.GetPageSize r.Pdf
  let color := if colorStr ≠ "" then env.Colorlookup colorStr else color
  dorect r 0 0 wh.1 wh.2 color

/-- The method `SetLightTheme`. -/
def PdfRenderer.SetLightTheme (env : Env) (r : PdfRenderer) : PdfRenderer :=
  let c := env.Colorlookup
  let r := { r with BackgroundColor := c "white" }
  let r := r.SetPageBackground env "" r.BackgroundColor
  let r := { r with Normal := ⟨"Arial", "", 12, 2, c "black", c "white"⟩ }
  let r := { r with Link := ⟨"Arial", "b", 12, 2, c "cornflowerblue", ⟨0, 0, 0⟩⟩ }
  let r := { r with Backtick := ⟨"Times", "", 12, 2, ⟨37, 27, 14⟩, ⟨200, 200, 200⟩⟩ }
  let r := { r with Blockquote := ⟨"Times", "", 12, 2, ⟨37, 27, 14⟩, ⟨200, 200, 200⟩⟩ }
  let r := { r with Code := ⟨"Times", "", 12, 2, ⟨37, 27, 14⟩, ⟨200, 200, 200⟩⟩ }
  let r := { r with H1 := ⟨"Arial", "b", 24, 5, c "black", c "white"⟩ }
  let r := { r with H2 := ⟨"Arial", "b", 22, 5, c "black", c "white"⟩ }
  let r := { r with H3 := ⟨"Arial", "b", 20, 5, c "black", c "white"⟩ }
  let r := { r with H4 := ⟨"Arial", "b", 18, 5, c "black", c "white"⟩ }
  let r := { r with H5 := ⟨"Arial", "b", 16, 5, c "black", c "white"⟩ }
  let r := { r with H6 := ⟨"Arial", "b", 14, 5, c "black", c "white"⟩ }
  let r := { r with Blockquote := ⟨"Arial", "i", 12, 2, c "black", c "white"⟩ }
  let r := { r with THeader := ⟨"Arial", "b", 12, 2, c "black", ⟨180, 180, 180⟩⟩ }
  { r with TBody := ⟨"Arial", "", 12, 2, c "black", ⟨240, 240, 240⟩⟩ }

/-- The method `SetDarkTheme`. -/
def PdfRenderer.SetDarkTheme (env : Env) (r : PdfRenderer) : PdfRenderer :=
  let c := env.Colorlookup
  let r := { r with BackgroundColor := c "black" }
  let r := r.SetPageBackground env "" r.BackgroundColor
  let r := { r with Normal := ⟨"Arial", "", 12, 2, c "white", c "black"⟩ }
  let r := { r with Blockquote := ⟨"Arial", "", 12, 2, c "white", c "black"⟩ }
  let r := { r with Link := ⟨"Arial", "b", 12, 2, c "cornflowerblue", ⟨0, 0, 0⟩⟩ }
  let r := { r with Backtick := ⟨"Times", "", 12, 2, c "lightgrey", ⟨32, 35, 37⟩⟩ }
  let r := { r with Code := ⟨"Times", "", 12, 2, c "lightgrey", ⟨32, 35, 37⟩⟩ }
  let r := { r with H1 := ⟨"Arial", "b", 24, 5, c "darkgray", c "black"⟩ }
  let r := { r with H2 := ⟨"Arial", "b", 22, 5, c "darkgray", c "black"⟩ }
  let r := { r with H3 := ⟨"Arial", "b", 20, 5, c "darkgray", c "black"⟩ }
  let r := { r with H4 := ⟨"Arial", "b", 18, 5, c "darkgray", c "black"⟩ }
  let r := { r with H5 := ⟨"Arial", "b", 16, 5, c "darkgray", c "black"⟩ }
  let r := { r with H6 := ⟨"Arial", "b", 14, 5, c "darkgray", c "black"⟩ }
  let r := { r with Blockquote := ⟨"Arial", "i", 12, 2, c "darkgray", c "black"⟩ }
  let r := { r with THeader := ⟨"Arial", "b", 12, 2, c "darkgray", ⟨27, 27, 27⟩⟩ }
  { r with TBody := ⟨"Arial", "", 12, 2, ⟨128, 128, 128⟩, ⟨200, 200, 200⟩⟩ }

/-- The method `SetCustomTheme`: `none` is `log.Fatal`. -/
def PdfRenderer.SetCustomTheme (env : Env) (r : PdfRenderer) (themeJSONFile : String) :
    Option PdfRenderer :=
  match env.readTheme themeJSONFile with
  | none => none
  | some fill => some (fill r)

/-- The struct `PdfRendererParams`. -/
structure PdfRendererParams where
  Orientation : String
  Papersz : String
  PdfFile : String
  TracerFile : String
  FontFile : String
  FontName : String
  Opts : List RenderOption
  Theme : Theme
  CustomThemeFile : String

/-- The method `setStyler`. -/
def PdfRenderer.setStyler (r : PdfRenderer) (s : Styler) : PdfRenderer :=
  let s := if s.Style = "bb" then { s with Style := "b" } else s
  let r := r.issue (.SetFont s.Font s.Style s.Size)
  let r := r.issue (.SetTextColor s.TextColor.Red s.TextColor.Green s.TextColor.Blue)
  r.issue (.SetFillColor s.FillColor.Red s.FillColor.Green s.FillColor.Blue)

/-- The method `write`. -/
def PdfRenderer.write (r : PdfRenderer) (s : Styler) (t : GoString) : PdfRenderer :=
  r.issue (.Write (s.Size + s.Spacing) t)

/-- The method `multiCell`. -/
def PdfRenderer.multiCell (r : PdfRenderer) (s : Styler) (t : GoString) : PdfRenderer :=
  r.issue (.MultiCell 0 (s.Size + s.Spacing) t "" "" true)

/-- The method `writeLink`. -/
def PdfRenderer.writeLink (r : PdfRenderer) (s : Styler) (display url : GoString) :
    PdfRenderer :=
  r.issue (.WriteLinkString (s.Size + s.Spacing) display url)

/-- The function `strings.Repeat` on a signed count: it panics on a negative count. -/
def Repeat (s : GoString) (count : Int) : Option GoString :=
  if count < 0 then none else some (List.replicate count.toNat s).flatten

/-- The method `tracer`. With a tracer file set it panics when the stack is empty
(negative repeat count) and when the writer is nil. -/
def PdfRenderer.tracer (r : PdfRenderer) (source msg : GoString) : Option PdfRenderer :=
  if r.tracerFile ≠ "" then
    match Repeat ['-'] ((r.cs.stack.length : Int) - 1) with
    | none => none
    | some indent =>
      match r.w with
      | none => none
      | some (path, lines) =>
        some { r with w := some (path, lines ++ [indent ++ '[' :: source ++ ']' :: ' ' :: msg ++ ['\n']]) }
  else some r

/-- The method `cr`. The line height `LH` only goes into the trace message. -/
def PdfRenderer.cr (env : Env) (r : PdfRenderer) : Option PdfRenderer :=
  match r.cs.peek with
  | none => none
  | some top =>
    let LH := top.textStyle.Size + top.textStyle.Spacing
    match r.tracer "cr()".toList ("LH=".toList ++ env.fmtFloat LH) with
    | none => none
    | some r =>
      match r.cs.peek with
      | none => none
      | some top => some (r.write top.textStyle ['\n'])

/-- The call `r.Pdf.AddPage()` once the header function of `NewPdfRenderer` is set: the
surface runs that function, which paints the page background. -/
def PdfRenderer.AddPage (env : Env) (r : PdfRenderer) : PdfRenderer :=
  (r.issue .AddPage).SetPageBackground env "" r.BackgroundColor

/-- The function `NewPdfRenderer`, lines 344-370: the file names, the global settings, the
page surface and its header function. -/
def newPdfRendererGlobals (params : PdfRendererParams) : PdfRenderer :=
  let r := PdfRenderer.zero
  let r := { r with pdfFile := params.PdfFile, tracerFile := params.TracerFile }
  let r := { r with orientation := if params.Orientation ≠ "" then params.Orientation else "portrait" }
  let r := { r with units := "pt" }
  let r := { r with papersize := if params.Papersz ≠ "" then params.Papersz else "Letter" }
  let r := { r with fontdir := "." }
  let r := { r with Theme := params.Theme }
  let r := { r with Pdf := ⟨[.New r.orientation r.units r.papersize r.fontdir]⟩ }
  r.issue .SetHeaderFunc

/-- The function `NewPdfRenderer`, lines 372-381: the switch on the theme; `none` when the
custom theme stops the process. -/
def newPdfRendererTheme (env : Env) (params : PdfRendererParams) (r : PdfRenderer) :
    Option PdfRenderer :=
  if r.Theme = DARK then some (r.SetDarkTheme env)
  else if r.Theme = LIGHT then some (r.SetLightTheme env)
  else if r.Theme = CUSTOM then
    (if params.CustomThemeFile ≠ "" then r.SetCustomTheme env params.CustomThemeFile
     else some r)
  else some r

/-- The function `NewPdfRenderer`, lines 382-393: the first page, the default font, the
margins and the root frame of the stack. -/
def newPdfRendererPage (env : Env) (r : PdfRenderer) : PdfRenderer :=
  let r := r.AddPage env
  let r := r.setStyler r.Normal
  let m := env.GetMargins r.Pdf
  let r := { r with mleft := m.1, mtop := m.2.1, mright := m.2.2.1, mbottom := m.2.2.2 }
  let r := { r with em := env.GetStringWidth r.Pdf ['m'] }
  let r := { r with IndentValue := 3 * r.em }
  let r := { r with cs := ⟨[]⟩ }
  let initcurrent : containerState :=
    { textStyle := r.Normal, leftMargin := r.mleft, firstParagraph := false,
      listkind := .notlist, itemNumber := 0, destination := "", isHeader := false,
      cellInnerString := "", cellInnerStringStyle := none }
  { r with cs := r.cs.push initcurrent }

/-- The function `NewPdfRenderer` up to the loop over the options (lines 344-393). -/
def newPdfRendererBase (env : Env) (params : PdfRendererParams) : Option PdfRenderer :=
  match newPdfRendererTheme env params (newPdfRendererGlobals params) with
  | none => none
  | some r => some (newPdfRendererPage env r)

/-- The function `NewPdfRenderer`: the options run, in order, on the renderer built. -/
def NewPdfRenderer (env : Env) (params : PdfRendererParams) : Option PdfRenderer :=
  match newPdfRendererBase env params with
  | none => none
  | some r => some (params.Opts.foldl (fun r o => o r) r)

/-- The method `UpdateParagraphStyler`. -/
def PdfRenderer.UpdateParagraphStyler (r : PdfRenderer) (defaultStyler : Styler) :
    PdfRenderer :=
  let initcurrent : containerState :=
    { textStyle := defaultStyler, leftMargin := r.mleft, firstParagraph := false,
      listkind := .notlist, itemNumber := 0, destination := "", isHeader := false,
      cellInnerString := "", cellInnerStringStyle := none }
  { r with cs := r.cs.push initcurrent }

/-! ## The arithmetic of `float64` -/

/-- The power of two `2 ^ q`, as an exact number. -/
def pow2 (q : Int) : ℚ :=
  if 0 ≤ q then ((2 ^ q.toNat : Nat) : ℚ) else 1 / ((2 ^ (-q).toNat : Nat) : ℚ)

/-- The number of binary digits of `n`; the first argument bounds the recursion and is
given as `n` itself. -/
def bitLength : Nat → Nat → Nat
  | 0, _ => 0
  | fuel + 1, n => if n = 0 then 0 else bitLength fuel (n / 2) + 1

/-- The binary exponent of a positive number `a`: the `e` with `2 ^ e ≤ a < 2 ^ (e + 1)`. -/
def floorLog2 (a : ℚ) : Int :=
  let k : Int := (bitLength a.num.natAbs a.num.natAbs : Int) - (bitLength a.den a.den : Int)
  if pow2 k ≤ a then k else k - 1

/-- The integer nearest to a non-negative number, the even one of the two when it lies
half way. -/
def roundHalfEven (m : ℚ) : Int :=
  let f := Rat.floor m
  let r := m - f
  if r < 1 / 2 then f else if 1 / 2 < r then f + 1 else if f % 2 = 0 then f else f + 1

/-- The `float64` nearest to an exact number (IEEE 754 binary64, round to nearest, ties to
even): a significand of 53 binary digits, and below `2 ^ (-1022)` the fixed step
`2 ^ (-1074)` of the subnormal numbers. A finite `float64` is the exact number it stands
for. Infinities and NaN are left out: a result beyond the largest finite `float64`, about
`1.8e308`, is given the value the format would have with a larger exponent range. -/
def float64 (x : ℚ) : ℚ :=
  if x = 0 then 0
  else
    let a := if x < 0 then -x else x
    let q := max (floorLog2 a - 52) (-1074)
    let n := roundHalfEven (a / pow2 q)
    if x < 0 then -(n * pow2 q) else n * pow2 q

/-- The sum `x + y` of two `float64`: the exact sum, rounded. -/
def addFloat64 (x y : ℚ) : ℚ := float64 (x + y)

/-- The product `x * y` of two `float64`: the exact product, rounded. Each operation of an
expression rounds on its own, as the compiler for amd64 makes it. -/
def mulFloat64 (x y : ℚ) : ℚ := float64 (x * y)

/-! ## The table pre-pass (`setColumnWidths`, `mdtopdf.go` lines 468-519) -/

/-- A Go slice of floats: the address of its backing array and its length. The capacity is
the size of the backing array. -/
structure Slice where
  arr : Nat
  len : Nat
  deriving DecidableEq, Repr

/-- The local variables of `setColumnWidths`, with the backing arrays of the slices it
makes (`heap`, by address). The map `columnWidths` is a list of keys (node addresses) and
slices, a key occurring once. -/
structure Prepass where
  heap : List (List ℚ)
  columnWidths : List (Nat × Slice)
  intable : Bool
  inheader : Bool
  cellnum : Nat
  lengths : Slice
  textlength : ℚ
  deriving DecidableEq, Repr

/-- The Go map assignment `m[k] = v`. -/
def mapAssign {β : Type} (m : List (Nat × β)) (k : Nat) (v : β) : List (Nat × β) :=
  if m.any (fun e => e.1 = k) then m.map (fun e => if e.1 = k then (k, v) else e)
  else m ++ [(k, v)]

/-- The Go map lookup `m[k]`, with its presence flag. -/
def mapLookup {β : Type} (m : List (Nat × β)) (k : Nat) : Option β :=
  (m.find? (fun e => e.1 = k)).map Prod.snd

/-- The slice literal `[]float64{}`: a fresh, empty backing array. -/
def Prepass.emptyLengths (st : Prepass) : Prepass :=
  { st with heap := st.heap ++ [[]], lengths := ⟨st.heap.length, 0⟩ }

/-- The statement `lengths = append(lengths, 0)`. With room left in the backing array the
element is written in place; otherwise the elements are copied to a fresh array of the
capacity the run time chooses (and never less than needed). -/
def Prepass.appendZero (growCap : Nat → Nat) (st : Prepass) : Prepass :=
  let a := st.heap.getD st.lengths.arr []
  if st.lengths.len < a.length then
    { st with heap := st.heap.set st.lengths.arr (a.set st.lengths.len 0),
              lengths := ⟨st.lengths.arr, st.lengths.len + 1⟩ }
  else
    { st with heap := st.heap ++
                [a.take st.lengths.len ++ 0 :: List.replicate (growCap a.length - (st.lengths.len + 1)) 0],
              lengths := ⟨st.heap.length, st.lengths.len + 1⟩ }

/-- The index expression `lengths[i]`: a panic when `i` is not below the length. -/
def Prepass.lengthsAt (st : Prepass) (i : Nat) : Option ℚ :=
  if i < st.lengths.len then (st.heap.getD st.lengths.arr []).get? i else none

/-- The assignment `lengths[i] = x`, for `i` in range. -/
def Prepass.lengthsSet (st : Prepass) (i : Nat) (x : ℚ) : Prepass :=
  { st with heap := st.heap.set st.lengths.arr ((st.heap.getD st.lengths.arr []).set i x) }

/-- The elements a slice denotes in a heap. -/
def Slice.elems (heap : List (List ℚ)) (s : Slice) : List ℚ :=
  (heap.getD s.arr []).take s.len

/-- The callback of `setColumnWidths`; `width` is `r.Pdf.GetStringWidth`. -/
def prepassVisit (growCap : Nat → Nat) (width : GoString → ℚ) (node : Node) (entering : Bool)
    (st : Prepass) : Option Prepass :=
  match node with
  | .container id .Table _ =>
    if entering then some { st with intable := true }
    else some { st with intable := false, columnWidths := mapAssign st.columnWidths id st.lengths }
  | .container _ .TableHeader _ =>
    let st := { st with inheader := entering }
    if entering then some st.emptyLengths else some st
  | .container _ .TableRow _ =>
    if entering then some { st with cellnum := 0 } else some st
  | .container _ .TableCell _ =>
    if entering then
      (if st.inheader then some (st.appendZero growCap) else some st)
    else
      let st := { st with
        textlength := addFloat64 st.textlength (mulFloat64 st.textlength (float64 0.2)) }
      match st.lengthsAt st.cellnum with
      | none => none
      | some currentMax =>
        let st := if st.textlength > currentMax then st.lengthsSet st.cellnum st.textlength else st
        let st := { st with textlength := 0 }
        some { st with cellnum := st.cellnum + 1 }
  | .leaf _ .Text lit =>
    if entering && st.intable then
      let l := width lit
      some { st with textlength := addFloat64 st.textlength l }
    else some st
  | _ => some st

/-- The callback as a visitor of `Walk`: once it has panicked nothing more happens. It
always answers `GoToNext`. -/
def prepassStep (growCap : Nat → Nat) (width : GoString → ℚ) (node : Node) (entering : Bool)
    (st : Option Prepass) : Option Prepass × WalkStatus :=
  match st with
  | none => (none, .GoToNext)
  | some st => (prepassVisit growCap width node entering st, .GoToNext)

/-- The local variables of `setColumnWidths` before the walk. -/
def Prepass.init : Prepass :=
  { heap := [[]], columnWidths := [], intable := false, inheader := true, cellnum := 0,
    lengths := ⟨0, 0⟩, textlength := 0 }

/-- The walk of `setColumnWidths`: the final local variables, `none` on a panic. -/
def prepassWalk (growCap : Nat → Nat) (width : GoString → ℚ) (doc : Node) : Option Prepass :=
  (Walk (prepassStep growCap width) doc (some Prepass.init)).1

/-- The function `setColumnWidths`: the renderer with its new `ColumnWidths`, `none` on a
panic. Each stored slice is read when the function ends. -/
def setColumnWidths (env : Env) (doc : Node) (r : PdfRenderer) : Option PdfRenderer :=
  match prepassWalk env.growCap (env.GetStringWidth r.Pdf) doc with
  | none => none
  | some st =>
    some { r with ColumnWidths := st.columnWidths.map (fun e => (e.1, e.2.elems st.heap)) }

/-! ## The node visitor, `Run` and `Process` (`mdtopdf.go` lines 421-466 and 576-647) -/

/-- The node handlers `RenderNode` calls; they are defined in another file of the package
and are parameters here. A handler that panics gives `none`. -/
structure Handlers where
  processText : Node → PdfRenderer → Option PdfRenderer
  processEmph : Node → Bool → PdfRenderer → Option PdfRenderer
  processStrong : Node → Bool → PdfRenderer → Option PdfRenderer
  processLink : Node → Bool → PdfRenderer → Option PdfRenderer
  processImage : Node → Bool → PdfRenderer → Option PdfRenderer
  processCode : Node → PdfRenderer → Option PdfRenderer
  processParagraph : Node → Bool → PdfRenderer → Option PdfRenderer
  processBlockQuote : Node → Bool → PdfRenderer → Option PdfRenderer
  processHTMLBlock : Node → PdfRenderer → Option PdfRenderer
  processHeading : Node → Bool → PdfRenderer → Option PdfRenderer
  processHorizontalRule : Node → PdfRenderer → Option PdfRenderer
  processList : Node → Bool → PdfRenderer → Option PdfRenderer
  processItem : Node → Bool → PdfRenderer → Option PdfRenderer
  processCodeblock : Node → PdfRenderer → Option PdfRenderer
  processTable : Node → Bool → PdfRenderer → Option PdfRenderer
  processTableHead : Node → Bool → PdfRenderer → Option PdfRenderer
  processTableBody : Node → Bool → PdfRenderer → Option PdfRenderer
  processTableRow : Node → Bool → PdfRenderer → Option PdfRenderer
  processTableCell : Node → Bool → PdfRenderer → Option PdfRenderer

/-- The body of `RenderNode` before its `return`: the type switch. -/
def PdfRenderer.renderSwitch (env : Env) (h : Handlers) (r : PdfRenderer) (node : Node)
    (entering : Bool) : Option PdfRenderer :=
  match node with
  | .leaf _ .Text _ => h.processText node r
  | .leaf _ .Softbreak _ =>
    (r.tracer "Softbreak".toList "Output newline".toList).bind (PdfRenderer.cr env)
  | .leaf _ .Hardbreak _ =>
    (r.tracer "Hardbreak".toList "Output newline".toList).bind (PdfRenderer.cr env)
  | .container _ .Emph _ => h.processEmph node entering r
  | .container _ .Strong _ => h.processStrong node entering r
  | .container _ .Del _ =>
    if entering then r.tracer "DEL (entering)".toList "Not handled".toList
    else r.tracer "DEL (leaving)".toList "Not handled".toList
  | .leaf _ .HTMLSpan _ => r.tracer "HTMLSpan".toList "Not handled".toList
  | .container _ .Link _ => h.processLink node entering r
  | .container _ .Image _ => h.processImage node entering r
  | .leaf _ .Code _ => h.processCode node r
  | .container _ .Document _ => r.tracer "Document".toList "Not Handled".toList
  | .container _ .Paragraph _ => h.processParagraph node entering r
  | .container _ .BlockQuote _ => h.processBlockQuote node entering r
  | .leaf _ .HTMLBlock _ => h.processHTMLBlock node r
  | .container _ (.Heading _) _ => h.processHeading node entering r
  | .leaf _ .HorizontalRule _ => h.processHorizontalRule node r
  | .container _ .List _ => h.processList node entering r
  | .container _ .ListItem _ => h.processItem node entering r
  | .leaf _ .CodeBlock _ => h.processCodeblock node r
  | .container _ .Table _ => h.processTable node entering r
  | .container _ .TableHeader _ => h.processTableHead node entering r
  | .container _ .TableBody _ => h.processTableBody node entering r
  | .container _ .TableRow _ => h.processTableRow node entering r
  | .container _ .TableCell _ => h.processTableCell node entering r
  | _ =>
    some { r with journal := r.journal ++
      [Event.printed ("Unknown node type: ".toList ++ env.typeName node ++ ". Skipping\n".toList)] }

/-- The method `RenderNode`: the renderer after the call and the status returned, `none`
when the call panics. -/
def PdfRenderer.RenderNode (env : Env) (h : Handlers) (r : PdfRenderer) (node : Node)
    (entering : Bool) : Option (PdfRenderer × WalkStatus) :=
  match r.renderSwitch env h node entering with
  | none => none
  | some r => some (r, .GoToNext)

/-- The method `RenderHeader`. -/
def PdfRenderer.RenderHeader (r : PdfRenderer) : Option PdfRenderer :=
  r.tracer "RenderHeader".toList "Not handled".toList

/-- The method `RenderFooter`. -/
def PdfRenderer.RenderFooter (r : PdfRenderer) : PdfRenderer := r

/-- The method `RenderNode` as a visitor of `Walk`: once a call has panicked nothing more
happens. -/
def renderStep (env : Env) (h : Handlers) (node : Node) (entering : Bool)
    (st : Option PdfRenderer) : Option PdfRenderer × WalkStatus :=
  match st with
  | none => (none, .Terminate)
  | some r =>
    match r.RenderNode env h node entering with
    | none => (none, .Terminate)
    | some (r, status) => (some r, status)

/-- The function `markdown.Render` on this renderer: header, walk, footer. -/
def Render (env : Env) (h : Handlers) (doc : Node) (r : PdfRenderer) : Option PdfRenderer :=
  match r.RenderHeader with
  | none => none
  | some r => (Walk (renderStep env h) doc (some r)).1.map PdfRenderer.RenderFooter

/-- The errors `Process` and `Run` return, named after the call that failed. -/
inductive GoError where
  | tracefile
  | run
  | output (msg : String)
  deriving DecidableEq, Repr

/-- The method `Run`: the renderer after the call and the error returned, `none` when the
call panics. -/
def PdfRenderer.Run (env : Env) (h : Handlers) (r : PdfRenderer) (content : GoString) :
    Option (PdfRenderer × Option GoError) :=
  let s := env.NormalizeNewlines content
  let s := match r.unicodeTranslator with
    | some translate => translate s
    | none => s
  let doc := env.Parse r.Extensions s
  let r := { r with journal := r.journal ++ [Event.parsed s] }
  match setColumnWidths env doc r with
  | none => none
  | some r =>
    match Render env h doc r with
    | none => none
    | some r => some (r, none)

/-- The part of `Process` after the tracer is set up (lines 436-446). -/
def PdfRenderer.processBody (env : Env) (h : Handlers) (r : PdfRenderer) (content : GoString) :
    Option (PdfRenderer × Option GoError) :=
  match r.Run env h content with
  | none => none
  | some (r, some _) => some (r, some .run)
  | some (r, none) =>
    let err := env.outputError r.Pdf r.pdfFile
    let r := r.issue (.OutputFileAndClose r.pdfFile)
    match err with
    | some msg => some (r, some (.output msg))
    | none => some (r, none)

/-- The deferred calls of `Process`, last registered first: `r.w.Flush()`, `f.Close()`. -/
def PdfRenderer.processDeferred (r : PdfRenderer) (path : String) : PdfRenderer :=
  match r.w with
  | none => { r with journal := r.journal ++ [Event.closed path] }
  | some (p, lines) =>
    { r with w := some (p, []), journal := r.journal ++ [Event.flushed p lines, Event.closed path] }

/-- The method `Process`: the renderer after the call and the error returned, `none` when
the call panics. -/
def PdfRenderer.Process (env : Env) (h : Handlers) (r : PdfRenderer) (content : GoString) :
    Option (PdfRenderer × Option GoError) :=
  if r.tracerFile ≠ "" then
    if env.canCreate r.tracerFile then
      let r := { r with journal := r.journal ++ [Event.created r.tracerFile] }
      let r := { r with w := some (r.tracerFile, []) }
      match r.processBody env h content with
      | none => none
      | some (r1, err) => some (r1.processDeferred r.tracerFile, err)
    else some (r, some .tracefile)
  else r.processBody env h content

/-! ## Definitions on the side of the specification, and examples -/

mutual
/-- The nodes of a subtree in depth-first pre-order, the root first. -/
def preorder : Node → List Node
  | .leaf i k l => [.leaf i k l]
  | .container i k cs => .container i k cs :: preorderList cs
/-- The nodes of a list of subtrees, in order. -/
def preorderList : List Node → List Node
  | [] => []
  | n :: ns => preorder n ++ preorderList ns
end

/-- The literal a node contributes by itself: its own for `Text` and `Code`, nothing
otherwise. -/
def ownLiteral : Node → GoString
  | .leaf _ .Text lit => lit
  | .leaf _ .Code lit => lit
  | _ => []

/-- The entry a node gives the table of contents: a heading whose extracted text is not
empty gives its level, that text and the identifier of the text; any other node gives
none. -/
def tocEntryOf (caseTable : Char → Char) (n : Node) : Option TOCEntry :=
  match n with
  | .container _ (.Heading level) _ =>
    if ExtractTextFromNode n ≠ [] then
      some ⟨level, ExtractTextFromNode n, slugID caseTable (ExtractTextFromNode n)⟩
    else none
  | _ => none

/-- A heading node whose extracted text is not empty. -/
def isTOCHeading (n : Node) : Bool :=
  match n with
  | .container _ (.Heading _) _ => decide (ExtractTextFromNode n ≠ [])
  | _ => false

/-- The level of a heading node. -/
def headingLevel : Node → Option Int
  | .container _ (.Heading level) _ => some level
  | _ => none

/-- The identifier of a title whose white space at both ends is already trimmed, as the
specification words it: replace every space by a hyphen, lowercase, delete the characters
`. , ! ?`. -/
def slugSpec (caseTable : Char → Char) (trimmed : GoString) : GoString :=
  (((trimmed.map (fun c => if c = ' ' then '-' else c)).map
    (unicodeToLower caseTable)).filter
      (fun c => decide (c ≠ '.' ∧ c ≠ ',' ∧ c ≠ '!' ∧ c ≠ '?')))

/-- A title with white space at both ends: a no-break space and a space before, a tab and
a newline after. -/
def examplePaddedTitle : GoString :=
  "\u00a0 Intro: Go, fast!\t\n".toList

/-- A document with two headings of that title. -/
def examplePaddedTOCDoc : Node :=
  .container 0 .Document
    [.container 1 (.Heading 1) [.leaf 2 .Text examplePaddedTitle],
     .container 3 .Paragraph [.leaf 4 .Text "text".toList],
     .container 5 (.Heading 2)
       [.container 6 .Emph [.leaf 7 .Text "\u00a0 Intro: ".toList],
        .leaf 8 .Code "Go, fast!\t\n".toList]]

/-- A frame that differs from the others by its ordinal. -/
def exampleFrame (n : Int) : containerState :=
  ⟨Styler.zero, 0, false, .notlist, n, "", false, "", none⟩

/-- A document with two headings of the same title and one heading without text. -/
def exampleTOCDoc : Node :=
  .container 0 .Document
    [.container 1 (.Heading 1) [.leaf 2 .Text "Hello, ".toList, .leaf 3 .Code "World!".toList],
     .container 4 (.Heading 2) [.leaf 5 .HTMLSpan "<br>".toList],
     .container 6 .Paragraph [.leaf 7 .Text "text".toList],
     .container 8 (.Heading 3) [.container 9 .Emph [.leaf 10 .Text "Hello, World!".toList]]]

/-- A node for a text or an inline code. -/
def isTextOrCode : Node → Bool
  | .leaf _ .Text _ => true
  | .leaf _ .Code _ => true
  | _ => false

/-- The option `IsHorizontalRuleNewPage`. -/
def IsHorizontalRuleNewPage (value : Bool) : RenderOption :=
  fun r => { r with HorizontalRuleNewPage := value }

/-- The option `SetSyntaxHighlightBaseDir`. -/
def SetSyntaxHighlightBaseDir (path : String) : RenderOption :=
  fun r => { r with SyntaxHighlightBaseDir := path }

/-- The frame `UpdateParagraphStyler` pushes for a style at a left margin. -/
def paragraphFrame (style : Styler) (mleft : ℚ) : containerState :=
  ⟨style, mleft, false, .notlist, 0, "", false, "", none⟩

/-- The growth of small slices in the Go run time: capacity one, then doubling. -/
def exampleGrowCap (c : Nat) : Nat := if c = 0 then 1 else 2 * c

/-- String widths for the examples: the widths of the scenario of the specification. -/
def exampleWidth (s : GoString) : ℚ :=
  if s = "A".toList then 5
  else if s = "Long Header".toList then 40
  else if s = "body".toList then 60
  else if s = "wide".toList then 100
  else 0

/-- An environment for the examples: margins of 28, every file can be created, the output
succeeds. -/
def exampleEnv : Env :=
  { Colorlookup := fun _ => ⟨0, 0, 0⟩
    GetStringWidth := fun _ s => exampleWidth s
    GetMargins := fun _ => (28, 28, 28, 28)
    GetPageSize := fun _ => (612, 792)
    readTheme := fun _ => none
    canCreate := fun _ => true
    outputError := fun _ _ => none
    NormalizeNewlines := fun s => s
    Parse := fun _ _ => .container 0 .Document []
    growCap := exampleGrowCap
    fmtFloat := fun _ => []
    typeName := fun _ => [] }

/-- Handlers for the examples: each returns at once. -/
def exampleHandlers : Handlers :=
  { processText := fun _ r => some r
    processEmph := fun _ _ r => some r
    processStrong := fun _ _ r => some r
    processLink := fun _ _ r => some r
    processImage := fun _ _ r => some r
    processCode := fun _ r => some r
    processParagraph := fun _ _ r => some r
    processBlockQuote := fun _ _ r => some r
    processHTMLBlock := fun _ r => some r
    processHeading := fun _ _ r => some r
    processHorizontalRule := fun _ r => some r
    processList := fun _ _ r => some r
    processItem := fun _ _ r => some r
    processCodeblock := fun _ r => some r
    processTable := fun _ _ r => some r
    processTableHead := fun _ _ r => some r
    processTableBody := fun _ _ r => some r
    processTableRow := fun _ _ r => some r
    processTableCell := fun _ _ r => some r }

/-- The parameters of the test `testit`, with its two options. -/
def exampleParams : PdfRendererParams :=
  { Orientation := "", Papersz := "", PdfFile := "out.pdf", TracerFile := "",
    FontFile := "", FontName := "",
    Opts := [IsHorizontalRuleNewPage true, SetSyntaxHighlightBaseDir "./highlight/syntax_files"],
    Theme := LIGHT, CustomThemeFile := "" }

/-- A table cell holding one text. -/
def exampleCell (id : Nat) (text : String) : Node :=
  .container id .TableCell [.leaf (id + 1) .Text text.toList]

/-- The table of the scenario: a header row `A`, `Long Header` (widths 5 and 40) and a
body row `body`, `A` (widths 60 and 5). -/
def exampleTable : Node :=
  .container 10 .Table
    [.container 11 .TableHeader
       [.container 12 .TableRow [exampleCell 13 "A", exampleCell 15 "Long Header"]],
     .container 17 .TableBody
       [.container 18 .TableRow [exampleCell 19 "body", exampleCell 21 "A"]]]

/-- A table without a header row, as the parser gives for a table that starts with its
delimiter row: one body row `wide`, `A` (widths 100 and 5). -/
def exampleHeaderlessTable : Node :=
  .container 30 .Table
    [.container 31 .TableBody
       [.container 32 .TableRow [exampleCell 33 "wide", exampleCell 35 "A"]]]

/-- The renderer `Process` hands to `Run`: as it is without a tracer file, and with the
file created and the writer opened on it otherwise. -/
def processStart (r : PdfRenderer) : PdfRenderer :=
  if r.tracerFile ≠ "" then
    { r with journal := r.journal ++ [Event.created r.tracerFile], w := some (r.tracerFile, []) }
  else r

/-- An environment in which no file can be created. -/
def exampleEnvNoCreate : Env := { exampleEnv with canCreate := fun _ => false }

/-- A renderer with a tracer file set. -/
def exampleTracedRenderer : PdfRenderer := { PdfRenderer.zero with tracerFile := "trace.log" }

/-! ## The constructor with a default style (`mdtopdf.go` lines 402-419) -/

/-- The option `NewPdfRendererWithDefaultStyler` appends to the options of its caller. -/
def defaultStylerOption (defaultStyler : Styler) : RenderOption :=
  fun r => { r with Normal := defaultStyler }

/-- The function `NewPdfRendererWithDefaultStyler`. -/
def NewPdfRendererWithDefaultStyler (env : Env) (orient papersz pdfFile tracerFile : String)
    (defaultStyler : Styler) (opts : List RenderOption) (theme : Theme) : Option PdfRenderer :=
  let opts := opts ++ [defaultStylerOption defaultStyler]
  let params : PdfRendererParams :=
    { Orientation := orient, Papersz := papersz, PdfFile := pdfFile, TracerFile := tracerFile,
      FontFile := "", FontName := "", Opts := opts, Theme := theme, CustomThemeFile := "" }
  NewPdfRenderer env params

/-- The `Normal` style a theme selects: the one of `SetDarkTheme` or of `SetLightTheme`,
and the zero value for any other theme when no custom theme file is given. -/
def themeNormal (env : Env) (theme : Theme) : Styler :=
  if theme = DARK then ⟨"Arial", "", 12, 2, env.Colorlookup "white", env.Colorlookup "black"⟩
  else if theme = LIGHT then
    ⟨"Arial", "", 12, 2, env.Colorlookup "black", env.Colorlookup "white"⟩
  else Styler.zero

/-- A style for the examples: Times, bold, 14 points. -/
def exampleStyler : Styler := ⟨"Times", "b", 14, 3, ⟨1, 2, 3⟩, ⟨4, 5, 6⟩⟩

/-! ## The table of contents of the command (`cmd/md2pdf/md2pdf.go` lines 179-214) -/

/-- The method `Fpdf.AddLink`: a new link target; the targets are numbered from 1 in the
order they are made. -/
def Fpdf.AddLink (pdf : Fpdf) : Fpdf × Int :=
  (⟨pdf.ops ++ [.AddLink]⟩, (pdf.ops.count .AddLink : Int) + 1)

/-- The Go map assignment `m[k] = v` on a map keyed by strings. -/
def titleMapAssign (m : List (GoString × Int)) (k : GoString) (v : Int) :
    List (GoString × Int) :=
  if m.any (fun e => e.1 = k) then m.map (fun e => if e.1 = k then (k, v) else e)
  else m ++ [(k, v)]

/-- The Go map lookup `m[k]` on a map keyed by strings, with its presence flag. -/
def titleMapLookup (m : List (GoString × Int)) (k : GoString) : Option Int :=
  (m.find? (fun e => e.1 = k)).map Prod.snd

/-- The first loop of the block (lines 185-192): one link target for each header, stored
under the title of the header. -/
def tocAllocate : List TOCEntry → Fpdf × List (GoString × Int) → Fpdf × List (GoString × Int)
  | [], acc => acc
  | header :: rest, (pdf, headerLinks) =>
    let made := pdf.AddLink
    tocAllocate rest (made.1, titleMapAssign headerLinks header.Title made.2)

/-- The body of the second loop (lines 202-211) for one header: `none` when
`strings.Repeat` panics on a negative count. `bullet` is the bullet character through the
translator of the page surface. -/
def tocLine (bullet : GoString) (headerLinks : List (GoString × Int)) (header : TOCEntry)
    (pdf : Fpdf) : Option Fpdf :=
  match titleMapLookup headerLinks header.Title with
  | some link =>
    match Repeat [' ', ' '] (header.Level - 1) with
    | none => none
    | some indent =>
      some ⟨pdf.ops ++
        [.SetFont "Arial" "" 12, .SetTextColor 100 149 237,
         .WriteLinkID 8 (indent ++ ' ' :: bullet ++ ' ' :: header.Title) link, .Ln 15]⟩
  | none => some pdf

/-- The second loop of the block (lines 201-212). -/
def tocLines (bullet : GoString) (headerLinks : List (GoString × Int)) :
    List TOCEntry → Fpdf → Option Fpdf
  | [], pdf => some pdf
  | header :: rest, pdf =>
    match tocLine bullet headerLinks header pdf with
    | none => none
    | some pdf => tocLines bullet headerLinks rest pdf

/-- The block of `main` that makes the table of contents (lines 179-214), for the headers
`GetTOCEntries` returned: the renderer after the block and the lookup handed to
`SetTOCLinks`; `none` on a panic. -/
def mainTOC (env : Env) (bullet : GoString) (headers : List TOCEntry) (pf : PdfRenderer) :
    Option (PdfRenderer × List (GoString × Int)) :=
  let allocated := tocAllocate headers (pf.Pdf, [])
  let headerLinks := allocated.2
  let pdf : Fpdf := ⟨allocated.1.ops ++
    [.SetFont "Arial" "B" 24, .Cell 40 10 "Table of Contents".toList, .Ln 30]⟩
  match tocLines bullet headerLinks headers pdf with
  | none => none
  | some pdf => some (({ pf with Pdf := pdf }).AddPage env, headerLinks)

/-- The target the lookup should hold for a title, in the words of the specification: the
one made for the last header with that title, the targets being numbered in the order of
the headers from `first`. -/
def lastLinkOf (first : Int) : List TOCEntry → GoString → Option Int
  | [], _ => none
  | header :: rest, title =>
    match lastLinkOf (first + 1) rest title with
    | some link => some link
    | none => if header.Title = title then some first else none

/-- Three headers, the first and the last with the same title. -/
def exampleHeaders : List TOCEntry :=
  [⟨1, "Intro".toList, "intro".toList⟩, ⟨2, "Usage".toList, "usage".toList⟩,
   ⟨1, "Intro".toList, "intro".toList⟩]

/-- The operations that write one line of the table of contents: the header `header`
linked to the target `link`. -/
def tocLineOps (bullet : GoString) (link : Int) (header : TOCEntry) : List PdfOp :=
  [.SetFont "Arial" "" 12, .SetTextColor 100 149 237,
   .WriteLinkID 8
     ((List.replicate (header.Level - 1).toNat [' ', ' ']).flatten ++
       ' ' :: bullet ++ ' ' :: header.Title) link,
   .Ln 15]

/-! ## The table pre-pass: the shape of documents and the widths expected -/

/-- The walk of `setColumnWidths` over a subtree, from given local variables. -/
def prepassRun (growCap : Nat → Nat) (width : GoString → ℚ) (n : Node)
    (st : Option Prepass) : Option Prepass :=
  (Walk (prepassStep growCap width) n st).1

/-- The walk of `setColumnWidths` over a list of subtrees, in order. -/
def prepassRunList (growCap : Nat → Nat) (width : GoString → ℚ) (ns : List Node)
    (st : Option Prepass) : Option Prepass :=
  (WalkChildren (prepassStep growCap width) ns st).1

/-- The address of a node. -/
def nodeId : Node → Nat
  | .leaf id _ _ => id
  | .container id _ _ => id

/-- The four kinds the callback of `setColumnWidths` has a case for, among containers. -/
def isTableKind : ContainerKind → Bool
  | .Table => true
  | .TableHeader => true
  | .TableRow => true
  | .TableCell => true
  | _ => false

mutual
/-- A subtree without a table, a table header, a table row or a table cell: what the
parser puts inside a table cell, and outside the tables. -/
def tableFree : Node → Bool
  | .leaf _ _ _ => true
  | .container _ k cs => !isTableKind k && tableFreeList cs
/-- Subtrees without a node of the four table kinds. -/
def tableFreeList : List Node → Bool
  | [] => true
  | n :: ns => tableFree n && tableFreeList ns
end

mutual
/-- The accumulator `textlength` after the `Text` nodes of a subtree were met inside a
table, from the accumulator before: the string width of each `Text` node is added, with
the rounding of `float64`, in the order of the walk. -/
def accumulate (width : GoString → ℚ) : Node → ℚ → ℚ
  | .leaf _ k lit, acc => if k = .Text then addFloat64 acc (width lit) else acc
  | .container _ _ cs, acc => accumulateList width cs acc
/-- The accumulator after the `Text` nodes of a list of subtrees. -/
def accumulateList (width : GoString → ℚ) : List Node → ℚ → ℚ
  | [], acc => acc
  | n :: ns, acc => accumulateList width ns (accumulate width n acc)
end

/-- The measured text width of a subtree: the sum, from 0, of the string widths of its
`Text` nodes. -/
def textWidth (width : GoString → ℚ) (n : Node) : ℚ :=
  accumulate width n 0

/-- The local variables after texts were met that take the accumulator from `t` to `f t`:
inside a table the accumulator changes, outside nothing changes. -/
def Prepass.addText (st : Prepass) (f : ℚ → ℚ) : Prepass :=
  if st.intable then { st with textlength := f st.textlength } else st

/-- The columns recorded at a moment of the pre-pass: the elements of `lengths`. -/
def Prepass.view (st : Prepass) : List ℚ :=
  st.lengths.elems st.heap

/-- A text width with its padding of 20 percent, as the statement
`textlength += textlength * 0.2` computes it. -/
def padded (t : ℚ) : ℚ := addFloat64 t (mulFloat64 t (float64 0.2))

/-- The columns after a cell of padded width `x` is left in column `c`: the width of that
column is replaced when `x` is larger. -/
def widen (l : List ℚ) (c : Nat) (x : ℚ) : List ℚ :=
  match l.get? c with
  | some cur => if x > cur then l.set c x else l
  | none => l

/-- The columns after the cells of a row, of the padded widths `ws`, are left in the
columns `c`, `c + 1`, and so on. -/
def widenRow (l : List ℚ) (c : Nat) : List ℚ → List ℚ
  | [] => l
  | w :: ws => widenRow (widen l c w) (c + 1) ws

/-- A table cell as the parser makes it: its content has no node of the table kinds. -/
def isCell : Node → Bool
  | .container _ .TableCell kids => tableFreeList kids
  | _ => false

/-- The padded width of the text of a cell. -/
def cellWidth (width : GoString → ℚ) (cell : Node) : ℚ :=
  padded (textWidth width cell)

/-- The cells of a row. -/
def rowCells : Node → List Node
  | .container _ .TableRow cells => cells
  | _ => []

/-- A table row of at most `cols` cells. -/
def isRow (cols : Nat) : Node → Bool
  | .container _ .TableRow cells => cells.all isCell && decide (cells.length ≤ cols)
  | _ => false

/-- The padded widths of the cells of a row. -/
def rowWidths (width : GoString → ℚ) (row : Node) : List ℚ :=
  (rowCells row).map (cellWidth width)

/-- The rows of a table body or a table footer. -/
def sectionRows : Node → List Node
  | .container _ _ rows => rows
  | .leaf _ _ _ => []

/-- A table body, or a table footer (a kind the callback has no case for), whose rows have
at most `cols` cells. -/
def isSection (cols : Nat) : Node → Bool
  | .container _ .TableBody rows => rows.all (isRow cols)
  | .container _ (.OtherContainer _) rows => rows.all (isRow cols)
  | _ => false

/-- A table as the parser makes it when the table has a header row: a header of one row,
then bodies and footers none of whose rows has more cells than the header row. -/
def isTable : Node → Bool
  | .container _ .Table (.container _ .TableHeader [.container _ .TableRow cells] :: sections) =>
    cells.all isCell && sections.all (isSection cells.length)
  | _ => false

/-- The number of cells of the header row of a table. -/
def headerCount : Node → Nat
  | .container _ .Table (.container _ .TableHeader [.container _ .TableRow cells] :: _) =>
    cells.length
  | _ => 0

/-- The rows of a table, the header row first. -/
def tableRows : Node → List Node
  | .container _ .Table (.container _ .TableHeader hrows :: sections) =>
    hrows ++ sections.flatMap sectionRows
  | _ => []

/-- The widths expected for a table: one column for each cell of the header row, each
starting at 0 and widened by the cells of that column, row after row. -/
def specWidths (width : GoString → ℚ) (table : Node) : List ℚ :=
  (tableRows table).foldl (fun l row => widenRow l 0 (rowWidths width row))
    (List.replicate (headerCount table) 0)

mutual
/-- A document in which every table has a header row and no row has more cells than the
header row of its table, the nodes of the table kinds occurring in tables only. -/
def docOK : Node → Bool
  | .leaf _ _ _ => true
  | .container id k cs =>
    if k = .Table then isTable (.container id k cs) else !isTableKind k && docOKList cs
/-- Documents of that shape. -/
def docOKList : List Node → Bool
  | [] => true
  | n :: ns => docOK n && docOKList ns
end

mutual
/-- The tables of a document, in the order of the walk. -/
def tablesOf : Node → List Node
  | .leaf _ _ _ => []
  | .container id k cs => if k = .Table then [.container id k cs] else tablesOfList cs
/-- The tables of a list of subtrees. -/
def tablesOfList : List Node → List Node
  | [] => []
  | n :: ns => tablesOf n ++ tablesOfList ns
end

/-- The widths `setColumnWidths` should store for a document: for each table its address
and the widths expected for it. -/
def specColumnWidths (width : GoString → ℚ) (doc : Node) : List (Nat × List ℚ) :=
  (tablesOf doc).map (fun table => (nodeId table, specWidths width table))

/-- The slice `lengths` is on a backing array made at the address `N` or later, and its
length is within the capacity of that array. -/
def Prepass.Inside (N : Nat) (st : Prepass) : Prop :=
  N ≤ st.lengths.arr ∧ st.lengths.arr < st.heap.length ∧
    st.lengths.len ≤ (st.heap.getD st.lengths.arr []).length

/-- From `st` to `st2` the backing arrays below the address `N`, the map and the two flags
are kept, and `lengths` is on an array at `N` or later. -/
def Prepass.Keeps (N : Nat) (st st2 : Prepass) : Prop :=
  st2.heap.take N = st.heap.take N ∧ st2.columnWidths = st.columnWidths ∧
    st2.intable = st.intable ∧ st2.inheader = st.inheader ∧ st2.Inside N

/-- The slices stored for tables, each reading in the heap as the widths expected for its
table. -/
def SlicesOf (w : GoString → ℚ) (heap : List (List ℚ)) (tables : List Node)
    (slices : List Slice) : Prop :=
  List.Forall₂ (fun table sl => sl.arr < heap.length ∧ sl.elems heap = specWidths w table)
    tables slices

/-- Every column recorded in `l` is recorded in `l2` with a width that is not smaller. -/
def columnsGrow (l l2 : List ℚ) : Prop :=
  ∀ (j : Nat) (x : ℚ), l.get? j = some x → ∃ y, l2.get? j = some y ∧ x ≤ y

/-- Local variables in the body of a table of two columns of widths 72 and 48, when the
first cell of a row, with a text of width 100, is about to be left. -/
def exampleCellEnd : Prepass :=
  { heap := [[], [72, 48]], columnWidths := [], intable := true, inheader := false,
    cellnum := 0, lengths := ⟨1, 2⟩, textlength := 100 }

/-- A document of one paragraph with a text, outside any table. -/
def exampleParagraph : Node :=
  .container 1 .Paragraph [.leaf 2 .Text "wide".toList]

/-- The literal of a `Text` node; no other node has one for the pre-pass. -/
def textLiteral : Node → Option GoString
  | .leaf _ .Text lit => some lit
  | _ => none

/-- An environment in which every string measures 26.016, the `float64` of that
literal. -/
def exampleRoundedEnv : Env :=
  { exampleEnv with GetStringWidth := fun _ _ => float64 26.016 }

/-- A table of one column with a header row only. -/
def exampleOneCellTable : Node :=
  .container 70 .Table
    [.container 71 .TableHeader [.container 72 .TableRow [exampleCell 73 "x"]]]

mutual
/-- A subtree without a `Text` node. -/
def textFree : Node → Bool
  | .leaf _ k _ => decide (k ≠ .Text)
  | .container _ _ cs => textFreeList cs
/-- Subtrees without a `Text` node. -/
def textFreeList : List Node → Bool
  | [] => true
  | n :: ns => textFree n && textFreeList ns
end

/-- A document with the table of the scenario between two paragraphs. -/
def exampleDocument : Node :=
  .container 0 .Document
    [.container 1 .Paragraph [.leaf 2 .Text "wide".toList],
     exampleTable,
     .container 40 .Paragraph [.leaf 41 .Text "Long Header".toList]]

/-- A cell whose only content is an inline code. -/
def exampleCodeCell : Node :=
  .container 50 .TableCell [.leaf 51 .Code "wide".toList]

/-- A cell with texts inside an emphasis, a strong emphasis and a link, and an inline
code. -/
def exampleNestedCell : Node :=
  .container 60 .TableCell
    [.container 61 .Emph [.leaf 62 .Text "A".toList],
     .leaf 63 .Code "wide".toList,
     .container 64 .Strong [.container 65 .Link [.leaf 66 .Text "body".toList]]]

/-- Local variables in the body of a table of two columns of widths 72 and 48, at the
start of a row. -/
def examplePrepass : Prepass :=
  { heap := [[], [72, 48]], columnWidths := [], intable := true, inheader := false,
    cellnum := 0, lengths := ⟨1, 2⟩, textlength := 0 }

/-! # Theorems -/

theorem preorderList_eq_flatMap (ns : List Node) : preorderList ns = ns.flatMap preorder := by
  induction ns with
  | nil => simp [preorderList]
  | cons n ns ih => simp [preorderList, ih]

theorem extractVisit_leave (n : Node) (acc : GoString) :
    extractVisit n false acc = (acc, .GoToNext) := by
  simp [extractVisit]

theorem extractVisit_enter (n : Node) (acc : GoString) :
    extractVisit n true acc = (acc ++ ownLiteral n, .GoToNext) := by
  cases n with
  | leaf i k l => cases k <;> simp [extractVisit, ownLiteral]
  | container i k cs => simp [extractVisit, ownLiteral]

mutual
theorem walk_extract : ∀ (n : Node) (acc : GoString),
    Walk extractVisit n acc = (acc ++ ((preorder n).map ownLiteral).flatten, .GoToNext)
  | .leaf i k l, acc => by
    simp [Walk, extractVisit_enter, preorder]
  | .container i k cs, acc => by
    have h := walkChildren_extract cs (acc ++ ownLiteral (.container i k cs))
    simp [Walk, extractVisit_enter, extractVisit_leave, preorder, h]
theorem walkChildren_extract : ∀ (ns : List Node) (acc : GoString),
    WalkChildren extractVisit ns acc =
      (acc ++ ((preorderList ns).map ownLiteral).flatten, .GoToNext)
  | [], acc => by simp [WalkChildren, preorderList]
  | n :: ns, acc => by
    have h1 := walk_extract n acc
    have h2 := walkChildren_extract ns (acc ++ ((preorder n).map ownLiteral).flatten)
    simp [WalkChildren, preorderList, h1, h2]
end

theorem tocVisit_leave (ct : Char → Char) (n : Node) (v : TOCVisitor) :
    TOCVisitor.Visit ct n false v = (v, .GoToNext) := by
  simp [TOCVisitor.Visit]

theorem tocVisit_enter (ct : Char → Char) (n : Node) (v : TOCVisitor) :
    TOCVisitor.Visit ct n true v = (⟨v.entries ++ (tocEntryOf ct n).toList⟩, .GoToNext) := by
  cases n with
  | leaf i k l => simp [TOCVisitor.Visit, tocEntryOf]
  | container i k cs =>
    cases k <;> simp [TOCVisitor.Visit, tocEntryOf]
    split <;> simp_all

theorem filterMap_cons_toList {α β : Type} (f : α → Option β) (a : α) (l : List α) :
    (a :: l).filterMap f = (f a).toList ++ l.filterMap f := by
  cases h : f a <;> simp [List.filterMap_cons, h]

mutual
theorem walk_toc (ct : Char → Char) : ∀ (n : Node) (v : TOCVisitor),
    Walk (TOCVisitor.Visit ct) n v =
      (⟨v.entries ++ (preorder n).filterMap (tocEntryOf ct)⟩, .GoToNext)
  | .leaf i k l, v => by
    simp [Walk, tocVisit_enter, preorder, tocEntryOf]
  | .container i k cs, v => by
    have h := walkChildren_toc ct cs
      ⟨v.entries ++ (tocEntryOf ct (.container i k cs)).toList⟩
    simp [Walk, tocVisit_enter, tocVisit_leave, preorder, h, filterMap_cons_toList]
theorem walkChildren_toc (ct : Char → Char) : ∀ (ns : List Node) (v : TOCVisitor),
    WalkChildren (TOCVisitor.Visit ct) ns v =
      (⟨v.entries ++ (preorderList ns).filterMap (tocEntryOf ct)⟩, .GoToNext)
  | [], v => by simp [WalkChildren, preorderList]
  | n :: ns, v => by
    have h1 := walk_toc ct n v
    have h2 := walkChildren_toc ct ns ⟨v.entries ++ (preorder n).filterMap (tocEntryOf ct)⟩
    simp [WalkChildren, preorderList, h1, h2]
end

theorem tocEntryOf_eq (ct : Char → Char) (n : Node) :
    tocEntryOf ct n =
      if isTOCHeading n then
        (headingLevel n).map
          (fun lv => ⟨lv, ExtractTextFromNode n, slugID ct (ExtractTextFromNode n)⟩)
      else none := by
  cases n with
  | leaf i k l => simp [tocEntryOf, isTOCHeading]
  | container i k cs =>
    cases k <;> simp [tocEntryOf, isTOCHeading, headingLevel]

theorem filterMap_tocEntryOf (ct : Char → Char) (l : List Node) :
    (l.filterMap (tocEntryOf ct)).map (fun e => (some e.Level, e.Title)) =
      (l.filter isTOCHeading).map (fun n => (headingLevel n, ExtractTextFromNode n)) := by
  induction l with
  | nil => simp
  | cons n l ih =>
    rw [filterMap_cons_toList, List.map_append, ih, List.filter_cons]
    by_cases hn : isTOCHeading n = true
    · rw [if_pos hn, tocEntryOf_eq, if_pos hn]
      cases hl : headingLevel n with
      | none =>
        cases n with
        | leaf i k l => simp [isTOCHeading] at hn
        | container i k cs => cases k <;> simp_all [isTOCHeading, headingLevel]
      | some lv => simp [hl]
    · rw [if_neg hn, tocEntryOf_eq, if_neg hn]
      simp

/-! ## The identifier of a title -/

theorem replaceScan_single (c : Char) (new s : GoString) :
    replaceScan [c] new 0 s = s.flatMap (fun x => if x = c then new else [x]) := by
  induction s with
  | nil => simp [replaceScan]
  | cons x xs ih =>
    by_cases hx : x = c
    · subst hx
      simp [replaceScan, List.isPrefixOf, ih]
    · have hx2 : ¬ c = x := fun h => hx h.symm
      simp [replaceScan, List.isPrefixOf, ih, hx, hx2]

theorem ReplaceAll_single_delete (c : Char) (s : GoString) :
    ReplaceAll s [c] [] = s.filter (fun x => decide (x ≠ c)) := by
  simp only [ReplaceAll]
  rw [if_neg (by simp), if_neg (by simp), replaceScan_single]
  induction s with
  | nil => simp
  | cons x xs ih =>
    by_cases hx : x = c <;> simp [List.filter_cons, hx, ih]

theorem ReplaceAll_single_map (c d : Char) (hcd : c ≠ d) (s : GoString) :
    ReplaceAll s [c] [d] = s.map (fun x => if x = c then d else x) := by
  simp only [ReplaceAll]
  rw [if_neg (by simpa using hcd), if_neg (by simp), replaceScan_single]
  induction s with
  | nil => simp
  | cons x xs ih =>
    by_cases hx : x = c <;> simp [hx, ih]

theorem slugID_eq_slugSpec (ct : Char → Char) (title : GoString) :
    slugID ct title = slugSpec ct (TrimSpace title) := by
  simp only [slugID, slugSpec, ToLower]
  rw [ReplaceAll_single_map ' ' '-' (by decide)]
  simp only [ReplaceAll_single_delete, List.filter_filter]
  congr 1
  funext c
  simp only [ne_eq, decide_not, Bool.and_eq_true, Bool.not_eq_true', decide_eq_false_iff_not,
    Bool.decide_and]
  cases h1 : decide (c = '.') <;> cases h2 : decide (c = ',') <;>
    cases h3 : decide (c = '!') <;> cases h4 : decide (c = '?') <;> simp

theorem head?_dropWhile_false (p : Char → Bool) (l : GoString) (c : Char)
    (h : (l.dropWhile p).head? = some c) : p c = false := by
  induction l with
  | nil => simp at h
  | cons x xs ih =>
    by_cases hx : p x = true
    · rw [List.dropWhile_cons_of_pos hx] at h
      exact ih h
    · rw [List.dropWhile_cons_of_neg hx] at h
      simp only [List.head?_cons, Option.some.injEq] at h
      rw [← h]
      simpa using hx

theorem head?_of_append (a b : GoString) (c : Char) (h : a.head? = some c) :
    (a ++ b).head? = some c := by
  cases a with
  | nil => simp at h
  | cons x xs => simpa using h

/-- What `TrimSpace` removes: the title is white space, then the trimmed title, then white
space, and the trimmed title neither starts nor ends with a white space. -/
theorem TrimSpace_spec (s : GoString) :
    ∃ pre post, s = pre ++ TrimSpace s ++ post ∧
      (∀ c ∈ pre, IsSpace c = true) ∧ (∀ c ∈ post, IsSpace c = true) ∧
      (∀ c, (TrimSpace s).head? = some c → IsSpace c = false) ∧
      (∀ c, (TrimSpace s).getLast? = some c → IsSpace c = false) := by
  have hd : (s.dropWhile IsSpace).reverse
      = ((s.dropWhile IsSpace).reverse.takeWhile IsSpace)
        ++ ((s.dropWhile IsSpace).reverse.dropWhile IsSpace) :=
    (List.takeWhile_append_dropWhile _ _).symm
  have hd2 : s.dropWhile IsSpace
      = TrimSpace s ++ ((s.dropWhile IsSpace).reverse.takeWhile IsSpace).reverse := by
    have := congrArg List.reverse hd
    rw [List.reverse_reverse, List.reverse_append] at this
    exact this
  refine ⟨s.takeWhile IsSpace, ((s.dropWhile IsSpace).reverse.takeWhile IsSpace).reverse,
    ?_, ?_, ?_, ?_, ?_⟩
  · rw [List.append_assoc, ← hd2, List.takeWhile_append_dropWhile]
  · intro c hc
    exact (List.mem_takeWhile_imp hc)
  · intro c hc
    rw [List.mem_reverse] at hc
    exact (List.mem_takeWhile_imp hc)
  · intro c hc
    have h2 : (s.dropWhile IsSpace).head? = some c := by
      rw [hd2]
      exact head?_of_append _ _ c hc
    exact head?_dropWhile_false IsSpace s c h2
  · intro c hc
    have h2 : ((s.dropWhile IsSpace).reverse.dropWhile IsSpace).head? = some c := by
      rw [← hc]
      simp [TrimSpace]
    exact head?_dropWhile_false IsSpace _ c h2

theorem toNat_ofNat_small (n : Nat) (h : n < 0xd800) : (Char.ofNat n).toNat = n := by
  have hv : n.isValidChar := Or.inl h
  unfold Char.ofNat
  rw [dif_pos hv]
  simp [Char.ofNatAux, Char.toNat, UInt32.toNat]

theorem unicodeToLower_eq_space (ct : Char → Char)
    (hct : ∀ c : Char, 0x7F < c.val → ct c ≠ ' ') (c : Char)
    (h : unicodeToLower ct c = ' ') : c = ' ' := by
  unfold unicodeToLower at h
  split at h
  · split at h
    · rename_i h1 h2
      exfalso
      obtain ⟨ha, hz⟩ := h2
      have ha2 : 65 ≤ c.toNat := ha
      have hz2 : c.toNat ≤ 90 := hz
      have hn : (Char.ofNat (c.toNat + 32)).toNat = c.toNat + 32 :=
        toNat_ofNat_small _ (by omega)
      rw [h] at hn
      have hs : (' ' : Char).toNat = 32 := rfl
      omega
    · exact h
  · rename_i h1
    exact absurd h (hct c (by simpa using h1))

theorem slugSpec_clean (ct : Char → Char) (hct : ∀ c : Char, 0x7F < c.val → ct c ≠ ' ')
    (title : GoString) (c : Char) (hc : c ∈ slugSpec ct title) :
    c ≠ ' ' ∧ c ≠ '.' ∧ c ≠ ',' ∧ c ≠ '!' ∧ c ≠ '?' := by
  simp only [slugSpec, List.mem_filter, List.mem_map] at hc
  obtain ⟨⟨a, ⟨b, _, hb⟩, ha⟩, hf⟩ := hc
  refine ⟨?_, by simpa using hf⟩
  intro hsp
  rw [hsp] at ha
  have := unicodeToLower_eq_space ct hct a ha
  rw [this] at hb
  by_cases hbs : b = ' '
  · rw [if_pos hbs] at hb
    exact absurd hb (by decide)
  · rw [if_neg hbs] at hb
    exact hbs hb

theorem ownLiteral_of_not_textOrCode (m : Node) (h : isTextOrCode m = false) :
    ownLiteral m = [] := by
  cases m with
  | leaf i k l => cases k <;> simp_all [isTextOrCode, ownLiteral]
  | container i k cs => simp [ownLiteral]

/-! ## C4 -/

/-- C4. `ExtractTextFromNode n` is the concatenation, in depth-first pre-order, of the
literals of the `Text` and `Code` nodes of the subtree of `n`, `n` included, every other
node contributing nothing; so for a container it is the concatenation of the extracted
texts of the children in order, for a leaf that is neither `Text` nor `Code` it is empty,
and it is empty when the subtree holds no `Text` and no `Code` node. -/
theorem ExtractTextFromNode_preorder (n : Node) (id : Nat) (k : ContainerKind)
    (children : List Node) (lk : LeafKind) (lit : GoString) :
    ExtractTextFromNode n = ((preorder n).map ownLiteral).flatten ∧
    ExtractTextFromNode (.container id k children)
      = (children.map ExtractTextFromNode).flatten ∧
    (lk ≠ .Text → lk ≠ .Code → ExtractTextFromNode (.leaf id lk lit) = []) ∧
    ((∀ m ∈ preorder n, isTextOrCode m = false) → ExtractTextFromNode n = []) := by
  have hmain : ∀ m : Node, ExtractTextFromNode m = ((preorder m).map ownLiteral).flatten := by
    intro m
    simp [ExtractTextFromNode, walk_extract]
  refine ⟨hmain n, ?_, ?_, ?_⟩
  · rw [hmain]
    simp only [preorder, List.map_cons, List.flatten_cons, ownLiteral, List.nil_append]
    rw [preorderList_eq_flatMap]
    induction children with
    | nil => simp
    | cons c cs ih => simp [List.flatMap_cons, hmain c, ih]
  · intro h1 h2
    rw [hmain]
    cases lk <;> simp_all [preorder, ownLiteral]
  · intro h
    rw [hmain]
    simp only [List.flatten_eq_nil_iff, List.mem_map]
    rintro l ⟨m, hm, rfl⟩
    exact ownLiteral_of_not_textOrCode m (h m hm)

/-- C4, at a heading that holds an HTML span and an empty emphasis. -/
theorem ExtractTextFromNode_preorder_witness :
    ExtractTextFromNode
        (.container 1 (.Heading 2) [.leaf 2 .HTMLSpan "<br>".toList, .container 3 .Emph []])
      = [] ∧
    ExtractTextFromNode (.leaf 2 .HTMLSpan "<br>".toList) = [] :=
  ⟨(ExtractTextFromNode_preorder
      (.container 1 (.Heading 2) [.leaf 2 .HTMLSpan "<br>".toList, .container 3 .Emph []])
      0 .Document [] .HTMLSpan []).2.2.2 (by simp [preorder, preorderList, isTextOrCode]),
   (ExtractTextFromNode_preorder (.leaf 0 .Text []) 2 .Document [] .HTMLSpan
      "<br>".toList).2.2.1 (by decide) (by decide)⟩

/-! ## C2 -/

/-- C2. Walking a document with `TOCVisitor` gives one entry for each heading whose
extracted text is not empty and no other entry: the walk goes to its end, the number of
entries is the number of such headings, and the entries, in order, carry the levels and
the extracted texts of these headings in depth-first pre-order. `GetTOCEntries` returns
the entries of that walk on the parsed content. -/
theorem TOCVisitor_entries (caseTable : Char → Char) (doc : Node) (parse : GoString → Node)
    (content : GoString) :
    (Walk (TOCVisitor.Visit caseTable) doc ⟨[]⟩).2 = .GoToNext ∧
    (Walk (TOCVisitor.Visit caseTable) doc ⟨[]⟩).1.entries.length
      = ((preorder doc).filter isTOCHeading).length ∧
    (Walk (TOCVisitor.Visit caseTable) doc ⟨[]⟩).1.entries.map
        (fun e => (some e.Level, e.Title))
      = ((preorder doc).filter isTOCHeading).map
          (fun n => (headingLevel n, ExtractTextFromNode n)) ∧
    (GetTOCEntries caseTable parse content).map (fun e => (some e.Level, e.Title))
      = ((preorder (parse content)).filter isTOCHeading).map
          (fun n => (headingLevel n, ExtractTextFromNode n)) := by
  have h := filterMap_tocEntryOf caseTable
  refine ⟨by simp [walk_toc], ?_, by simp [walk_toc, h], by simp [GetTOCEntries, walk_toc, h]⟩
  have := congrArg List.length (h (preorder doc))
  simpa [walk_toc] using this

/-! ## C3 -/

/-- C3. The identifier of an entry is a function of its title alone. The title is white
space, then a trimmed title that neither starts nor ends with a white space, then white
space; the identifier is the trimmed title with its spaces replaced by hyphens,
lowercased, and the characters `. , ! ?` deleted. Two entries of equal titles have equal
identifiers, and no identifier holds a space or one of `. , ! ?`. The case tables of the
library are taken not to map a character outside ASCII to a space. -/
theorem TOCEntry_ID_of_title (caseTable : Char → Char)
    (hcase : ∀ c : Char, 0x7F < c.val → caseTable c ≠ ' ') (doc : Node) (e1 e2 : TOCEntry)
    (h1 : e1 ∈ (Walk (TOCVisitor.Visit caseTable) doc ⟨[]⟩).1.entries)
    (h2 : e2 ∈ (Walk (TOCVisitor.Visit caseTable) doc ⟨[]⟩).1.entries) :
    (∃ pre trimmed post, e1.Title = pre ++ trimmed ++ post ∧
      (∀ c ∈ pre, IsSpace c = true) ∧ (∀ c ∈ post, IsSpace c = true) ∧
      (∀ c, trimmed.head? = some c → IsSpace c = false) ∧
      (∀ c, trimmed.getLast? = some c → IsSpace c = false) ∧
      e1.ID = slugSpec caseTable trimmed) ∧
    (e1.Title = e2.Title → e1.ID = e2.ID) ∧
    (∀ c ∈ e1.ID, c ≠ ' ' ∧ c ≠ '.' ∧ c ≠ ',' ∧ c ≠ '!' ∧ c ≠ '?') := by
  have key : ∀ e ∈ (Walk (TOCVisitor.Visit caseTable) doc ⟨[]⟩).1.entries,
      e.ID = slugSpec caseTable (TrimSpace e.Title) := by
    intro e he
    simp only [walk_toc, List.nil_append, List.mem_filterMap] at he
    obtain ⟨n, _, hn⟩ := he
    rw [tocEntryOf_eq] at hn
    split at hn
    · cases hl : headingLevel n with
      | none => simp [hl] at hn
      | some lv =>
        simp only [hl, Option.map_some', Option.some.injEq] at hn
        rw [← hn]
        exact slugID_eq_slugSpec caseTable _
    · simp at hn
  refine ⟨?_, ?_, ?_⟩
  · obtain ⟨pre, post, hs, hpre, hpost, hhead, hlast⟩ := TrimSpace_spec e1.Title
    exact ⟨pre, TrimSpace e1.Title, post, hs, hpre, hpost, hhead, hlast, key e1 h1⟩
  · intro ht
    rw [key e1 h1, key e2 h2, ht]
  · intro c hc
    rw [key e1 h1] at hc
    exact slugSpec_clean caseTable hcase _ c hc

/-- C3, at a document with two headings whose title has a no-break space and a space
before `Intro: Go, fast!` and a tab and a newline after it: both get the identifier
`intro:-go-fast`, which is the identifier of the trimmed title. -/
theorem TOCEntry_ID_of_title_witness :
    (⟨1, examplePaddedTitle, "intro:-go-fast".toList⟩ : TOCEntry)
      ∈ (Walk (TOCVisitor.Visit id) examplePaddedTOCDoc ⟨[]⟩).1.entries ∧
    (⟨2, examplePaddedTitle, "intro:-go-fast".toList⟩ : TOCEntry)
      ∈ (Walk (TOCVisitor.Visit id) examplePaddedTOCDoc ⟨[]⟩).1.entries ∧
    examplePaddedTitle = "\u00a0 ".toList ++ "Intro: Go, fast!".toList ++ "\t\n".toList ∧
    "intro:-go-fast".toList = slugSpec id "Intro: Go, fast!".toList ∧
    (∃ pre trimmed post, examplePaddedTitle = pre ++ trimmed ++ post ∧
      (∀ c ∈ pre, IsSpace c = true) ∧ (∀ c ∈ post, IsSpace c = true) ∧
      (∀ c, trimmed.head? = some c → IsSpace c = false) ∧
      (∀ c, trimmed.getLast? = some c → IsSpace c = false) ∧
      "intro:-go-fast".toList = slugSpec id trimmed) ∧
    (∀ c ∈ "intro:-go-fast".toList, c ≠ ' ' ∧ c ≠ '.' ∧ c ≠ ',' ∧ c ≠ '!' ∧ c ≠ '?') :=
  have h := TOCEntry_ID_of_title id
    (fun c hc heq => by
      have h0 : c = ' ' := heq
      rw [h0] at hc
      exact absurd hc (by decide))
    examplePaddedTOCDoc ⟨1, examplePaddedTitle, "intro:-go-fast".toList⟩
    ⟨2, examplePaddedTitle, "intro:-go-fast".toList⟩ (by decide) (by decide)
  ⟨by decide, by decide, by decide, by decide, h.1, h.2.2⟩

/-! ## The container stack: C5, C6, C7 -/

theorem goIndex_last {α : Type} (l : List α) (x : α) :
    goIndex (l ++ [x]) (((l ++ [x]).length : Int) - 1) = some x := by
  have h : ((l ++ [x]).length : Int) - 1 = (l.length : Int) := by simp
  rw [h]
  simp [goIndex]

theorem goSliceTo_last {α : Type} (l : List α) (x : α) :
    goSliceTo (l ++ [x]) (((l ++ [x]).length : Int) - 1) = some l := by
  have h : ((l ++ [x]).length : Int) - 1 = (l.length : Int) := by simp
  rw [h]
  simp [goSliceTo]

theorem pop_append (l : List containerState) (x : containerState) :
    (states.mk (l ++ [x])).pop = some (x, ⟨l⟩) := by
  simp only [states.pop]
  rw [goIndex_last, goSliceTo_last]

theorem pop_nil : (states.mk []).pop = none := by
  simp [states.pop, goIndex]

theorem peek_append (l : List containerState) (x : containerState) :
    (states.mk (l ++ [x])).peek = some x := by
  simp only [states.peek]
  rw [goIndex_last]

theorem parent_append (l : List containerState) (x : containerState) :
    (states.mk (l ++ [x])).parent = (states.mk l).peek := by
  simp only [states.parent, states.peek]
  have h : ((l ++ [x]).length : Int) - 2 = (l.length : Int) - 1 := by
    simp only [List.length_append, List.length_singleton]
    push_cast
    ring
  rw [h]
  by_cases hl : (l.length : Int) - 1 < 0
  · simp [goIndex, hl]
  · have hlt : l.length - 1 < l.length := by omega
    simp only [goIndex, hl, if_false]
    simp only [List.get?_eq_getElem?]
    have ht : ((l.length : Int) - 1).toNat = l.length - 1 := by omega
    rw [ht]
    exact List.getElem?_append_left hlt

theorem list_eq_dropLast_append {α : Type} (l : List α) (h : l ≠ []) :
    ∃ x, l = l.dropLast ++ [x] :=
  ⟨l.getLast h, (List.dropLast_append_getLast h).symm⟩

/-- C5. A push followed by a pop returns the pushed frame and the stack as it was. A push
makes the stack one deeper and keeps the frames below. A pop on a stack of depth two or
more makes it one shallower, returns the former top frame and keeps the frames below. -/
theorem states_push_pop (s : states) (c : containerState) :
    (s.push c).pop = some (c, s) ∧
    (s.push c).stack.length = s.stack.length + 1 ∧
    (s.push c).stack.take s.stack.length = s.stack ∧
    (2 ≤ s.stack.length →
      ∃ top rest, s.pop = some (top, rest) ∧ rest.stack.length + 1 = s.stack.length ∧
        s.stack = rest.stack ++ [top] ∧ s.stack.getLast? = some top) := by
  refine ⟨pop_append s.stack c, by simp [states.push], by simp [states.push], ?_⟩
  intro h2
  have hne : s.stack ≠ [] := by
    intro h
    rw [h] at h2
    simp at h2
  obtain ⟨x, hx⟩ := list_eq_dropLast_append s.stack hne
  refine ⟨x, ⟨s.stack.dropLast⟩, ?_, ?_, hx, ?_⟩
  · have : s = ⟨s.stack.dropLast ++ [x]⟩ := by
      cases s
      simpa using hx
    rw [this]
    simpa using pop_append s.stack.dropLast x
  · have := congrArg List.length hx
    simpa using this.symm
  · rw [hx]
    simp

/-- C5, at a stack of two frames. -/
theorem states_push_pop_witness :
    2 ≤ (states.mk [exampleFrame 0, exampleFrame 1]).stack.length ∧
    ∃ top rest, (states.mk [exampleFrame 0, exampleFrame 1]).pop = some (top, rest) ∧
      rest.stack.length + 1 = (states.mk [exampleFrame 0, exampleFrame 1]).stack.length ∧
      (states.mk [exampleFrame 0, exampleFrame 1]).stack = rest.stack ++ [top] ∧
      (states.mk [exampleFrame 0, exampleFrame 1]).stack.getLast? = some top :=
  ⟨by decide,
   (states_push_pop ⟨[exampleFrame 0, exampleFrame 1]⟩ (exampleFrame 2)).2.2.2 (by decide)⟩

/-- C6, refuted at the stack that holds the root frame only: the pop does not fail, it
returns the root frame and leaves the stack empty. -/
theorem pop_root_succeeds :
    (states.mk [exampleFrame 0]).pop ≠ none ∧
    (states.mk [exampleFrame 0]).pop = some (exampleFrame 0, ⟨[]⟩) := by
  decide

/-- C6, amended. A pop fails exactly on the empty stack. On a stack of depth one it
returns that frame, the root, and leaves the stack empty; nothing in `pop` keeps the root
frame on the stack. -/
theorem pop_fails_iff_empty (s : states) (root : containerState) :
    (s.pop = none ↔ s.stack = []) ∧
    (states.mk [root]).pop = some (root, ⟨[]⟩) := by
  refine ⟨⟨?_, ?_⟩, pop_append [] root⟩
  · intro h
    by_contra hne
    obtain ⟨x, hx⟩ := list_eq_dropLast_append s.stack hne
    have : s = ⟨s.stack.dropLast ++ [x]⟩ := by
      cases s
      simpa using hx
    rw [this, pop_append] at h
    exact absurd h (by simp)
  · intro h
    have : s = ⟨[]⟩ := by
      cases s
      simpa using h
    rw [this]
    exact pop_nil

/-- C7. `peek` succeeds exactly on a stack of depth one or more and returns the top frame,
`parent` succeeds exactly on a stack of depth two or more and returns the frame below the
top; both only read the stack. After a push, `peek` is the pushed frame and `parent` is
what `peek` was before the push. -/
theorem peek_parent_positions (s : states) (c : containerState) :
    (s.peek.isSome ↔ 1 ≤ s.stack.length) ∧
    s.peek = s.stack.getLast? ∧
    (s.parent.isSome ↔ 2 ≤ s.stack.length) ∧
    s.parent = s.stack.dropLast.getLast? ∧
    (s.push c).peek = some c ∧
    (s.push c).parent = s.peek := by
  have hpeek : ∀ t : states, t.peek = t.stack.getLast? := by
    intro t
    by_cases hne : t.stack = []
    · have : t = ⟨[]⟩ := by
        cases t
        simpa using hne
      rw [this]
      simp [states.peek, goIndex]
    · obtain ⟨x, hx⟩ := list_eq_dropLast_append t.stack hne
      have : t = ⟨t.stack.dropLast ++ [x]⟩ := by
        cases t
        simpa using hx
      rw [this, peek_append]
      simp
  have hparent : s.parent = s.stack.dropLast.getLast? := by
    by_cases hne : s.stack = []
    · have : s = ⟨[]⟩ := by
        cases s
        simpa using hne
      rw [this]
      simp [states.parent, goIndex]
    · obtain ⟨x, hx⟩ := list_eq_dropLast_append s.stack hne
      have : s = ⟨s.stack.dropLast ++ [x]⟩ := by
        cases s
        simpa using hx
      have h2 := parent_append s.stack.dropLast x
      rw [← this] at h2
      rw [h2, hpeek]
  refine ⟨?_, hpeek s, ?_, hparent, peek_append s.stack c, ?_⟩
  · rw [hpeek]
    cases hs : s.stack with
    | nil => simp
    | cons a l => simp [List.getLast?_isSome]
  · rw [hparent]
    cases hs : s.stack with
    | nil => simp
    | cons a l =>
      cases l with
      | nil => simp
      | cons b l2 => simp [List.getLast?_isSome]
  · exact parent_append s.stack c

/-! ## Construction and the stack: C8 -/

theorem foldl_options_cs (opts : List RenderOption)
    (hopts : ∀ o ∈ opts, ∀ x : PdfRenderer, (o x).cs = x.cs) (r : PdfRenderer) :
    (opts.foldl (fun r o => o r) r).cs = r.cs := by
  induction opts generalizing r with
  | nil => rfl
  | cons o os ih =>
    simp only [List.foldl_cons]
    rw [ih (fun o2 h2 => hopts o2 (List.mem_cons_of_mem _ h2)), hopts o (List.mem_cons_self _ _)]

theorem newPdfRendererBase_stack (env : Env) (params : PdfRendererParams) (base : PdfRenderer)
    (h : newPdfRendererBase env params = some base) :
    base.cs.stack = [paragraphFrame base.Normal (env.GetMargins base.Pdf).1] ∧
      base.mleft = (env.GetMargins base.Pdf).1 := by
  unfold newPdfRendererBase at h
  cases ht : newPdfRendererTheme env params (newPdfRendererGlobals params) with
  | none => simp [ht] at h
  | some r =>
    simp only [ht, Option.some.injEq] at h
    subst h
    simp [newPdfRendererPage, states.push, paragraphFrame]

theorem newPdfRendererBase_isSome (env : Env) (params : PdfRendererParams) :
    (newPdfRendererBase env params).isSome = true ↔
      ¬ (params.Theme = CUSTOM ∧ params.CustomThemeFile ≠ "" ∧
          env.readTheme params.CustomThemeFile = none) := by
  have hT : (newPdfRendererGlobals params).Theme = params.Theme := rfl
  have hb : (newPdfRendererBase env params).isSome
      = (newPdfRendererTheme env params (newPdfRendererGlobals params)).isSome := by
    unfold newPdfRendererBase
    cases newPdfRendererTheme env params (newPdfRendererGlobals params) <;> rfl
  rw [hb]
  unfold newPdfRendererTheme
  rw [hT]
  have e1 : ¬ (DARK = CUSTOM) := by decide
  have e2 : ¬ (LIGHT = DARK) := by decide
  have e3 : ¬ (LIGHT = CUSTOM) := by decide
  have e4 : ¬ (CUSTOM = DARK) := by decide
  have e5 : ¬ (CUSTOM = LIGHT) := by decide
  by_cases hd : params.Theme = DARK
  · simp [hd, e1]
  · by_cases hl : params.Theme = LIGHT
    · simp [hl, e2, e3]
    · by_cases hc : params.Theme = CUSTOM
      · by_cases hf : params.CustomThemeFile = ""
        · simp [hc, hf, e4, e5]
        · cases ht : env.readTheme params.CustomThemeFile <;>
            simp [hc, hf, ht, e4, e5, PdfRenderer.SetCustomTheme]
      · simp [hd, hl, hc]

theorem foldl_UpdateParagraphStyler (stylers : List Styler) (r : PdfRenderer) :
    (stylers.foldl PdfRenderer.UpdateParagraphStyler r).cs.stack
      = r.cs.stack ++ stylers.map (fun st => paragraphFrame st r.mleft) := by
  induction stylers generalizing r with
  | nil => simp
  | cons st sts ih =>
    simp only [List.foldl_cons, List.map_cons]
    rw [ih]
    simp [PdfRenderer.UpdateParagraphStyler, states.push, paragraphFrame]

/-- C8. With options that leave the stack alone, `NewPdfRenderer` returns unless a custom
theme file cannot be read, and the renderer it returns has a stack of exactly one frame,
the root: not a list, ordinal 0, at the left margin the page surface reports during the
construction, with the `Normal` style of that moment. `UpdateParagraphStyler` only pushes
one frame, not a list, at the saved left margin, with the given style. So after any number
of such calls the stack is the root frame followed by one frame for each call. -/
theorem NewPdfRenderer_root_frame (env : Env) (params : PdfRendererParams)
    (hopts : ∀ o ∈ params.Opts, ∀ x : PdfRenderer, (o x).cs = x.cs)
    (stylers : List Styler) (style : Styler) (x : PdfRenderer) :
    ((NewPdfRenderer env params).isSome = true ↔
      ¬ (params.Theme = CUSTOM ∧ params.CustomThemeFile ≠ "" ∧
          env.readTheme params.CustomThemeFile = none)) ∧
    (∀ r, NewPdfRenderer env params = some r →
      ∃ base root, newPdfRendererBase env params = some base ∧
        r.cs.stack = [root] ∧ root.listkind = .notlist ∧ root.itemNumber = 0 ∧
        root.leftMargin = (env.GetMargins base.Pdf).1 ∧ root.textStyle = base.Normal ∧
        (stylers.foldl PdfRenderer.UpdateParagraphStyler r).cs.stack
          = root :: stylers.map (fun st => paragraphFrame st r.mleft) ∧
        1 ≤ (stylers.foldl PdfRenderer.UpdateParagraphStyler r).cs.stack.length ∧
        (stylers.foldl PdfRenderer.UpdateParagraphStyler r).cs.stack.head? = some root) ∧
    (x.UpdateParagraphStyler style).cs.stack = x.cs.stack ++ [paragraphFrame style x.mleft] ∧
    (paragraphFrame style x.mleft).listkind = .notlist ∧
    (paragraphFrame style x.mleft).textStyle = style ∧
    (paragraphFrame style x.mleft).leftMargin = x.mleft := by
  refine ⟨?_, ?_, by simp [PdfRenderer.UpdateParagraphStyler, states.push, paragraphFrame],
    rfl, rfl, rfl⟩
  · rw [← newPdfRendererBase_isSome]
    unfold NewPdfRenderer
    cases newPdfRendererBase env params <;> simp
  · intro r hr
    unfold NewPdfRenderer at hr
    cases hb : newPdfRendererBase env params with
    | none => simp [hb] at hr
    | some base =>
      simp only [hb, Option.some.injEq] at hr
      obtain ⟨hstack, _⟩ := newPdfRendererBase_stack env params base hb
      have hcs : r.cs = base.cs := by
        rw [← hr]
        exact foldl_options_cs params.Opts hopts base
      refine ⟨base, paragraphFrame base.Normal (env.GetMargins base.Pdf).1, rfl, ?_, rfl, rfl,
        rfl, rfl, ?_, ?_, ?_⟩
      · rw [hcs, hstack]
      · rw [foldl_UpdateParagraphStyler, hcs, hstack]
        rfl
      · rw [foldl_UpdateParagraphStyler, hcs, hstack]
        simp
      · rw [foldl_UpdateParagraphStyler, hcs, hstack]
        simp

/-- C8, at the parameters of the tests: the light theme and the two options of the
package, followed by two calls of `UpdateParagraphStyler`. -/
theorem NewPdfRenderer_root_frame_witness :
    (∀ o ∈ exampleParams.Opts, ∀ x : PdfRenderer, (o x).cs = x.cs) ∧
    ∃ r root, NewPdfRenderer exampleEnv exampleParams = some r ∧
      r.cs.stack = [root] ∧ root.listkind = .notlist ∧ root.leftMargin = 28 ∧
      (([Styler.zero, Styler.zero].foldl PdfRenderer.UpdateParagraphStyler r).cs.stack.head?
        = some root) := by
  have hopts : ∀ o ∈ exampleParams.Opts, ∀ x : PdfRenderer, (o x).cs = x.cs := by
    intro o ho x
    simp only [exampleParams, List.mem_cons, List.mem_singleton, List.not_mem_nil,
      or_false] at ho
    rcases ho with rfl | rfl <;> rfl
  have h := NewPdfRenderer_root_frame exampleEnv exampleParams hopts
    [Styler.zero, Styler.zero] Styler.zero PdfRenderer.zero
  have hsome : (NewPdfRenderer exampleEnv exampleParams).isSome = true :=
    h.1.mpr (fun hc => absurd hc.1 (by decide))
  obtain ⟨r, hr⟩ := Option.isSome_iff_exists.mp hsome
  obtain ⟨base, root, _, h1, h2, _, h4, _, _, _, h8⟩ := h.2.1 r hr
  exact ⟨hopts, r, root, hr, h1, h2, by rw [h4]; rfl, h8⟩

/-! ## The node visitor: C9 -/

theorem tracer_off (r : PdfRenderer) (h : r.tracerFile = "") (source msg : GoString) :
    r.tracer source msg = some r := by
  simp [PdfRenderer.tracer, h]

theorem tracer_ready (r : PdfRenderer)
    (h : r.tracerFile = "" ∨ (r.w ≠ none ∧ r.cs.stack ≠ [])) (source msg : GoString) :
    ∃ r1, r.tracer source msg = some r1 ∧ r1.Pdf = r.Pdf ∧ r1.cs = r.cs ∧
      r1.journal = r.journal ∧ r1 = { r with w := r1.w } ∧ (r.tracerFile = "" → r1 = r) := by
  by_cases ht : r.tracerFile = ""
  · exact ⟨r, tracer_off r ht source msg, rfl, rfl, rfl, rfl, fun _ => rfl⟩
  · rcases h with h | ⟨hw, hs⟩
    · exact absurd h ht
    · have hlen : ¬ ((r.cs.stack.length : Int) - 1 < 0) := by
        have : 0 < r.cs.stack.length := List.length_pos.mpr hs
        omega
      cases hw2 : r.w with
      | none => exact absurd hw2 hw
      | some p =>
        obtain ⟨path, lines⟩ := p
        have hcall : r.tracer source msg = some { r with w := some (path, lines ++
            [(List.replicate ((r.cs.stack.length : Int) - 1).toNat ['-']).flatten ++
              '[' :: source ++ ']' :: ' ' :: msg ++ ['\n']]) } := by
          simp only [PdfRenderer.tracer, ne_eq, ht, not_false_eq_true, if_true, Repeat, hlen,
            if_false, hw2]
        exact ⟨_, hcall, rfl, rfl, rfl, rfl, fun h0 => absurd h0 ht⟩

theorem tracer_fails_iff (r : PdfRenderer) (source msg : GoString) :
    r.tracer source msg = none ↔ r.tracerFile ≠ "" ∧ (r.cs.stack = [] ∨ r.w = none) := by
  by_cases ht : r.tracerFile = ""
  · simp [tracer_off r ht, ht]
  · by_cases hs : r.cs.stack = []
    · simp [PdfRenderer.tracer, ht, hs, Repeat]
    · have hlen : ¬ ((r.cs.stack.length : Int) - 1 < 0) := by
        have : 0 < r.cs.stack.length := List.length_pos.mpr hs
        omega
      cases hw : r.w with
      | none => simp [PdfRenderer.tracer, ht, Repeat, hlen, hw]
      | some p => simp [PdfRenderer.tracer, ht, Repeat, hlen, hw, hs]

/-- C9. `RenderNode` has one return, of `GoToNext`: whatever the node and the flag, a call
that returns gives `GoToNext`, and it returns whenever the case of the switch for the node
does. A node of a kind the switch has no case for always returns, with the page surface
and the stack as they were. For a `Del`, an `HTMLSpan` and a `Document` node, on a
renderer whose tracer is off or has its writer open and a stack that is not empty, the
call returns `GoToNext` with the page surface, the stack and the journal as they were:
only the writer of the trace can differ, and nothing differs when the tracer is off. -/
theorem RenderNode_GoToNext (env : Env) (h : Handlers) (r : PdfRenderer) (node : Node)
    (entering : Bool) (id tag : Nat) (lit : GoString) (children : List Node) :
    (r.RenderNode env h node entering = none ∨
      ∃ r1, r.RenderNode env h node entering = some (r1, .GoToNext)) ∧
    r.RenderNode env h node entering
      = (r.renderSwitch env h node entering).map (fun r1 => (r1, WalkStatus.GoToNext)) ∧
    (∃ r1, r.RenderNode env h (.leaf id (.OtherLeaf tag) lit) entering = some (r1, .GoToNext) ∧
      r1.Pdf = r.Pdf ∧ r1.cs = r.cs) ∧
    (∃ r1, r.RenderNode env h (.container id (.OtherContainer tag) children) entering
        = some (r1, .GoToNext) ∧ r1.Pdf = r.Pdf ∧ r1.cs = r.cs) ∧
    ((r.tracerFile = "" ∨ (r.w ≠ none ∧ r.cs.stack ≠ [])) →
      ∀ n ∈ [Node.container id .Del children, Node.leaf id .HTMLSpan lit,
              Node.container id .Document children],
        ∃ r1, r.RenderNode env h n entering = some (r1, .GoToNext) ∧
          r1.Pdf = r.Pdf ∧ r1.cs = r.cs ∧ r1.journal = r.journal ∧
          r1 = { r with w := r1.w } ∧ (r.tracerFile = "" → r1 = r)) := by
  have hmap : ∀ (n : Node) (e : Bool), r.RenderNode env h n e
      = (r.renderSwitch env h n e).map (fun r1 => (r1, WalkStatus.GoToNext)) := by
    intro n e
    unfold PdfRenderer.RenderNode
    cases r.renderSwitch env h n e <;> rfl
  refine ⟨?_, hmap node entering, ?_, ?_, ?_⟩
  · rw [hmap]
    cases r.renderSwitch env h node entering with
    | none => exact Or.inl rfl
    | some r1 => exact Or.inr ⟨r1, rfl⟩
  · rw [hmap]
    exact ⟨{ r with journal := r.journal ++ [Event.printed ("Unknown node type: ".toList ++
        env.typeName (.leaf id (.OtherLeaf tag) lit) ++ ". Skipping\n".toList)] },
      by simp only [PdfRenderer.renderSwitch, Option.map_some'], rfl, rfl⟩
  · rw [hmap]
    exact ⟨{ r with journal := r.journal ++ [Event.printed ("Unknown node type: ".toList ++
        env.typeName (.container id (.OtherContainer tag) children) ++
          ". Skipping\n".toList)] },
      by simp only [PdfRenderer.renderSwitch, Option.map_some'], rfl, rfl⟩
  · intro hready n hn
    simp only [List.mem_cons, List.mem_singleton, List.not_mem_nil, or_false] at hn
    rcases hn with rfl | rfl | rfl
    · cases entering
      · obtain ⟨r1, h1, h2⟩ := tracer_ready r hready "DEL (leaving)".toList "Not handled".toList
        exact ⟨r1, by rw [hmap]; exact congrArg (Option.map _) h1, h2⟩
      · obtain ⟨r1, h1, h2⟩ := tracer_ready r hready "DEL (entering)".toList "Not handled".toList
        exact ⟨r1, by rw [hmap]; exact congrArg (Option.map _) h1, h2⟩
    · obtain ⟨r1, h1, h2⟩ := tracer_ready r hready "HTMLSpan".toList "Not handled".toList
      exact ⟨r1, by rw [hmap]; exact congrArg (Option.map _) h1, h2⟩
    · obtain ⟨r1, h1, h2⟩ := tracer_ready r hready "Document".toList "Not Handled".toList
      exact ⟨r1, by rw [hmap]; exact congrArg (Option.map _) h1, h2⟩

/-- C9, at a strikethrough node on a renderer without a tracer file. -/
theorem RenderNode_GoToNext_witness :
    (PdfRenderer.zero.tracerFile = "" ∨
      (PdfRenderer.zero.w ≠ none ∧ PdfRenderer.zero.cs.stack ≠ [])) ∧
    ∃ r1, PdfRenderer.zero.RenderNode exampleEnv exampleHandlers
        (.container 7 .Del [.leaf 8 .Text "gone".toList]) true = some (r1, .GoToNext) ∧
      r1.Pdf = PdfRenderer.zero.Pdf ∧ r1.cs = PdfRenderer.zero.cs ∧
      r1.journal = PdfRenderer.zero.journal ∧
      r1 = { PdfRenderer.zero with w := r1.w } ∧
      (PdfRenderer.zero.tracerFile = "" → r1 = PdfRenderer.zero) :=
  ⟨Or.inl rfl,
   (RenderNode_GoToNext exampleEnv exampleHandlers PdfRenderer.zero
      (.container 0 .Document []) true 7 0 [] [.leaf 8 .Text "gone".toList]).2.2.2.2
      (Or.inl rfl) _ (List.mem_cons_self _ _)⟩

/-! ## `Run` and `Process`: C10 -/

theorem Run_error_none (env : Env) (h : Handlers) (r r1 : PdfRenderer) (content : GoString)
    (e : Option GoError) (hrun : r.Run env h content = some (r1, e)) : e = none := by
  unfold PdfRenderer.Run at hrun
  simp only at hrun
  split at hrun
  · exact absurd hrun (by simp)
  · split at hrun
    · exact absurd hrun (by simp)
    · simp only [Option.some.injEq, Prod.mk.injEq] at hrun
      exact hrun.2.symm

theorem processBody_of_run (env : Env) (h : Handlers) (r r2 : PdfRenderer) (content : GoString)
    (hrun : r.Run env h content = some (r2, none)) :
    r.processBody env h content
      = some (r2.issue (.OutputFileAndClose r2.pdfFile),
          (env.outputError r2.Pdf r2.pdfFile).map GoError.output) := by
  unfold PdfRenderer.processBody
  rw [hrun]
  simp only
  cases env.outputError r2.Pdf r2.pdfFile <;> rfl

theorem processBody_of_run_none (env : Env) (h : Handlers) (r : PdfRenderer)
    (content : GoString) (hrun : r.Run env h content = none) :
    r.processBody env h content = none := by
  unfold PdfRenderer.processBody
  rw [hrun]

theorem processBody_cases (env : Env) (h : Handlers) (r : PdfRenderer) (content : GoString) :
    (r.Run env h content = none ∧ r.processBody env h content = none) ∨
    ∃ r2, r.Run env h content = some (r2, none) ∧
      r.processBody env h content
        = some (r2.issue (.OutputFileAndClose r2.pdfFile),
            (env.outputError r2.Pdf r2.pdfFile).map GoError.output) := by
  cases hrun : r.Run env h content with
  | none => exact Or.inl ⟨rfl, processBody_of_run_none env h r content hrun⟩
  | some p =>
    obtain ⟨r2, e⟩ := p
    have he := Run_error_none env h r r2 content e hrun
    subst he
    exact Or.inr ⟨r2, rfl, processBody_of_run env h r r2 content hrun⟩

theorem Process_of_start (env : Env) (h : Handlers) (r : PdfRenderer) (content : GoString)
    (hok : r.tracerFile = "" ∨ env.canCreate r.tracerFile = true) :
    r.Process env h content
      = ((processStart r).processBody env h content).map
          (fun p => (if r.tracerFile ≠ "" then p.1.processDeferred r.tracerFile else p.1, p.2)) := by
  by_cases ht : r.tracerFile = ""
  · simp only [PdfRenderer.Process, processStart, ne_eq, ht, not_true_eq_false, if_false]
    cases r.processBody env h content <;> simp
  · have hc : env.canCreate r.tracerFile = true := by
      rcases hok with h0 | h0
      · exact absurd h0 ht
      · exact h0
    simp only [PdfRenderer.Process, processStart, ne_eq, ht, not_false_eq_true, if_true, hc]
    cases PdfRenderer.processBody env h
      { r with journal := r.journal ++ [Event.created r.tracerFile],
               w := some (r.tracerFile, []) } content with
    | none => rfl
    | some p => rfl

theorem processDeferred_Pdf (r : PdfRenderer) (path : String) :
    (r.processDeferred path).Pdf = r.Pdf := by
  unfold PdfRenderer.processDeferred
  cases r.w <;> rfl

/-- C10. `Run` never returns an error. When a tracer file is set and cannot be created,
`Process` returns the tracefile error at once, on the renderer as it was: nothing is
parsed, drawn or finalized. Without a tracer file no file is created, no writer is opened
and `tracer` does nothing. Otherwise `Process` calls `Run` and, when `Run` has returned,
issues `OutputFileAndClose` once, as the last operation, and returns its error if any;
when `Run` does not return, neither does `Process`. So `Process` returns an error exactly
when the tracer file is set and cannot be created, or the output fails after `Run`. -/
theorem Process_error_iff (env : Env) (h : Handlers) (r : PdfRenderer) (content : GoString)
    (e : GoError) :
    (∀ r1 e1, r.Run env h content = some (r1, e1) → e1 = none) ∧
    (r.tracerFile ≠ "" → env.canCreate r.tracerFile = false →
      r.Process env h content = some (r, some .tracefile)) ∧
    (r.tracerFile = "" →
      processStart r = r ∧ ∀ source msg, r.tracer source msg = some r) ∧
    ((r.tracerFile = "" ∨ env.canCreate r.tracerFile = true) →
      (∀ r2, (processStart r).Run env h content = some (r2, none) →
        ∃ r3, r.Process env h content
            = some (r3, (env.outputError r2.Pdf r2.pdfFile).map GoError.output) ∧
          r3.Pdf.ops = r2.Pdf.ops ++ [.OutputFileAndClose r2.pdfFile]) ∧
      ((processStart r).Run env h content = none → r.Process env h content = none)) ∧
    ((∃ r3, r.Process env h content = some (r3, some e)) ↔
      (r.tracerFile ≠ "" ∧ env.canCreate r.tracerFile = false ∧ e = .tracefile) ∨
      ((r.tracerFile = "" ∨ env.canCreate r.tracerFile = true) ∧
        ∃ r2 msg, (processStart r).Run env h content = some (r2, none) ∧
          env.outputError r2.Pdf r2.pdfFile = some msg ∧ e = .output msg)) := by
  have hfail : r.tracerFile ≠ "" → env.canCreate r.tracerFile = false →
      r.Process env h content = some (r, some .tracefile) := by
    intro ht hc
    simp [PdfRenderer.Process, ht, hc]
  have hrun : ∀ r2, (r.tracerFile = "" ∨ env.canCreate r.tracerFile = true) →
      (processStart r).Run env h content = some (r2, none) →
      r.Process env h content
        = some (if r.tracerFile ≠ "" then
              (r2.issue (.OutputFileAndClose r2.pdfFile)).processDeferred r.tracerFile
            else r2.issue (.OutputFileAndClose r2.pdfFile),
            (env.outputError r2.Pdf r2.pdfFile).map GoError.output) := by
    intro r2 hok h2
    rw [Process_of_start env h r content hok, processBody_of_run env h _ r2 content h2]
    rfl
  refine ⟨fun r1 e1 => Run_error_none env h r r1 content e1, hfail, ?_, ?_, ?_⟩
  · intro ht
    exact ⟨by simp [processStart, ht], tracer_off r ht⟩
  · intro hok
    refine ⟨?_, ?_⟩
    · intro r2 h2
      refine ⟨_, hrun r2 hok h2, ?_⟩
      by_cases ht : r.tracerFile = ""
      · simp [ht, PdfRenderer.issue]
      · simp [ht, processDeferred_Pdf, PdfRenderer.issue]
    · intro hnone
      rw [Process_of_start env h r content hok,
        processBody_of_run_none env h _ content hnone]
      rfl
  · by_cases hok : r.tracerFile = "" ∨ env.canCreate r.tracerFile = true
    · have hnot : ¬ (r.tracerFile ≠ "" ∧ env.canCreate r.tracerFile = false ∧ e = .tracefile) := by
        rintro ⟨h1, h2, _⟩
        rcases hok with h0 | h0
        · exact h1 h0
        · rw [h0] at h2
          exact absurd h2 (by simp)
      constructor
      · rintro ⟨r3, h3⟩
        refine Or.inr ⟨hok, ?_⟩
        rcases processBody_cases env h (processStart r) content with ⟨hn, _⟩ | ⟨r2, h2, _⟩
        · rw [Process_of_start env h r content hok,
            processBody_of_run_none env h _ content hn] at h3
          exact absurd h3 (by simp)
        · rw [hrun r2 hok h2] at h3
          simp only [Option.some.injEq, Prod.mk.injEq] at h3
          cases ho : env.outputError r2.Pdf r2.pdfFile with
          | none =>
            rw [ho] at h3
            exact absurd h3.2 (by simp)
          | some msg =>
            rw [ho] at h3
            refine ⟨r2, msg, h2, ho, ?_⟩
            have := h3.2
            simp only [Option.map_some', Option.some.injEq] at this
            exact this.symm
      · rintro (hl | ⟨_, r2, msg, h2, ho, he⟩)
        · exact absurd hl hnot
        · rw [hrun r2 hok h2, ho, he]
          exact ⟨_, rfl⟩
    · have ht : r.tracerFile ≠ "" := fun h0 => hok (Or.inl h0)
      have hc : env.canCreate r.tracerFile = false := by
        cases hcc : env.canCreate r.tracerFile with
        | false => rfl
        | true => exact absurd (Or.inr hcc) hok
      constructor
      · rintro ⟨r3, h3⟩
        rw [hfail ht hc] at h3
        simp only [Option.some.injEq, Prod.mk.injEq] at h3
        exact Or.inl ⟨ht, hc, h3.2.symm⟩
      · rintro (⟨_, _, he⟩ | ⟨hok2, _⟩)
        · exact ⟨r, by rw [hfail ht hc, he]⟩
        · exact absurd hok2 hok

/-- C10, at a renderer with a tracer file that cannot be created, and at one without a
tracer file. -/
theorem Process_error_iff_witness :
    (exampleTracedRenderer.tracerFile ≠ "" ∧
      exampleEnvNoCreate.canCreate exampleTracedRenderer.tracerFile = false ∧
      exampleTracedRenderer.Process exampleEnvNoCreate exampleHandlers "# Title".toList
        = some (exampleTracedRenderer, some .tracefile)) ∧
    (PdfRenderer.zero.tracerFile = "" ∧ processStart PdfRenderer.zero = PdfRenderer.zero) :=
  ⟨⟨by decide, rfl,
      (Process_error_iff exampleEnvNoCreate exampleHandlers exampleTracedRenderer
        "# Title".toList .tracefile).2.1 (by decide) rfl⟩,
   ⟨rfl,
      ((Process_error_iff exampleEnv exampleHandlers PdfRenderer.zero [] .tracefile).2.2.1
        rfl).1⟩⟩

/-! ## The table pre-pass: C1 -/

/-- C1, at two documents. For the table of the scenario alone the stored widths are 72 and
48, which are 1.2 times the widest cells of its columns (60 and 40). When a table without
a header row follows, its cells are measured into the same slice, which the entry of the
first table still refers to: the first table ends with the width 120 for its first
column, although its widest cell there measures 60. -/
theorem setColumnWidths_shared_slice :
    (setColumnWidths exampleEnv (.container 0 .Document [exampleTable])
        PdfRenderer.zero).map (fun r => r.ColumnWidths)
      = some [(10, [72, 48])] ∧
    (setColumnWidths exampleEnv (.container 0 .Document [exampleTable, exampleHeaderlessTable])
        PdfRenderer.zero).map (fun r => r.ColumnWidths)
      = some [(10, [120, 48]), (30, [120, 48])] := by
  decide!

/-! ## Styles on the page surface: C12, C13 -/

/-- C12, refuted at the style `bbi`: the bold marker occurs twice and `setStyler` hands the
page surface the string `bbi` as it is; likewise `ii` goes through unchanged. -/
theorem setStyler_passes_bbi :
    (PdfRenderer.zero.setStyler ⟨"Arial", "bbi", 12, 2, ⟨0, 0, 0⟩, ⟨255, 255, 255⟩⟩).Pdf.ops
      = [.SetFont "Arial" "bbi" 12, .SetTextColor 0 0 0, .SetFillColor 255 255 255] ∧
    (PdfRenderer.zero.setStyler ⟨"Arial", "ii", 12, 2, ⟨0, 0, 0⟩, ⟨255, 255, 255⟩⟩).Pdf.ops
      = [.SetFont "Arial" "ii" 12, .SetTextColor 0 0 0, .SetFillColor 255 255 255] := by
  constructor <;> rfl

/-- C12, amended. `setStyler` rewrites the style string `bb`, and only that string, into
`b`; every other style string, valid or not, goes to the page surface as it is. The font
name, the size, the text colour and the fill colour go to the page surface unchanged, and
nothing else of the renderer changes. -/
theorem setStyler_ops (r : PdfRenderer) (s : Styler) :
    (r.setStyler s).Pdf.ops
      = r.Pdf.ops ++
        [.SetFont s.Font (if s.Style = "bb" then "b" else s.Style) s.Size,
         .SetTextColor s.TextColor.Red s.TextColor.Green s.TextColor.Blue,
         .SetFillColor s.FillColor.Red s.FillColor.Green s.FillColor.Blue] ∧
    r.setStyler s = { r with Pdf := (r.setStyler s).Pdf } := by
  by_cases hs : s.Style = "bb"
  · simp [PdfRenderer.setStyler, PdfRenderer.issue, hs]
  · simp [PdfRenderer.setStyler, PdfRenderer.issue, hs]

/-- C13. `write`, `multiCell` and `writeLink` issue one operation each, with the line
height `Size + Spacing` of the style given. On a renderer whose stack has a top frame and
whose tracer is off or has its writer open, `cr` issues the single operation that writes
the string of one newline with the line height `Size + Spacing` of the style of the top
frame, and leaves the stack as it was. -/
theorem text_helpers_line_height (env : Env) (r : PdfRenderer) (s : Styler)
    (t display url : GoString) (top : containerState) :
    (r.write s t).Pdf.ops = r.Pdf.ops ++ [.Write (s.Size + s.Spacing) t] ∧
    (r.multiCell s t).Pdf.ops = r.Pdf.ops ++ [.MultiCell 0 (s.Size + s.Spacing) t "" "" true] ∧
    (r.writeLink s display url).Pdf.ops
      = r.Pdf.ops ++ [.WriteLinkString (s.Size + s.Spacing) display url] ∧
    (r.write s t).cs = r.cs ∧ (r.multiCell s t).cs = r.cs ∧
    (r.writeLink s display url).cs = r.cs ∧
    (r.cs.peek = some top → (r.tracerFile = "" ∨ r.w ≠ none) →
      ∃ r1, r.cr env = some r1 ∧
        r1.Pdf.ops
          = r.Pdf.ops ++ [.Write (top.textStyle.Size + top.textStyle.Spacing) ['\n']] ∧
        r1.cs = r.cs) := by
  refine ⟨rfl, rfl, rfl, rfl, rfl, rfl, ?_⟩
  intro hpeek htr
  have hne : r.cs.stack ≠ [] := by
    intro h0
    have : r.cs = ⟨[]⟩ := by
      cases hcs : r.cs
      simp only [hcs] at h0
      simp [h0]
    rw [this] at hpeek
    simp [states.peek, goIndex] at hpeek
  have hready : r.tracerFile = "" ∨ (r.w ≠ none ∧ r.cs.stack ≠ []) := by
    rcases htr with h1 | h1
    · exact Or.inl h1
    · exact Or.inr ⟨h1, hne⟩
  obtain ⟨r0, h0, hpdf, hcs, _⟩ := tracer_ready r hready "cr()".toList
    ("LH=".toList ++ env.fmtFloat (top.textStyle.Size + top.textStyle.Spacing))
  have hpeek0 : r0.cs.peek = some top := by rw [hcs]; exact hpeek
  refine ⟨r0.write top.textStyle ['\n'], ?_, ?_, ?_⟩
  · simp only [PdfRenderer.cr, hpeek, h0, hpeek0]
  · simp [PdfRenderer.write, PdfRenderer.issue, hpdf]
  · simp [PdfRenderer.write, PdfRenderer.issue, hcs]

/-- C13, at a renderer without a tracer file whose stack holds one frame of size 14 and
spacing 3. -/
theorem text_helpers_line_height_witness :
    (({ PdfRenderer.zero with cs := ⟨[paragraphFrame exampleStyler 28]⟩ } : PdfRenderer).cs.peek
        = some (paragraphFrame exampleStyler 28)) ∧
    ∃ r1, ({ PdfRenderer.zero with cs := ⟨[paragraphFrame exampleStyler 28]⟩ } :
          PdfRenderer).cr exampleEnv = some r1 ∧
      r1.Pdf.ops = [.Write (14 + 3) ['\n']] ∧
      r1.cs = ⟨[paragraphFrame exampleStyler 28]⟩ :=
  ⟨by decide,
   (text_helpers_line_height exampleEnv
      { PdfRenderer.zero with cs := ⟨[paragraphFrame exampleStyler 28]⟩ } exampleStyler [] [] []
      (paragraphFrame exampleStyler 28)).2.2.2.2.2.2 (by decide) (Or.inl rfl)⟩

/-! ## The constructor with a default style: C17 -/

theorem newPdfRendererTheme_noFile (env : Env) (params : PdfRendererParams)
    (hfile : params.CustomThemeFile = "") :
    ∃ r, newPdfRendererTheme env params (newPdfRendererGlobals params) = some r ∧
      r.Normal = themeNormal env params.Theme := by
  have hT : (newPdfRendererGlobals params).Theme = params.Theme := rfl
  unfold newPdfRendererTheme themeNormal
  rw [hT]
  by_cases hd : params.Theme = DARK
  · exact ⟨_, by rw [if_pos hd], by rw [if_pos hd]; rfl⟩
  · by_cases hl : params.Theme = LIGHT
    · exact ⟨_, by rw [if_neg hd, if_pos hl], by rw [if_neg hd, if_pos hl]; rfl⟩
    · by_cases hc : params.Theme = CUSTOM
      · refine ⟨newPdfRendererGlobals params, ?_, ?_⟩
        · rw [if_neg hd, if_neg hl, if_pos hc]
          simp [hfile]
        · rw [if_neg hd, if_neg hl]
          rfl
      · refine ⟨newPdfRendererGlobals params, ?_, ?_⟩
        · rw [if_neg hd, if_neg hl, if_neg hc]
        · rw [if_neg hd, if_neg hl]
          rfl

theorem foldl_options_head (opts : List RenderOption)
    (hopts : ∀ o ∈ opts, ∀ (x : PdfRenderer) (f : containerState),
      x.cs.stack.head? = some f → (o x).cs.stack.head? = some f)
    (r : PdfRenderer) (f : containerState) (hr : r.cs.stack.head? = some f) :
    (opts.foldl (fun r o => o r) r).cs.stack.head? = some f := by
  induction opts generalizing r with
  | nil => exact hr
  | cons o os ih =>
    simp only [List.foldl_cons]
    exact ih (fun o2 h2 => hopts o2 (List.mem_cons_of_mem _ h2)) (o r)
      (hopts o (List.mem_cons_self _ _) r f hr)

/-- C17. With options that keep the bottom frame of the stack,
`NewPdfRendererWithDefaultStyler` returns a renderer whose `Normal` is the default style
given, the assignment running after every option of the caller, and whose root frame, the
bottom of the stack, has the `Normal` of the theme as its text style: the root frame is
pushed before the options run. So the text style of the root frame differs from the
`Normal` of the renderer exactly when the default style differs from the `Normal` of the
theme. -/
theorem NewPdfRendererWithDefaultStyler_root (env : Env)
    (orient papersz pdfFile tracerFile : String) (defaultStyler : Styler)
    (opts : List RenderOption) (theme : Theme)
    (hopts : ∀ o ∈ opts, ∀ (x : PdfRenderer) (f : containerState),
      x.cs.stack.head? = some f → (o x).cs.stack.head? = some f) :
    ∃ r root,
      NewPdfRendererWithDefaultStyler env orient papersz pdfFile tracerFile defaultStyler opts
          theme = some r ∧
      r.Normal = defaultStyler ∧
      r.cs.stack.head? = some root ∧
      root.textStyle = themeNormal env theme ∧
      (root.textStyle ≠ r.Normal ↔ defaultStyler ≠ themeNormal env theme) := by
  obtain ⟨themed, hthemed, hnormal⟩ := newPdfRendererTheme_noFile env
    { Orientation := orient, Papersz := papersz, PdfFile := pdfFile, TracerFile := tracerFile,
      FontFile := "", FontName := "",
      Opts := opts ++ [defaultStylerOption defaultStyler],
      Theme := theme, CustomThemeFile := "" } rfl
  have hhead : (newPdfRendererPage env themed).cs.stack.head?
      = some (paragraphFrame themed.Normal (env.GetMargins (newPdfRendererPage env themed).Pdf).1) := by
    simp [newPdfRendererPage, states.push, paragraphFrame, PdfRenderer.setStyler,
      PdfRenderer.AddPage, PdfRenderer.issue, PdfRenderer.SetPageBackground, dorect]
  refine ⟨(opts ++ [defaultStylerOption defaultStyler]).foldl (fun r o => o r)
      (newPdfRendererPage env themed),
    paragraphFrame themed.Normal (env.GetMargins (newPdfRendererPage env themed).Pdf).1,
    ?_, ?_, ?_, hnormal, ?_⟩
  · simp only [NewPdfRendererWithDefaultStyler, NewPdfRenderer, newPdfRendererBase, hthemed]
  · simp [List.foldl_append, defaultStylerOption]
  · simp only [List.foldl_append, List.foldl_cons, List.foldl_nil, defaultStylerOption]
    exact foldl_options_head opts hopts _ _ hhead
  · simp only [List.foldl_append, List.foldl_cons, List.foldl_nil, paragraphFrame,
      defaultStylerOption]
    rw [hnormal]
    exact ⟨fun h e => h e.symm, fun h e => h e.symm⟩

/-- C17, at the dark theme with a default style in Times and an option that pushes a
paragraph frame. -/
theorem NewPdfRendererWithDefaultStyler_root_witness :
    (∀ o ∈ [fun r : PdfRenderer => r.UpdateParagraphStyler exampleStyler],
      ∀ (x : PdfRenderer) (f : containerState),
        x.cs.stack.head? = some f → (o x).cs.stack.head? = some f) ∧
    ∃ r root,
      NewPdfRendererWithDefaultStyler exampleEnv "" "" "out.pdf" "" exampleStyler
          [fun r : PdfRenderer => r.UpdateParagraphStyler exampleStyler] DARK = some r ∧
      r.Normal = exampleStyler ∧
      r.cs.stack.head? = some root ∧
      root.textStyle = ⟨"Arial", "", 12, 2, ⟨0, 0, 0⟩, ⟨0, 0, 0⟩⟩ ∧
      root.textStyle ≠ r.Normal := by
  have hopts : ∀ o ∈ [fun r : PdfRenderer => r.UpdateParagraphStyler exampleStyler],
      ∀ (x : PdfRenderer) (f : containerState),
        x.cs.stack.head? = some f → (o x).cs.stack.head? = some f := by
    intro o ho x f hx
    simp only [List.mem_singleton] at ho
    subst ho
    cases hs : x.cs.stack with
    | nil => simp [hs] at hx
    | cons a l =>
      simp only [hs, List.head?_cons, Option.some.injEq] at hx
      simp [PdfRenderer.UpdateParagraphStyler, states.push, hs, hx]
  obtain ⟨r, root, h1, h2, h3, h4, h5⟩ := NewPdfRendererWithDefaultStyler_root exampleEnv
    "" "" "out.pdf" "" exampleStyler
    [fun r : PdfRenderer => r.UpdateParagraphStyler exampleStyler] DARK hopts
  have h4b : root.textStyle = ⟨"Arial", "", 12, 2, ⟨0, 0, 0⟩, ⟨0, 0, 0⟩⟩ := by
    rw [h4]
    rfl
  refine ⟨hopts, r, root, h1, h2, h3, h4b, h5.mpr ?_⟩
  rw [show themeNormal exampleEnv DARK = ⟨"Arial", "", 12, 2, ⟨0, 0, 0⟩, ⟨0, 0, 0⟩⟩ from rfl]
  simp [exampleStyler]

/-! ## The table of contents of the command: C11 -/

theorem titleMapLookup_map (m : List (GoString × Int)) (k t : GoString) (v : Int) :
    titleMapLookup (m.map (fun e => if e.1 = k then (k, v) else e)) t
      = if t = k then (titleMapLookup m t).map (fun _ => v) else titleMapLookup m t := by
  induction m with
  | nil => simp [titleMapLookup]
  | cons e es ih =>
    simp only [titleMapLookup] at ih ⊢
    by_cases hek : e.1 = k
    · by_cases htk : t = k
      · simp [List.find?_cons, hek, htk]
      · have hkt : ¬ k = t := fun h => htk h.symm
        simp only [List.map_cons, hek, if_true, List.find?_cons, hkt, decide_False, htk,
          if_false] at ih ⊢
        exact ih
    · by_cases het : e.1 = t
      · have htk : ¬ t = k := fun h => hek (het.trans h)
        simp [List.find?_cons, hek, het, htk]
      · simp only [List.map_cons, hek, if_false, List.find?_cons, het, decide_False] at ih ⊢
        exact ih

theorem titleMapLookup_isSome (m : List (GoString × Int)) (k : GoString) :
    (titleMapLookup m k).isSome = m.any (fun e => decide (e.1 = k)) := by
  induction m with
  | nil => simp [titleMapLookup]
  | cons e es ih =>
    simp only [titleMapLookup] at ih ⊢
    by_cases hek : e.1 = k <;> simp [List.find?_cons, hek, ih]

theorem titleMapLookup_assign (m : List (GoString × Int)) (k t : GoString) (v : Int) :
    titleMapLookup (titleMapAssign m k v) t
      = if t = k then some v else titleMapLookup m t := by
  unfold titleMapAssign
  by_cases hany : m.any (fun e => decide (e.1 = k)) = true
  · rw [if_pos hany, titleMapLookup_map]
    by_cases htk : t = k
    · subst htk
      rw [if_pos rfl, if_pos rfl]
      have := titleMapLookup_isSome m t
      rw [hany] at this
      obtain ⟨x, hx⟩ := Option.isSome_iff_exists.mp this
      rw [hx]
      rfl
    · rw [if_neg htk, if_neg htk]
  · rw [if_neg hany]
    have hnone : titleMapLookup m k = none := by
      have := titleMapLookup_isSome m k
      cases hl : titleMapLookup m k with
      | none => rfl
      | some x =>
        rw [hl] at this
        exact absurd this.symm hany
    by_cases htk : t = k
    · subst htk
      simp only [titleMapLookup] at hnone ⊢
      simp only [Option.map_eq_none'] at hnone
      simp [List.find?_append, hnone]
    · have hkt : ¬ k = t := fun h => htk h.symm
      simp only [titleMapLookup]
      simp [List.find?_append, htk, hkt]

theorem titleMapAssign_keys (m : List (GoString × Int)) (k : GoString) (v : Int) :
    (titleMapAssign m k v).map Prod.fst
      = if k ∈ m.map Prod.fst then m.map Prod.fst else m.map Prod.fst ++ [k] := by
  unfold titleMapAssign
  by_cases hany : m.any (fun e => decide (e.1 = k)) = true
  · have hmem : k ∈ m.map Prod.fst := by
      simp only [List.any_eq_true, decide_eq_true_eq] at hany
      obtain ⟨e, he, hek⟩ := hany
      exact List.mem_map.mpr ⟨e, he, hek⟩
    rw [if_pos hany, if_pos hmem, List.map_map]
    apply List.map_congr_left
    intro e _
    by_cases hek : e.1 = k <;> simp [hek]
  · have hmem : ¬ k ∈ m.map Prod.fst := by
      intro h
      apply hany
      obtain ⟨e, he, hek⟩ := List.mem_map.mp h
      simp only [List.any_eq_true, decide_eq_true_eq]
      exact ⟨e, he, hek⟩
    rw [if_neg hany, if_neg hmem]
    simp

theorem tocAllocate_spec (headers : List TOCEntry) (pdf : Fpdf) (links : List (GoString × Int)) :
    (tocAllocate headers (pdf, links)).1.ops
        = pdf.ops ++ List.replicate headers.length PdfOp.AddLink ∧
    (∀ t, titleMapLookup (tocAllocate headers (pdf, links)).2 t
        = match lastLinkOf ((pdf.ops.count PdfOp.AddLink : Int) + 1) headers t with
          | some link => some link
          | none => titleMapLookup links t) ∧
    ((links.map Prod.fst).Nodup →
      ((tocAllocate headers (pdf, links)).2.map Prod.fst).Nodup) ∧
    (∀ t, t ∈ (tocAllocate headers (pdf, links)).2.map Prod.fst
        ↔ t ∈ links.map Prod.fst ∨ t ∈ headers.map (fun e => e.Title)) := by
  induction headers generalizing pdf links with
  | nil => simp [tocAllocate, lastLinkOf]
  | cons header rest ih =>
    have hcount : ((pdf.ops ++ [PdfOp.AddLink]).count PdfOp.AddLink : Int)
        = (pdf.ops.count PdfOp.AddLink : Int) + 1 := by
      simp [List.count_append]
    obtain ⟨h1, h2, h3, h4⟩ := ih ⟨pdf.ops ++ [PdfOp.AddLink]⟩
      (titleMapAssign links header.Title ((pdf.ops.count PdfOp.AddLink : Int) + 1))
    refine ⟨?_, ?_, ?_, ?_⟩
    · simp only [tocAllocate, Fpdf.AddLink, h1, List.length_cons, List.replicate_succ]
      simp
    · intro t
      simp only [tocAllocate, Fpdf.AddLink, h2 t, hcount, lastLinkOf]
      cases lastLinkOf ((pdf.ops.count PdfOp.AddLink : Int) + 1 + 1) rest t with
      | some link => rfl
      | none =>
        simp only [titleMapLookup_assign]
        by_cases ht : t = header.Title
        · simp [ht]
        · have ht2 : ¬ header.Title = t := fun h => ht h.symm
          simp [ht, ht2]
    · intro hnd
      simp only [tocAllocate, Fpdf.AddLink]
      apply h3
      rw [titleMapAssign_keys]
      by_cases hmem : header.Title ∈ links.map Prod.fst
      · rw [if_pos hmem]
        exact hnd
      · rw [if_neg hmem]
        exact List.Nodup.append hnd (List.nodup_singleton _) (by simpa using hmem)
    · intro t
      simp only [tocAllocate, Fpdf.AddLink, h4 t, titleMapAssign_keys]
      by_cases hmem : header.Title ∈ links.map Prod.fst
      · rw [if_pos hmem]
        simp only [List.map_cons, List.mem_cons]
        constructor
        · rintro (h | h)
          · exact Or.inl h
          · exact Or.inr (Or.inr h)
        · rintro (h | h | h)
          · exact Or.inl h
          · exact Or.inl (h ▸ hmem)
          · exact Or.inr h
      · rw [if_neg hmem]
        simp only [List.map_cons, List.mem_cons, List.mem_append, List.mem_singleton]
        tauto

theorem lastLinkOf_none (first : Int) (headers : List TOCEntry) (t : GoString)
    (h : ∀ x ∈ headers, x.Title ≠ t) : lastLinkOf first headers t = none := by
  induction headers generalizing first with
  | nil => rfl
  | cons e rest ih =>
    have h1 : ¬ e.Title = t := h e (List.mem_cons_self _ _)
    simp [lastLinkOf, ih (first + 1) (fun x hx => h x (List.mem_cons_of_mem _ hx)), h1]

theorem lastLinkOf_last (first : Int) (pre post : List TOCEntry) (e : TOCEntry)
    (h : ∀ x ∈ post, x.Title ≠ e.Title) :
    lastLinkOf first (pre ++ e :: post) e.Title = some (first + pre.length) := by
  induction pre generalizing first with
  | nil => simp [lastLinkOf, lastLinkOf_none (first + 1) post e.Title h]
  | cons p rest ih =>
    have hih := ih (first + 1)
    have hlen : first + 1 + (rest.length : Int) = first + ((p :: rest).length : Int) := by
      simp only [List.length_cons]
      push_cast
      ring
    rw [hlen] at hih
    show (match lastLinkOf (first + 1) (rest ++ e :: post) e.Title with
      | some link => some link
      | none => if p.Title = e.Title then some first else none) = _
    rw [hih]

theorem lastLinkOf_isSome (first : Int) (headers : List TOCEntry) (e : TOCEntry)
    (he : e ∈ headers) : (lastLinkOf first headers e.Title).isSome = true := by
  induction headers generalizing first with
  | nil => simp at he
  | cons p rest ih =>
    simp only [lastLinkOf]
    cases hl : lastLinkOf (first + 1) rest e.Title with
    | some link => rfl
    | none =>
      rcases List.mem_cons.mp he with h | h
      · simp [h]
      · have := ih (first + 1) h
        rw [hl] at this
        exact absurd this (by simp)

theorem tocLines_spec (bullet : GoString) (links : List (GoString × Int))
    (headers : List TOCEntry) (pdf : Fpdf)
    (hlevel : ∀ e ∈ headers, 1 ≤ e.Level)
    (hlinks : ∀ e ∈ headers, (titleMapLookup links e.Title).isSome = true) :
    tocLines bullet links headers pdf
      = some ⟨pdf.ops ++ headers.flatMap
          (fun e => tocLineOps bullet ((titleMapLookup links e.Title).getD 0) e)⟩ := by
  induction headers generalizing pdf with
  | nil => simp [tocLines]
  | cons e rest ih =>
    obtain ⟨link, hlink⟩ := Option.isSome_iff_exists.mp (hlinks e (List.mem_cons_self _ _))
    have hlv : ¬ (e.Level - 1 < 0) := by
      have := hlevel e (List.mem_cons_self _ _)
      omega
    simp only [tocLines, tocLine, hlink, Repeat, hlv, if_false]
    rw [ih _ (fun x hx => hlevel x (List.mem_cons_of_mem _ hx))
      (fun x hx => hlinks x (List.mem_cons_of_mem _ hx))]
    simp [tocLineOps, hlink]

/-- C11. The block of `main` that makes the table of contents, on headers of level one or
more, first makes one link target for each header, in the order of the headers, and only
then writes the page. The lookup is keyed by the title: it holds, for every title, the
target made for the last header with that title, so its keys are the distinct titles.
The page has one line for each header, in order, linked to the target the lookup holds
for the title of the header. The block does not run the renderer on the document: only
the page surface changes. -/
theorem mainTOC_links (env : Env) (bullet : GoString) (headers : List TOCEntry)
    (pf : PdfRenderer) (hlevel : ∀ e ∈ headers, 1 ≤ e.Level) :
    ∃ links,
      mainTOC env bullet headers pf
        = some (({ pf with Pdf := ⟨pf.Pdf.ops ++ List.replicate headers.length PdfOp.AddLink ++
              [.SetFont "Arial" "B" 24, .Cell 40 10 "Table of Contents".toList, .Ln 30] ++
              headers.flatMap
                (fun e => tocLineOps bullet ((titleMapLookup links e.Title).getD 0) e)⟩ }
            : PdfRenderer).AddPage env, links) ∧
      (∀ t, titleMapLookup links t
        = lastLinkOf ((pf.Pdf.ops.count PdfOp.AddLink : Int) + 1) headers t) ∧
      (∀ pre e post, headers = pre ++ e :: post → (∀ x ∈ post, x.Title ≠ e.Title) →
        titleMapLookup links e.Title
          = some ((pf.Pdf.ops.count PdfOp.AddLink : Int) + 1 + pre.length)) ∧
      (∀ e ∈ headers, (titleMapLookup links e.Title).isSome = true) ∧
      (links.map Prod.fst).Nodup ∧
      (∀ t, t ∈ links.map Prod.fst ↔ t ∈ headers.map (fun e => e.Title)) ∧
      links.length = (headers.map (fun e => e.Title)).dedup.length := by
  obtain ⟨h1, h2, h3, h4⟩ := tocAllocate_spec headers pf.Pdf []
  have hlookup : ∀ t, titleMapLookup (tocAllocate headers (pf.Pdf, [])).2 t
      = lastLinkOf ((pf.Pdf.ops.count PdfOp.AddLink : Int) + 1) headers t := by
    intro t
    rw [h2 t]
    cases lastLinkOf ((pf.Pdf.ops.count PdfOp.AddLink : Int) + 1) headers t <;>
      simp [titleMapLookup]
  have hsome : ∀ e ∈ headers,
      (titleMapLookup (tocAllocate headers (pf.Pdf, [])).2 e.Title).isSome = true := by
    intro e he
    rw [hlookup]
    exact lastLinkOf_isSome _ headers e he
  have hnodup := h3 (by simp)
  have hkeys : ∀ t, t ∈ (tocAllocate headers (pf.Pdf, [])).2.map Prod.fst
      ↔ t ∈ headers.map (fun e => e.Title) := by
    intro t
    rw [h4 t]
    simp
  refine ⟨(tocAllocate headers (pf.Pdf, [])).2, ?_, hlookup, ?_, hsome, hnodup, hkeys, ?_⟩
  · simp only [mainTOC, h1]
    rw [tocLines_spec bullet _ headers _ hlevel hsome]
  · intro pre e post hsplit hpost
    rw [hlookup, hsplit]
    exact lastLinkOf_last _ pre post e hpost
  · have hperm : ((tocAllocate headers (pf.Pdf, [])).2.map Prod.fst).Perm
        (headers.map (fun e => e.Title)).dedup := by
      rw [List.perm_ext_iff_of_nodup hnodup (List.nodup_dedup _)]
      intro t
      rw [hkeys t, List.mem_dedup]
    have := hperm.length_eq
    simpa using this

/-- C11, at three headers of which the first and the last have the same title. -/
theorem mainTOC_links_witness :
    (∀ e ∈ exampleHeaders, 1 ≤ e.Level) ∧
    ∃ links,
      (mainTOC exampleEnv ['*'] exampleHeaders PdfRenderer.zero).map Prod.snd = some links ∧
      titleMapLookup links "Intro".toList = some 3 ∧
      titleMapLookup links "Usage".toList = some 2 ∧
      links.length = 2 := by
  have hlevel : ∀ e ∈ exampleHeaders, 1 ≤ e.Level := by decide
  obtain ⟨links, h1, h2, _, _, _, _, h7⟩ :=
    mainTOC_links exampleEnv ['*'] exampleHeaders PdfRenderer.zero hlevel
  refine ⟨hlevel, links, by rw [h1]; rfl, ?_, ?_, ?_⟩
  · rw [h2]
    decide
  · rw [h2]
    decide
  · rw [h7]
    decide

/-! ## The table pre-pass as a composition of steps -/

mutual
theorem walk_status_GoToNext {σ : Type} (visit : Node → Bool → σ → σ × WalkStatus)
    (hv : ∀ n e s, (visit n e s).2 = .GoToNext) :
    ∀ (n : Node) (s : σ), (Walk visit n s).2 = .GoToNext
  | .leaf i k l, s => by
    simp [Walk, hv]
  | .container i k cs, s => by
    have h := walkChildren_status_GoToNext visit hv cs (visit (.container i k cs) true s).1
    simp [Walk, hv, h]
theorem walkChildren_status_GoToNext {σ : Type} (visit : Node → Bool → σ → σ × WalkStatus)
    (hv : ∀ n e s, (visit n e s).2 = .GoToNext) :
    ∀ (ns : List Node) (s : σ), (WalkChildren visit ns s).2 = .GoToNext
  | [], s => by simp [WalkChildren]
  | n :: ns, s => by
    have h1 := walk_status_GoToNext visit hv n s
    have h2 := walkChildren_status_GoToNext visit hv ns (Walk visit n s).1
    simp [WalkChildren, h1, h2]
end

theorem prepassStep_status (g : Nat → Nat) (w : GoString → ℚ) (n : Node) (e : Bool)
    (s : Option Prepass) : (prepassStep g w n e s).2 = .GoToNext := by
  cases s <;> rfl

theorem prepassStep_some (g : Nat → Nat) (w : GoString → ℚ) (n : Node) (e : Bool)
    (st : Prepass) : (prepassStep g w n e (some st)).1 = prepassVisit g w n e st := rfl

theorem prepassStep_none (g : Nat → Nat) (w : GoString → ℚ) (n : Node) (e : Bool) :
    (prepassStep g w n e none).1 = none := rfl

theorem prepassRun_leaf (g : Nat → Nat) (w : GoString → ℚ) (i : Nat) (k : LeafKind)
    (l : GoString) (s : Option Prepass) :
    prepassRun g w (.leaf i k l) s = (prepassStep g w (.leaf i k l) true s).1 := by
  simp [prepassRun, Walk, prepassStep_status]

theorem prepassRun_container (g : Nat → Nat) (w : GoString → ℚ) (i : Nat) (k : ContainerKind)
    (cs : List Node) (s : Option Prepass) :
    prepassRun g w (.container i k cs) s
      = (prepassStep g w (.container i k cs) false
          (prepassRunList g w cs (prepassStep g w (.container i k cs) true s).1)).1 := by
  have h := walkChildren_status_GoToNext (prepassStep g w) (prepassStep_status g w) cs
    (prepassStep g w (.container i k cs) true s).1
  simp [prepassRun, prepassRunList, Walk, prepassStep_status, h]

theorem prepassRunList_nil (g : Nat → Nat) (w : GoString → ℚ) (s : Option Prepass) :
    prepassRunList g w [] s = s := rfl

theorem prepassRunList_cons (g : Nat → Nat) (w : GoString → ℚ) (n : Node) (ns : List Node)
    (s : Option Prepass) :
    prepassRunList g w (n :: ns) s = prepassRunList g w ns (prepassRun g w n s) := by
  have h := walk_status_GoToNext (prepassStep g w) (prepassStep_status g w) n s
  simp [prepassRun, prepassRunList, WalkChildren, h]

theorem prepassRunList_append (g : Nat → Nat) (w : GoString → ℚ) (as bs : List Node)
    (s : Option Prepass) :
    prepassRunList g w (as ++ bs) s = prepassRunList g w bs (prepassRunList g w as s) := by
  induction as generalizing s with
  | nil => rfl
  | cons a as ih => simp [prepassRunList_cons, ih]

mutual
theorem prepassRun_none (g : Nat → Nat) (w : GoString → ℚ) :
    ∀ n : Node, prepassRun g w n none = none
  | .leaf i k l => by rw [prepassRun_leaf]; rfl
  | .container i k cs => by
    rw [prepassRun_container, prepassStep_none, prepassRunList_none g w cs]
    rfl
theorem prepassRunList_none (g : Nat → Nat) (w : GoString → ℚ) :
    ∀ ns : List Node, prepassRunList g w ns none = none
  | [] => rfl
  | n :: ns => by
    rw [prepassRunList_cons, prepassRun_none g w n, prepassRunList_none g w ns]
end

theorem prepassWalk_eq_run (g : Nat → Nat) (w : GoString → ℚ) (doc : Node) :
    prepassWalk g w doc = prepassRun g w doc (some Prepass.init) := rfl

/-! ## Subtrees without table nodes -/

theorem addText_id (st : Prepass) : st.addText (fun t => t) = st := by
  obtain ⟨heap, cw, intable, inheader, cellnum, lengths, textlength⟩ := st
  cases intable <;> simp [Prepass.addText]

theorem addText_addText (st : Prepass) (f h : ℚ → ℚ) :
    (st.addText f).addText h = st.addText (fun t => h (f t)) := by
  obtain ⟨heap, cw, intable, inheader, cellnum, lengths, textlength⟩ := st
  cases intable <;> simp [Prepass.addText]

theorem prepassVisit_other (g : Nat → Nat) (w : GoString → ℚ) (i : Nat) (k : ContainerKind)
    (cs : List Node) (e : Bool) (st : Prepass) (hk : isTableKind k = false) :
    prepassVisit g w (.container i k cs) e st = some st := by
  cases k <;> simp_all [isTableKind, prepassVisit]

theorem prepassVisit_leaf (g : Nat → Nat) (w : GoString → ℚ) (i : Nat) (k : LeafKind)
    (l : GoString) (st : Prepass) :
    prepassVisit g w (.leaf i k l) true st
      = some (st.addText (accumulate w (.leaf i k l))) := by
  by_cases hk : k = .Text
  · subst hk
    obtain ⟨heap, cw, intable, inheader, cellnum, lengths, textlength⟩ := st
    cases intable <;> simp [prepassVisit, accumulate, Prepass.addText]
  · have h0 : accumulate w (.leaf i k l) = fun t => t := by
      funext t
      simp [accumulate, hk]
    rw [h0, addText_id]
    cases k <;> simp_all [prepassVisit]

mutual
theorem prepassRun_tableFree (g : Nat → Nat) (w : GoString → ℚ) :
    ∀ (n : Node) (st : Prepass), tableFree n = true →
      prepassRun g w n (some st) = some (st.addText (accumulate w n))
  | .leaf i k l, st, _ => by
    rw [prepassRun_leaf, prepassStep_some, prepassVisit_leaf]
  | .container i k cs, st, h => by
    simp only [tableFree, Bool.and_eq_true, Bool.not_eq_true'] at h
    rw [prepassRun_container, prepassStep_some, prepassVisit_other g w i k cs true st h.1,
      prepassRunList_tableFree g w cs st h.2]
    rw [prepassStep_some, prepassVisit_other g w i k cs false _ h.1]
    have e : accumulate w (.container i k cs) = accumulateList w cs := by
      funext t
      simp [accumulate]
    rw [e]
theorem prepassRunList_tableFree (g : Nat → Nat) (w : GoString → ℚ) :
    ∀ (ns : List Node) (st : Prepass), tableFreeList ns = true →
      prepassRunList g w ns (some st) = some (st.addText (accumulateList w ns))
  | [], st, _ => by
    have e : accumulateList w [] = fun t => t := by
      funext t
      simp [accumulateList]
    rw [prepassRunList_nil, e, addText_id]
  | n :: ns, st, h => by
    simp only [tableFreeList, Bool.and_eq_true] at h
    rw [prepassRunList_cons, prepassRun_tableFree g w n st h.1,
      prepassRunList_tableFree g w ns _ h.2, addText_addText]
    have e : accumulateList w (n :: ns)
        = fun t => accumulateList w ns (accumulate w n t) := by
      funext t
      simp [accumulateList]
    rw [e]
end

/-! ## The slice `lengths` and its backing array -/

theorem take_set_of_le {α : Type} (l : List α) (a : α) {n m : Nat} (h : m ≤ n) :
    (l.set n a).take m = l.take m := by
  apply List.ext_getElem?
  intro i
  rw [List.getElem?_take, List.getElem?_take]
  split
  · rw [List.getElem?_set_ne (by omega)]
  · rfl

theorem getD_set_self {α : Type} (l : List (List α)) (a : Nat) (y : List α)
    (h : a < l.length) : (l.set a y).getD a [] = y := by
  simp [List.getD_eq_getElem?_getD, List.getElem?_set, h]

theorem getD_append_left {α : Type} (l l2 : List (List α)) (a : Nat) (h : a < l.length) :
    (l ++ l2).getD a [] = l.getD a [] := by
  simp [List.getD_eq_getElem?_getD, List.getElem?_append_left h]

theorem getD_append_length {α : Type} (l : List (List α)) (y : List α) :
    (l ++ [y]).getD l.length [] = y := by
  simp [List.getD_eq_getElem?_getD]

theorem lengthsAt_eq_view (st : Prepass) (i : Nat) : st.lengthsAt i = st.view.get? i := by
  simp only [Prepass.lengthsAt, Prepass.view, Slice.elems, List.get?_eq_getElem?,
    List.getElem?_take]

theorem view_length (st : Prepass)
    (h : st.lengths.len ≤ (st.heap.getD st.lengths.arr []).length) :
    st.view.length = st.lengths.len := by
  simp only [Prepass.view, Slice.elems, List.length_take]
  omega

theorem lengthsSet_view (st : Prepass) (i : Nat) (x : ℚ) (h : st.lengths.arr < st.heap.length) :
    (st.lengthsSet i x).view = st.view.set i x := by
  simp only [Prepass.view, Slice.elems, Prepass.lengthsSet]
  rw [getD_set_self _ _ _ h, List.set_take]

theorem lengthsSet_keeps (N : Nat) (st : Prepass) (i : Nat) (x : ℚ) (h : st.Inside N) :
    st.Keeps N (st.lengthsSet i x) := by
  obtain ⟨h1, h2, h3⟩ := h
  refine ⟨?_, rfl, rfl, rfl, h1, ?_, ?_⟩
  · exact take_set_of_le _ _ h1
  · simpa [Prepass.lengthsSet] using h2
  · simp only [Prepass.lengthsSet]
    rw [getD_set_self _ _ _ h2]
    simpa using h3

theorem appendZero_pos (g : Nat → Nat) (st : Prepass)
    (hlt : st.lengths.len < (st.heap.getD st.lengths.arr []).length) :
    st.appendZero g
      = { st with
          heap := st.heap.set st.lengths.arr ((st.heap.getD st.lengths.arr []).set st.lengths.len 0),
          lengths := ⟨st.lengths.arr, st.lengths.len + 1⟩ } := by
  unfold Prepass.appendZero
  exact if_pos hlt

theorem appendZero_neg (g : Nat → Nat) (st : Prepass)
    (hlt : ¬ st.lengths.len < (st.heap.getD st.lengths.arr []).length) :
    st.appendZero g
      = { st with
          heap := st.heap ++
            [(st.heap.getD st.lengths.arr []).take st.lengths.len ++
              0 :: List.replicate
                (g (st.heap.getD st.lengths.arr []).length - (st.lengths.len + 1)) 0],
          lengths := ⟨st.heap.length, st.lengths.len + 1⟩ } := by
  unfold Prepass.appendZero
  exact if_neg hlt

theorem appendZero_view (g : Nat → Nat) (st : Prepass)
    (h3 : st.lengths.len ≤ (st.heap.getD st.lengths.arr []).length) :
    (st.appendZero g).view = st.view ++ [0] := by
  by_cases hlt : st.lengths.len < (st.heap.getD st.lengths.arr []).length
  · have harr : st.lengths.arr < st.heap.length := by
      by_contra hge
      have : st.heap.getD st.lengths.arr [] = [] := by
        simp [List.getD_eq_getElem?_getD, List.getElem?_eq_none (Nat.le_of_not_lt hge)]
      rw [this] at hlt
      simp at hlt
    rw [appendZero_pos g st hlt]
    simp only [Prepass.view, Slice.elems]
    rw [getD_set_self _ _ _ harr, List.take_succ, take_set_of_le _ _ (Nat.le_refl _)]
    congr 1
    rw [List.getElem?_set, if_pos rfl, if_pos hlt]
    rfl
  · have heq : (st.heap.getD st.lengths.arr []).length = st.lengths.len := by omega
    rw [appendZero_neg g st hlt]
    simp only [Prepass.view, Slice.elems]
    rw [getD_append_length]
    have hl : ((st.heap.getD st.lengths.arr []).take st.lengths.len).length = st.lengths.len := by
      rw [List.length_take]
      omega
    have hself : (st.heap.getD st.lengths.arr []).take st.lengths.len
        = st.heap.getD st.lengths.arr [] := List.take_of_length_le (by omega)
    rw [hself]
    have hsplit : st.heap.getD st.lengths.arr [] ++ 0 :: List.replicate
          (g (st.heap.getD st.lengths.arr []).length - (st.lengths.len + 1)) 0
        = (st.heap.getD st.lengths.arr [] ++ [0]) ++ List.replicate
          (g (st.heap.getD st.lengths.arr []).length - (st.lengths.len + 1)) 0 := by
      simp
    rw [hsplit]
    exact List.take_left' (by rw [List.length_append, heq]; rfl)

theorem appendZero_keeps (g : Nat → Nat) (N : Nat) (st : Prepass) (h : st.Inside N) :
    st.Keeps N (st.appendZero g) := by
  obtain ⟨h1, h2, h3⟩ := h
  by_cases hlt : st.lengths.len < (st.heap.getD st.lengths.arr []).length
  · rw [appendZero_pos g st hlt]
    refine ⟨take_set_of_le _ _ h1, rfl, rfl, rfl, h1, ?_, ?_⟩
    · show st.lengths.arr < (st.heap.set _ _).length
      rw [List.length_set]
      exact h2
    · show st.lengths.len + 1 ≤ ((st.heap.set _ _).getD st.lengths.arr []).length
      rw [getD_set_self _ _ _ h2, List.length_set]
      exact hlt
  · rw [appendZero_neg g st hlt]
    refine ⟨List.take_append_of_le_length (by omega), rfl, rfl, rfl, ?_, ?_, ?_⟩
    · show N ≤ st.heap.length
      omega
    · show st.heap.length < (st.heap ++ [_]).length
      simp
    · show st.lengths.len + 1 ≤ ((st.heap ++ [_]).getD st.heap.length []).length
      rw [getD_append_length]
      simp only [List.length_append, List.length_take, List.length_cons, List.length_replicate]
      omega

theorem emptyLengths_view (st : Prepass) : st.emptyLengths.view = [] := by
  simp [Prepass.view, Slice.elems, Prepass.emptyLengths]

theorem emptyLengths_inside (st : Prepass) (N : Nat) (h : N ≤ st.heap.length) :
    st.emptyLengths.Inside N ∧ st.emptyLengths.heap.take N = st.heap.take N := by
  refine ⟨⟨?_, ?_, ?_⟩, ?_⟩
  · simpa [Prepass.emptyLengths] using h
  · simp [Prepass.emptyLengths]
  · simp [Prepass.emptyLengths]
  · simp only [Prepass.emptyLengths]
    rw [List.take_append_of_le_length h]

theorem Keeps.refl (N : Nat) (st : Prepass) (h : st.Inside N) : st.Keeps N st :=
  ⟨rfl, rfl, rfl, rfl, h⟩

theorem Keeps.trans {N : Nat} {a b c : Prepass} (h1 : a.Keeps N b) (h2 : b.Keeps N c) :
    a.Keeps N c :=
  ⟨h2.1.trans h1.1, h2.2.1.trans h1.2.1, h2.2.2.1.trans h1.2.2.1,
    h2.2.2.2.1.trans h1.2.2.2.1, h2.2.2.2.2⟩

/-! ## The walk over a cell and over the cells of a row -/

theorem widen_length (l : List ℚ) (c : Nat) (x : ℚ) : (widen l c x).length = l.length := by
  unfold widen
  split
  · split <;> simp
  · rfl

theorem widenRow_length (l : List ℚ) (c : Nat) (ws : List ℚ) :
    (widenRow l c ws).length = l.length := by
  induction ws generalizing l c with
  | nil => rfl
  | cons w ws ih => simp [widenRow, ih, widen_length]

/-- Leaving a cell, as a step on the columns: the width of the current column is replaced
when the padded accumulator is larger, the accumulator is reset and the column index
advances. -/
theorem prepassVisit_cell_leave (g : Nat → Nat) (w : GoString → ℚ) (i : Nat)
    (kids : List Node) (N : Nat) (st : Prepass) (cur : ℚ) (hin : st.Inside N)
    (hcur : st.view.get? st.cellnum = some cur) :
    ∃ st2, prepassVisit g w (.container i .TableCell kids) false st = some st2 ∧
      st.Keeps N st2 ∧ st2.view = widen st.view st.cellnum (padded st.textlength) ∧
      st2.textlength = 0 ∧ st2.cellnum = st.cellnum + 1 := by
  have hat : Prepass.lengthsAt { st with textlength := addFloat64 st.textlength (mulFloat64 st.textlength (float64 0.2)) }
      st.cellnum = some cur := by
    rw [lengthsAt_eq_view]
    exact hcur
  by_cases hgt : addFloat64 st.textlength (mulFloat64 st.textlength (float64 0.2)) > cur
  · refine ⟨{ (Prepass.lengthsSet { st with textlength := addFloat64 st.textlength (mulFloat64 st.textlength (float64 0.2)) }
        st.cellnum (addFloat64 st.textlength (mulFloat64 st.textlength (float64 0.2)))) with
        textlength := 0, cellnum := st.cellnum + 1 }, ?_, ?_, ?_, rfl, rfl⟩
    · simp only [prepassVisit, Bool.false_eq_true, if_false, hat, hgt, if_true]
      rfl
    · exact lengthsSet_keeps N st st.cellnum _ hin
    · have := lengthsSet_view st st.cellnum (addFloat64 st.textlength (mulFloat64 st.textlength (float64 0.2))) hin.2.1
      simp only [widen, hcur, padded, hgt, if_true]
      exact this
  · refine ⟨{ st with textlength := 0, cellnum := st.cellnum + 1 }, ?_, ?_, ?_, rfl, rfl⟩
    · simp only [prepassVisit, Bool.false_eq_true, if_false, hat, hgt]
    · exact ⟨rfl, rfl, rfl, rfl, hin⟩
    · simp only [widen, hcur, padded, hgt, if_false]
      rfl

theorem addText_intable (st : Prepass) (f : ℚ → ℚ) (h : st.intable = true) :
    st.addText f = { st with textlength := f st.textlength } := by
  simp [Prepass.addText, h]

/-- The walk over one cell. In the header row a column of width 0 is appended first. -/
theorem prepassRun_cell (g : Nat → Nat) (w : GoString → ℚ) (cell : Node) (N : Nat)
    (st : Prepass) (cur : ℚ) (hcell : isCell cell = true) (hin : st.Inside N)
    (htab : st.intable = true) (htext : st.textlength = 0)
    (hcur : (if st.inheader then st.view ++ [0] else st.view).get? st.cellnum = some cur) :
    ∃ st2, prepassRun g w cell (some st) = some st2 ∧ st.Keeps N st2 ∧
      st2.view = widen (if st.inheader then st.view ++ [0] else st.view) st.cellnum
        (cellWidth w cell) ∧
      st2.textlength = 0 ∧ st2.cellnum = st.cellnum + 1 := by
  cases cell with
  | leaf i k l => simp [isCell] at hcell
  | container i k kids =>
    cases k <;> simp only [isCell, Bool.false_eq_true] at hcell
    -- the state after entering the cell
    have henter : ∃ st1, prepassVisit g w (.container i .TableCell kids) true st = some st1 ∧
        st.Keeps N st1 ∧ st1.view = (if st.inheader then st.view ++ [0] else st.view) ∧
        st1.textlength = 0 ∧ st1.cellnum = st.cellnum := by
      by_cases hh : st.inheader = true
      · refine ⟨st.appendZero g, by simp [prepassVisit, hh], appendZero_keeps g N st hin, ?_, ?_, ?_⟩
        · rw [if_pos hh]
          exact appendZero_view g st hin.2.2
        · by_cases hlt : st.lengths.len < (st.heap.getD st.lengths.arr []).length
          · rw [appendZero_pos g st hlt]
            exact htext
          · rw [appendZero_neg g st hlt]
            exact htext
        · by_cases hlt : st.lengths.len < (st.heap.getD st.lengths.arr []).length
          · rw [appendZero_pos g st hlt]
          · rw [appendZero_neg g st hlt]
      · refine ⟨st, by simp [prepassVisit, hh], Keeps.refl N st hin, ?_, htext, rfl⟩
        rw [if_neg hh]
    obtain ⟨st1, h1, hk1, hv1, ht1, hc1⟩ := henter
    have htab1 : st1.intable = true := by rw [hk1.2.2.1]; exact htab
    -- the state after the content of the cell
    have hkids : prepassRunList g w kids (some st1)
        = some { st1 with textlength := accumulateList w kids 0 } := by
      rw [prepassRunList_tableFree g w kids st1 hcell, addText_intable _ _ htab1, ht1]
    have hin2 : Prepass.Inside N { st1 with textlength := accumulateList w kids 0 } := hk1.2.2.2.2
    have hcur2 : (Prepass.view { st1 with textlength := accumulateList w kids 0 }).get?
        st1.cellnum = some cur := by
      have : Prepass.view { st1 with textlength := accumulateList w kids 0 } = st1.view := rfl
      rw [this, hv1, hc1]
      exact hcur
    obtain ⟨st2, h2, hk2, hv2, ht2, hc2⟩ := prepassVisit_cell_leave g w i kids N
      { st1 with textlength := accumulateList w kids 0 } cur hin2 hcur2
    refine ⟨st2, ?_, ?_, ?_, ht2, ?_⟩
    · rw [prepassRun_container, prepassStep_some, h1, hkids, prepassStep_some, h2]
    · exact Keeps.trans hk1 ⟨hk2.1, hk2.2.1, hk2.2.2.1, hk2.2.2.2.1, hk2.2.2.2.2⟩
    · rw [hv2]
      have : Prepass.view { st1 with textlength := accumulateList w kids 0 } = st1.view := rfl
      rw [this, hv1]
      show widen _ st1.cellnum (padded (accumulateList w kids 0)) = _
      rw [hc1]
      simp [cellWidth, textWidth, accumulate]
    · rw [hc2]
      show st1.cellnum + 1 = _
      rw [hc1]

/-! ## The walk over the rows of a table -/

theorem widen_append (l m : List ℚ) (c : Nat) (x : ℚ) (hc : c < l.length) :
    widen (l ++ m) c x = widen l c x ++ m := by
  have h1 : (l ++ m).get? c = l.get? c := by
    simp [List.get?_eq_getElem?, List.getElem?_append_left hc]
  unfold widen
  rw [h1]
  cases hl : l.get? c with
  | none => rfl
  | some cur =>
    simp only
    split
    · rw [List.set_append, if_pos hc]
    · rfl

theorem get?_of_lt (l : List ℚ) (c : Nat) (h : c < l.length) : ∃ cur, l.get? c = some cur := by
  refine ⟨l[c], ?_⟩
  simp [List.get?_eq_getElem?, List.getElem?_eq_getElem h]

theorem prepassRunList_cells_body (g : Nat → Nat) (w : GoString → ℚ) (cells : List Node)
    (N : Nat) (st : Prepass) (hcells : cells.all isCell = true) (hin : st.Inside N)
    (htab : st.intable = true) (hhead : st.inheader = false) (htext : st.textlength = 0)
    (hfit : st.cellnum + cells.length ≤ st.view.length) :
    ∃ st2, prepassRunList g w cells (some st) = some st2 ∧ st.Keeps N st2 ∧
      st2.view = widenRow st.view st.cellnum (cells.map (cellWidth w)) ∧
      st2.textlength = 0 ∧ st2.cellnum = st.cellnum + cells.length := by
  induction cells generalizing st with
  | nil => exact ⟨st, rfl, Keeps.refl N st hin, rfl, htext, rfl⟩
  | cons cell rest ih =>
    simp only [List.all_cons, Bool.and_eq_true] at hcells
    simp only [List.length_cons] at hfit
    obtain ⟨cur, hcur⟩ := get?_of_lt st.view st.cellnum (by omega)
    have hcur2 : (if st.inheader then st.view ++ [0] else st.view).get? st.cellnum
        = some cur := by
      rw [hhead]
      exact hcur
    obtain ⟨st1, h1, hk1, hv1, ht1, hc1⟩ := prepassRun_cell g w cell N st cur hcells.1 hin htab
      htext hcur2
    rw [hhead] at hv1
    simp only [Bool.false_eq_true, if_false] at hv1
    have hlen1 : st1.view.length = st.view.length := by rw [hv1, widen_length]
    obtain ⟨st2, h2, hk2, hv2, ht2, hc2⟩ := ih st1 hcells.2 hk1.2.2.2.2
      (by rw [hk1.2.2.1]; exact htab) (by rw [hk1.2.2.2.1]; exact hhead) ht1
      (by rw [hc1, hlen1]; omega)
    refine ⟨st2, ?_, Keeps.trans hk1 hk2, ?_, ht2, ?_⟩
    · rw [prepassRunList_cons, h1, h2]
    · rw [hv2, hv1, hc1]
      rfl
    · rw [hc2, hc1, List.length_cons]
      omega

theorem prepassRunList_cells_header (g : Nat → Nat) (w : GoString → ℚ) (cells : List Node)
    (N : Nat) (st : Prepass) (hcells : cells.all isCell = true) (hin : st.Inside N)
    (htab : st.intable = true) (hhead : st.inheader = true) (htext : st.textlength = 0)
    (hfit : st.cellnum = st.view.length) :
    ∃ st2, prepassRunList g w cells (some st) = some st2 ∧ st.Keeps N st2 ∧
      st2.view = widenRow (st.view ++ List.replicate cells.length 0) st.cellnum
        (cells.map (cellWidth w)) ∧
      st2.textlength = 0 := by
  induction cells generalizing st with
  | nil => exact ⟨st, rfl, Keeps.refl N st hin, by simp [widenRow], htext⟩
  | cons cell rest ih =>
    simp only [List.all_cons, Bool.and_eq_true] at hcells
    have hcur2 : (if st.inheader then st.view ++ [0] else st.view).get? st.cellnum
        = some 0 := by
      rw [hhead, hfit]
      simp [List.get?_eq_getElem?]
    obtain ⟨st1, h1, hk1, hv1, ht1, hc1⟩ := prepassRun_cell g w cell N st 0 hcells.1 hin htab
      htext hcur2
    rw [hhead] at hv1
    simp only [if_true] at hv1
    have hlen1 : st1.view.length = st.view.length + 1 := by
      rw [hv1, widen_length]
      simp
    obtain ⟨st2, h2, hk2, hv2, ht2⟩ := ih st1 hcells.2 hk1.2.2.2.2
      (by rw [hk1.2.2.1]; exact htab) (by rw [hk1.2.2.2.1]; exact hhead) ht1
      (by rw [hc1, hlen1, hfit])
    refine ⟨st2, ?_, Keeps.trans hk1 hk2, ?_, ht2⟩
    · rw [prepassRunList_cons, h1, h2]
    · rw [hv2, hv1, hc1]
      simp only [List.length_cons, List.map_cons, widenRow, List.replicate_succ]
      have happ : st.view ++ 0 :: List.replicate rest.length 0
          = (st.view ++ [0]) ++ List.replicate rest.length 0 := by simp
      have hlt : st.cellnum < (st.view ++ [0]).length := by
        rw [hfit, List.length_append]
        simp
      rw [happ, widen_append (st.view ++ [0]) (List.replicate rest.length 0) st.cellnum
        (cellWidth w cell) hlt]

/-- The walk over a row that is not in the header. -/
theorem prepassRun_row_body (g : Nat → Nat) (w : GoString → ℚ) (row : Node) (cols N : Nat)
    (st : Prepass) (hrow : isRow cols row = true) (hin : st.Inside N)
    (htab : st.intable = true) (hhead : st.inheader = false) (htext : st.textlength = 0)
    (hcols : cols ≤ st.view.length) :
    ∃ st2, prepassRun g w row (some st) = some st2 ∧ st.Keeps N st2 ∧
      st2.view = widenRow st.view 0 (rowWidths w row) ∧ st2.textlength = 0 := by
  cases row with
  | leaf i k l => simp [isRow] at hrow
  | container i k cells =>
    cases k <;> simp only [isRow, Bool.false_eq_true] at hrow
    simp only [Bool.and_eq_true, decide_eq_true_eq] at hrow
    obtain ⟨st2, h2, hk2, hv2, ht2, _⟩ := prepassRunList_cells_body g w cells N
      { st with cellnum := 0 } hrow.1 hin htab hhead htext
      (by
        show 0 + cells.length ≤ st.view.length
        omega)
    refine ⟨st2, ?_, hk2, hv2, ht2⟩
    rw [prepassRun_container, prepassStep_some]
    simp only [prepassVisit, if_true]
    rw [h2, prepassStep_some]
    simp [prepassVisit]

theorem prepassRunList_rows_body (g : Nat → Nat) (w : GoString → ℚ) (rows : List Node)
    (cols N : Nat) (st : Prepass) (hrows : rows.all (isRow cols) = true) (hin : st.Inside N)
    (htab : st.intable = true) (hhead : st.inheader = false) (htext : st.textlength = 0)
    (hcols : cols ≤ st.view.length) :
    ∃ st2, prepassRunList g w rows (some st) = some st2 ∧ st.Keeps N st2 ∧
      st2.view = rows.foldl (fun l row => widenRow l 0 (rowWidths w row)) st.view ∧
      st2.textlength = 0 := by
  induction rows generalizing st with
  | nil => exact ⟨st, rfl, Keeps.refl N st hin, rfl, htext⟩
  | cons row rest ih =>
    simp only [List.all_cons, Bool.and_eq_true] at hrows
    obtain ⟨st1, h1, hk1, hv1, ht1⟩ := prepassRun_row_body g w row cols N st hrows.1 hin htab
      hhead htext hcols
    obtain ⟨st2, h2, hk2, hv2, ht2⟩ := ih st1 hrows.2 hk1.2.2.2.2
      (by rw [hk1.2.2.1]; exact htab) (by rw [hk1.2.2.2.1]; exact hhead) ht1
      (by rw [hv1, widenRow_length]; exact hcols)
    refine ⟨st2, ?_, Keeps.trans hk1 hk2, ?_, ht2⟩
    · rw [prepassRunList_cons, h1, h2]
    · rw [hv2, hv1]
      rfl

/-- The walk over a table body or a table footer. -/
theorem prepassRun_section (g : Nat → Nat) (w : GoString → ℚ) (sec : Node) (cols N : Nat)
    (st : Prepass) (hsec : isSection cols sec = true) (hin : st.Inside N)
    (htab : st.intable = true) (hhead : st.inheader = false) (htext : st.textlength = 0)
    (hcols : cols ≤ st.view.length) :
    ∃ st2, prepassRun g w sec (some st) = some st2 ∧ st.Keeps N st2 ∧
      st2.view = (sectionRows sec).foldl (fun l row => widenRow l 0 (rowWidths w row)) st.view ∧
      st2.textlength = 0 := by
  cases sec with
  | leaf i k l => simp [isSection] at hsec
  | container i k rows =>
    have hk : isTableKind k = false := by
      cases k <;> simp_all [isSection, isTableKind]
    have hrows : rows.all (isRow cols) = true := by
      cases k <;> simp_all [isSection]
    obtain ⟨st2, h2, hk2, hv2, ht2⟩ := prepassRunList_rows_body g w rows cols N st hrows hin
      htab hhead htext hcols
    refine ⟨st2, ?_, hk2, hv2, ht2⟩
    rw [prepassRun_container, prepassStep_some, prepassVisit_other g w i k rows true st hk, h2,
      prepassStep_some, prepassVisit_other g w i k rows false st2 hk]

theorem prepassRunList_sections (g : Nat → Nat) (w : GoString → ℚ) (secs : List Node)
    (cols N : Nat) (st : Prepass) (hsecs : secs.all (isSection cols) = true)
    (hin : st.Inside N) (htab : st.intable = true) (hhead : st.inheader = false)
    (htext : st.textlength = 0) (hcols : cols ≤ st.view.length) :
    ∃ st2, prepassRunList g w secs (some st) = some st2 ∧ st.Keeps N st2 ∧
      st2.view = (secs.flatMap sectionRows).foldl
        (fun l row => widenRow l 0 (rowWidths w row)) st.view ∧
      st2.textlength = 0 := by
  induction secs generalizing st with
  | nil => exact ⟨st, rfl, Keeps.refl N st hin, rfl, htext⟩
  | cons sec rest ih =>
    simp only [List.all_cons, Bool.and_eq_true] at hsecs
    obtain ⟨st1, h1, hk1, hv1, ht1⟩ := prepassRun_section g w sec cols N st hsecs.1 hin htab
      hhead htext hcols
    have hlen : ∀ (rows : List Node) (l : List ℚ),
        (rows.foldl (fun l row => widenRow l 0 (rowWidths w row)) l).length = l.length := by
      intro rows
      induction rows with
      | nil => intro l; rfl
      | cons r rs ihr =>
        intro l
        simp only [List.foldl_cons]
        rw [ihr, widenRow_length]
    obtain ⟨st2, h2, hk2, hv2, ht2⟩ := ih st1 hsecs.2 hk1.2.2.2.2
      (by rw [hk1.2.2.1]; exact htab) (by rw [hk1.2.2.2.1]; exact hhead) ht1
      (by rw [hv1, hlen]; exact hcols)
    refine ⟨st2, ?_, Keeps.trans hk1 hk2, ?_, ht2⟩
    · rw [prepassRunList_cons, h1, h2]
    · rw [hv2, hv1, List.flatMap_cons, List.foldl_append]

/-! ## The walk over a table with a header row -/

theorem isTable_shape (table : Node) (h : isTable table = true) :
    ∃ id j r cells sections,
      table = .container id .Table
        (.container j .TableHeader [.container r .TableRow cells] :: sections) ∧
      cells.all isCell = true ∧ sections.all (isSection cells.length) = true := by
  unfold isTable at h
  split at h
  · rename_i id j r cells sections
    simp only [Bool.and_eq_true] at h
    exact ⟨id, j, r, cells, sections, rfl, h.1, h.2⟩
  · exact absurd h (by simp)

/-- The walk over the header of a table: a fresh slice, one column for each cell of the
header row. -/
theorem prepassRun_header (g : Nat → Nat) (w : GoString → ℚ) (j r : Nat) (cells : List Node)
    (N : Nat) (st : Prepass) (hcells : cells.all isCell = true) (hN : N ≤ st.heap.length)
    (htab : st.intable = true) (htext : st.textlength = 0) :
    ∃ st2, prepassRun g w (.container j .TableHeader [.container r .TableRow cells]) (some st)
        = some st2 ∧
      st2.heap.take N = st.heap.take N ∧ st2.columnWidths = st.columnWidths ∧
      st2.intable = true ∧ st2.inheader = false ∧ st2.Inside N ∧
      st2.view = widenRow (List.replicate cells.length 0) 0 (cells.map (cellWidth w)) ∧
      st2.textlength = 0 := by
  obtain ⟨hin1, hheap1⟩ := emptyLengths_inside { st with inheader := true } N hN
  have hin0 : Prepass.Inside N
      { (Prepass.emptyLengths { st with inheader := true }) with cellnum := 0 } := hin1
  obtain ⟨st2, h2, hk2, hv2, ht2⟩ := prepassRunList_cells_header g w cells N
    { (Prepass.emptyLengths { st with inheader := true }) with cellnum := 0 } hcells hin0
    htab rfl htext (by
      show 0 = (Prepass.emptyLengths { st with inheader := true }).view.length
      rw [emptyLengths_view]
      rfl)
  have hview0 : Prepass.view
      { (Prepass.emptyLengths { st with inheader := true }) with cellnum := 0 } = [] :=
    emptyLengths_view _
  refine ⟨{ st2 with inheader := false }, ?_, ?_, ?_, ?_, rfl, ?_, ?_, ht2⟩
  · rw [prepassRun_container, prepassStep_some]
    simp only [prepassVisit, if_true]
    rw [prepassRunList_cons, prepassRun_container, prepassStep_some]
    simp only [prepassVisit, if_true]
    rw [h2, prepassStep_some]
    simp only [prepassVisit, Bool.false_eq_true, if_false]
    rw [prepassRunList_nil, prepassStep_some]
    simp [prepassVisit]
  · exact hk2.1.trans hheap1
  · exact hk2.2.1
  · show st2.intable = true
    rw [hk2.2.2.1]
    exact htab
  · exact hk2.2.2.2.2
  · show st2.view = _
    rw [hv2, hview0]
    rfl

/-- The walk over a table with a header row, from any local variables with an empty
accumulator: the arrays made before are kept, the table gets a slice on a new array, and
the columns of that slice are the widths expected for the table. -/
theorem prepassRun_table (g : Nat → Nat) (w : GoString → ℚ) (table : Node) (st : Prepass)
    (htable : isTable table = true) (htext : st.textlength = 0) :
    ∃ st2, prepassRun g w table (some st) = some st2 ∧
      st2.heap.take st.heap.length = st.heap ∧
      st2.columnWidths = mapAssign st.columnWidths (nodeId table) st2.lengths ∧
      st.heap.length ≤ st2.lengths.arr ∧ st2.lengths.arr < st2.heap.length ∧
      st2.view = specWidths w table ∧
      st2.textlength = 0 ∧ st2.intable = false ∧ st2.inheader = false := by
  obtain ⟨id, j, r, cells, sections, rfl, hcells, hsecs⟩ := isTable_shape table htable
  obtain ⟨st1, h1, hheap1, hcw1, htab1, hhead1, hin1, hv1, ht1⟩ := prepassRun_header g w j r
    cells st.heap.length { st with intable := true } hcells (Nat.le_refl _) rfl htext
  obtain ⟨st2, h2, hk2, hv2, ht2⟩ := prepassRunList_sections g w sections cells.length
    st.heap.length st1 hsecs hin1 htab1 hhead1 ht1
    (by rw [hv1, widenRow_length, List.length_replicate])
  refine ⟨{ st2 with intable := false,
                     columnWidths := mapAssign st2.columnWidths id st2.lengths },
    ?_, ?_, ?_, hk2.2.2.2.2.1, hk2.2.2.2.2.2.1, ?_, ht2, rfl, ?_⟩
  · rw [prepassRun_container, prepassStep_some]
    simp only [prepassVisit, if_true]
    rw [prepassRunList_cons, h1, h2, prepassStep_some]
    simp [prepassVisit]
  · show st2.heap.take st.heap.length = st.heap
    rw [hk2.1, hheap1]
    exact List.take_length _
  · show mapAssign st2.columnWidths id st2.lengths = mapAssign st.columnWidths _ st2.lengths
    rw [hk2.2.1, hcw1]
    rfl
  · show st2.view = _
    rw [hv2, hv1]
    simp [specWidths, tableRows, headerCount, rowWidths, rowCells, List.foldl_append]
  · show st2.inheader = false
    rw [hk2.2.2.2.1]
    exact hhead1

/-! ## The walk over a document whose tables all have a header row -/

theorem take_prefix_length {α : Type} (h1 h2 : List α) (hp : h2.take h1.length = h1) :
    h1.length ≤ h2.length := by
  have := congrArg List.length hp
  rw [List.length_take] at this
  omega

theorem take_prefix_trans {α : Type} (h1 h2 h3 : List α) (h12 : h2.take h1.length = h1)
    (h23 : h3.take h2.length = h2) : h3.take h1.length = h1 := by
  have hle := take_prefix_length h1 h2 h12
  have : h3.take h1.length = (h3.take h2.length).take h1.length := by
    rw [List.take_take, Nat.min_eq_left hle]
  rw [this, h23, h12]

theorem take_prefix_getD {α : Type} (h1 h2 : List (List α)) (hp : h2.take h1.length = h1)
    (a : Nat) (ha : a < h1.length) : h2.getD a [] = h1.getD a [] := by
  have h : (h2.take h1.length)[a]? = h2[a]? := List.getElem?_take_of_lt ha
  rw [hp] at h
  simp [List.getD_eq_getElem?_getD, h]

theorem elems_kept (h1 h2 : List (List ℚ)) (hp : h2.take h1.length = h1) (sl : Slice)
    (ha : sl.arr < h1.length) : sl.elems h2 = sl.elems h1 := by
  simp only [Slice.elems]
  rw [take_prefix_getD h1 h2 hp sl.arr ha]

theorem SlicesOf.mono (w : GoString → ℚ) (h1 h2 : List (List ℚ)) (tables : List Node)
    (slices : List Slice) (hp : h2.take h1.length = h1) (h : SlicesOf w h1 tables slices) :
    SlicesOf w h2 tables slices := by
  have hle := take_prefix_length h1 h2 hp
  unfold SlicesOf at h ⊢
  induction h with
  | nil => exact List.Forall₂.nil
  | cons hd _ ih =>
    refine List.Forall₂.cons ⟨by omega, ?_⟩ ih
    rw [elems_kept h1 h2 hp _ hd.1]
    exact hd.2

mutual
theorem prepassRun_doc (g : Nat → Nat) (w : GoString → ℚ) :
    ∀ (n : Node) (st : Prepass), docOK n = true → st.textlength = 0 → st.intable = false →
      ∃ st2 slices, prepassRun g w n (some st) = some st2 ∧
        st2.heap.take st.heap.length = st.heap ∧
        st2.textlength = 0 ∧ st2.intable = false ∧
        st2.columnWidths = (List.zip ((tablesOf n).map nodeId) slices).foldl
          (fun m p => mapAssign m p.1 p.2) st.columnWidths ∧
        SlicesOf w st2.heap (tablesOf n) slices
  | .leaf i k l, st, _, htext, htab => by
    refine ⟨st, [], ?_, List.take_length _, htext, htab, rfl, List.Forall₂.nil⟩
    rw [prepassRun_tableFree g w (.leaf i k l) st rfl]
    simp [Prepass.addText, htab]
  | .container i k cs, st, hok, htext, htab => by
    by_cases hk : k = .Table
    · subst hk
      have htable : isTable (.container i .Table cs) = true := by
        simpa [docOK] using hok
      obtain ⟨st2, h2, hheap, hcw, hlo, hhi, hv, ht, hin, _⟩ :=
        prepassRun_table g w (.container i .Table cs) st htable htext
      refine ⟨st2, [st2.lengths], h2, hheap, ht, hin, ?_, ?_⟩
      · simp [tablesOf, hcw, nodeId]
      · simp only [tablesOf, if_true]
        exact List.Forall₂.cons ⟨hhi, hv⟩ List.Forall₂.nil
    · have hok2 : isTableKind k = false ∧ docOKList cs = true := by
        simpa [docOK, hk] using hok
      obtain ⟨st2, slices, h2, hheap, ht, hin, hcw, hsl⟩ :=
        prepassRunList_doc g w cs st hok2.2 htext htab
      refine ⟨st2, slices, ?_, hheap, ht, hin, ?_, ?_⟩
      · rw [prepassRun_container, prepassStep_some, prepassVisit_other g w i k cs true st hok2.1,
          h2, prepassStep_some, prepassVisit_other g w i k cs false st2 hok2.1]
      · simpa [tablesOf, hk] using hcw
      · simpa [tablesOf, hk] using hsl
theorem prepassRunList_doc (g : Nat → Nat) (w : GoString → ℚ) :
    ∀ (ns : List Node) (st : Prepass), docOKList ns = true → st.textlength = 0 →
      st.intable = false →
      ∃ st2 slices, prepassRunList g w ns (some st) = some st2 ∧
        st2.heap.take st.heap.length = st.heap ∧
        st2.textlength = 0 ∧ st2.intable = false ∧
        st2.columnWidths = (List.zip ((tablesOfList ns).map nodeId) slices).foldl
          (fun m p => mapAssign m p.1 p.2) st.columnWidths ∧
        SlicesOf w st2.heap (tablesOfList ns) slices
  | [], st, _, htext, htab =>
    ⟨st, [], rfl, List.take_length _, htext, htab, rfl, List.Forall₂.nil⟩
  | n :: ns, st, hok, htext, htab => by
    simp only [docOKList, Bool.and_eq_true] at hok
    obtain ⟨st1, sl1, h1, hheap1, ht1, hin1, hcw1, hsl1⟩ :=
      prepassRun_doc g w n st hok.1 htext htab
    obtain ⟨st2, sl2, h2, hheap2, ht2, hin2, hcw2, hsl2⟩ :=
      prepassRunList_doc g w ns st1 hok.2 ht1 hin1
    refine ⟨st2, sl1 ++ sl2, ?_, take_prefix_trans _ _ _ hheap1 hheap2, ht2, hin2, ?_, ?_⟩
    · rw [prepassRunList_cons, h1, h2]
    · have hlen : ((tablesOf n).map nodeId).length = sl1.length := by
        rw [List.length_map]
        exact List.Forall₂.length_eq hsl1
      rw [hcw2, hcw1]
      simp only [tablesOfList, List.map_append]
      rw [List.zip_append hlen, List.foldl_append]
    · simp only [tablesOfList]
      exact List.rel_append (SlicesOf.mono w _ _ _ _ hheap2 hsl1) hsl2
end

/-! ## The widths stored for a document: C15 -/

theorem mapAssign_fresh {β : Type} (m : List (Nat × β)) (k : Nat) (v : β)
    (h : k ∉ m.map Prod.fst) : mapAssign m k v = m ++ [(k, v)] := by
  unfold mapAssign
  have hany : ¬ (m.any (fun e => decide (e.1 = k)) = true) := by
    intro hc
    simp only [List.any_eq_true, decide_eq_true_eq] at hc
    obtain ⟨e, he, hek⟩ := hc
    exact h (List.mem_map.mpr ⟨e, he, hek⟩)
  rw [if_neg hany]

theorem foldl_mapAssign_fresh {β : Type} (pairs m : List (Nat × β))
    (hnd : (pairs.map Prod.fst).Nodup)
    (hdis : ∀ k ∈ pairs.map Prod.fst, k ∉ m.map Prod.fst) :
    pairs.foldl (fun m p => mapAssign m p.1 p.2) m = m ++ pairs := by
  induction pairs generalizing m with
  | nil => simp
  | cons p rest ih =>
    simp only [List.map_cons, List.nodup_cons] at hnd
    simp only [List.foldl_cons]
    rw [mapAssign_fresh m p.1 p.2 (hdis p.1 (by simp))]
    rw [ih (m ++ [(p.1, p.2)]) hnd.2]
    · simp
    · intro k hk
      simp only [List.map_append, List.map_cons, List.map_nil, List.mem_append,
        List.mem_singleton, not_or]
      refine ⟨hdis k (by simp [hk]), ?_⟩
      intro hkp
      exact hnd.1 (hkp ▸ hk)

theorem zip_slices_resolve (w : GoString → ℚ) (heap : List (List ℚ)) (tables : List Node)
    (slices : List Slice) (h : SlicesOf w heap tables slices) :
    (List.zip (tables.map nodeId) slices).map (fun e => (e.1, e.2.elems heap))
      = tables.map (fun table => (nodeId table, specWidths w table)) := by
  unfold SlicesOf at h
  induction h with
  | nil => rfl
  | cons hd _ ih =>
    simp only [List.map_cons, List.zip_cons_cons, ih, hd.2]

theorem zip_keys (ids : List Nat) (slices : List Slice) (h : ids.length = slices.length) :
    (List.zip ids slices).map Prod.fst = ids := by
  induction ids generalizing slices with
  | nil => simp
  | cons i is ih =>
    cases slices with
    | nil => simp at h
    | cons s ss =>
      simp only [List.length_cons, Nat.add_right_cancel_iff] at h
      simp [ih ss h]

theorem foldl_widenRow_length (w : GoString → ℚ) (rows : List Node) (l : List ℚ) :
    (rows.foldl (fun l row => widenRow l 0 (rowWidths w row)) l).length = l.length := by
  induction rows generalizing l with
  | nil => rfl
  | cons r rs ih =>
    simp only [List.foldl_cons]
    rw [ih, widenRow_length]

theorem specWidths_length (w : GoString → ℚ) (table : Node) :
    (specWidths w table).length = headerCount table := by
  simp [specWidths, foldl_widenRow_length]

/-- The walk of `setColumnWidths` over a document whose tables all have a header row. -/
theorem prepassWalk_docOK (g : Nat → Nat) (w : GoString → ℚ) (doc : Node)
    (hok : docOK doc = true) (hids : ((tablesOf doc).map nodeId).Nodup) :
    ∃ st, prepassWalk g w doc = some st ∧
      st.columnWidths.map (fun e => (e.1, e.2.elems st.heap)) = specColumnWidths w doc := by
  obtain ⟨st, slices, h1, _, _, _, hcw, hsl⟩ := prepassRun_doc g w doc Prepass.init hok rfl rfl
  refine ⟨st, h1, ?_⟩
  have hlen : ((tablesOf doc).map nodeId).length = slices.length := by
    rw [List.length_map]
    exact List.Forall₂.length_eq hsl
  have hkeys := zip_keys _ _ hlen
  rw [hcw, foldl_mapAssign_fresh _ _ (by rw [hkeys]; exact hids) (by simp [Prepass.init])]
  simp only [Prepass.init, List.nil_append]
  exact zip_slices_resolve w st.heap (tablesOf doc) slices hsl

/-- C15. On a document in which every table has a header row and no row has more cells
than the header row of its table, the tables and their parts being shaped as the parser
shapes them and the table nodes having distinct addresses, `setColumnWidths` returns: no
index is out of range. It stores, for each table, the widths expected for it, which are
as many as the cells of the header row. Entering a row sets the column index to 0, and
entering a cell of the header row appends a column of width 0. -/
theorem setColumnWidths_header_tables (env : Env) (doc : Node) (r : PdfRenderer)
    (st : Prepass) (i : Nat) (cells kids : List Node)
    (hok : docOK doc = true) (hids : ((tablesOf doc).map nodeId).Nodup) :
    setColumnWidths env doc r
      = some { r with ColumnWidths := specColumnWidths (env.GetStringWidth r.Pdf) doc } ∧
    (∀ table ∈ tablesOf doc,
      mapLookup (specColumnWidths (env.GetStringWidth r.Pdf) doc) (nodeId table)
        = some (specWidths (env.GetStringWidth r.Pdf) table) ∧
      (specWidths (env.GetStringWidth r.Pdf) table).length = headerCount table) ∧
    prepassVisit env.growCap (env.GetStringWidth r.Pdf) (.container i .TableRow cells) true st
      = some { st with cellnum := 0 } ∧
    (st.inheader = true → st.lengths.len ≤ (st.heap.getD st.lengths.arr []).length →
      prepassVisit env.growCap (env.GetStringWidth r.Pdf) (.container i .TableCell kids) true st
        = some (st.appendZero env.growCap) ∧
      (st.appendZero env.growCap).view = st.view ++ [0]) := by
  obtain ⟨st2, h1, h2⟩ := prepassWalk_docOK env.growCap (env.GetStringWidth r.Pdf) doc hok hids
  refine ⟨?_, ?_, ?_, ?_⟩
  · simp only [setColumnWidths, h1, h2]
  · intro table htable
    refine ⟨?_, specWidths_length _ table⟩
    -- the keys are distinct, so the entry found for the address of a table is its own
    have hnd := hids
    simp only [specColumnWidths, mapLookup]
    generalize tablesOf doc = tables at htable hnd
    induction tables with
    | nil => simp at htable
    | cons t ts ih =>
      simp only [List.map_cons, List.nodup_cons] at hnd
      rcases List.mem_cons.mp htable with h | h
      · subst h
        simp [List.find?_cons]
      · have hne : ¬ nodeId t = nodeId table := by
          intro heq
          exact hnd.1 (heq ▸ List.mem_map.mpr ⟨table, h, rfl⟩)
        simp only [List.map_cons, List.find?_cons, hne, decide_False]
        exact ih h hnd.2
  · simp [prepassVisit]
  · intro hh hcap
    exact ⟨by simp [prepassVisit, hh], appendZero_view env.growCap st hcap⟩

/-- C15, at a document with the table of the scenario between two paragraphs: the walk
returns and stores two widths for the table, whose header row has two cells; and entering
a cell of a header row with two columns recorded gives three columns. -/
theorem setColumnWidths_header_tables_witness :
    docOK exampleDocument = true ∧
    ((tablesOf exampleDocument).map nodeId).Nodup ∧
    setColumnWidths exampleEnv exampleDocument PdfRenderer.zero
      = some { PdfRenderer.zero with ColumnWidths := [(10, [72, 48])] } ∧
    headerCount exampleTable = 2 ∧
    ({ examplePrepass with inheader := true }.appendZero exampleEnv.growCap).view
      = [72, 48, 0] := by
  have h := setColumnWidths_header_tables exampleEnv exampleDocument PdfRenderer.zero
    { examplePrepass with inheader := true } 0 [] [] (by decide) (by decide)
  have hspec : specColumnWidths (exampleEnv.GetStringWidth PdfRenderer.zero.Pdf)
      exampleDocument = [(10, [72, 48])] := by decide!
  refine ⟨by decide, by decide, ?_, by decide, ?_⟩
  · rw [h.1, hspec]
  · rw [(h.2.2.2 rfl (by decide)).2]
    decide!

/-! ## Columns only grow: C14 -/

theorem columnsGrow_refl (l : List ℚ) : columnsGrow l l :=
  fun _ x h => ⟨x, h, le_refl x⟩

theorem columnsGrow_trans {a b c : List ℚ} (h1 : columnsGrow a b) (h2 : columnsGrow b c) :
    columnsGrow a c := by
  intro j x hx
  obtain ⟨y, hy, hxy⟩ := h1 j x hx
  obtain ⟨z, hz, hyz⟩ := h2 j y hy
  exact ⟨z, hz, le_trans hxy hyz⟩

theorem columnsGrow_append (l l2 : List ℚ) : columnsGrow l (l ++ l2) := by
  intro j x hx
  refine ⟨x, ?_, le_refl x⟩
  rw [List.get?_eq_getElem?] at hx ⊢
  have hlt : j < l.length := by
    by_contra hge
    rw [List.getElem?_eq_none (by omega)] at hx
    exact Option.noConfusion hx
  rw [List.getElem?_append_left hlt]
  exact hx

theorem widen_cases (l : List ℚ) (c : Nat) (x cur : ℚ) (h : l.get? c = some cur) :
    (¬ x > cur ∧ widen l c x = l) ∨ (x > cur ∧ widen l c x = l.set c x) := by
  unfold widen
  rw [h]
  by_cases hx : x > cur
  · exact Or.inr ⟨hx, if_pos hx⟩
  · exact Or.inl ⟨hx, if_neg hx⟩

theorem widen_grows (l : List ℚ) (c : Nat) (x : ℚ) : columnsGrow l (widen l c x) := by
  cases hc : l.get? c with
  | none =>
    have : widen l c x = l := by
      unfold widen
      rw [hc]
    rw [this]
    exact columnsGrow_refl l
  | some cur =>
    rcases widen_cases l c x cur hc with ⟨_, h⟩ | ⟨hx, h⟩
    · rw [h]
      exact columnsGrow_refl l
    · rw [h]
      intro j y hy
      rw [List.get?_eq_getElem?] at hy hc ⊢
      by_cases hj : c = j
      · subst hj
        rw [hc] at hy
        cases hy
        have hlt : c < l.length := by
          by_contra hge
          rw [List.getElem?_eq_none (by omega)] at hc
          exact Option.noConfusion hc
        exact ⟨x, by rw [List.getElem?_set_self hlt], le_of_lt hx⟩
      · exact ⟨y, by rw [List.getElem?_set_ne hj]; exact hy, le_refl y⟩

theorem widen_ge (l : List ℚ) (c : Nat) (x : ℚ) (hc : c < l.length) :
    ∃ y, (widen l c x).get? c = some y ∧ x ≤ y := by
  have hcur : l.get? c = some (l.get ⟨c, hc⟩) := List.get?_eq_get hc
  rcases widen_cases l c x _ hcur with ⟨hx, h⟩ | ⟨_, h⟩
  · rw [h]
    exact ⟨_, hcur, le_of_not_lt hx⟩
  · rw [h]
    refine ⟨x, ?_, le_refl x⟩
    rw [List.get?_eq_getElem?, List.getElem?_set_self hc]

theorem widenRow_grows (ws : List ℚ) : ∀ (l : List ℚ) (c : Nat), columnsGrow l (widenRow l c ws) := by
  induction ws with
  | nil => exact fun l _ => columnsGrow_refl l
  | cons x xs ih =>
    intro l c
    exact columnsGrow_trans (widen_grows l c x) (ih (widen l c x) (c + 1))

theorem widenRow_ge (ws : List ℚ) : ∀ (l : List ℚ) (c j : Nat) (x : ℚ),
    ws.get? j = some x → c + ws.length ≤ l.length →
    ∃ y, (widenRow l c ws).get? (c + j) = some y ∧ x ≤ y := by
  induction ws with
  | nil =>
    intro l c j x hx _
    exact Option.noConfusion hx
  | cons x0 xs ih =>
    intro l c j x hx hlen
    simp only [List.length_cons] at hlen
    cases j with
    | zero =>
      simp only [List.get?_cons_zero, Option.some.injEq] at hx
      subst hx
      obtain ⟨y, hy, hxy⟩ := widen_ge l c x0 (by omega)
      obtain ⟨z, hz, hyz⟩ := widenRow_grows xs (widen l c x0) (c + 1) c y hy
      exact ⟨z, hz, le_trans hxy hyz⟩
    | succ j2 =>
      simp only [List.get?_cons_succ] at hx
      have h := ih (widen l c x0) (c + 1) j2 x hx (by rw [widen_length]; omega)
      have e : c + 1 + j2 = c + (j2 + 1) := by omega
      rw [e] at h
      exact h

theorem foldl_widenRow_grows (w : GoString → ℚ) (rows : List Node) : ∀ l : List ℚ,
    columnsGrow l (rows.foldl (fun l row => widenRow l 0 (rowWidths w row)) l) := by
  induction rows with
  | nil => exact fun l => columnsGrow_refl l
  | cons r rs ih =>
    intro l
    exact columnsGrow_trans (widenRow_grows (rowWidths w r) l 0) (ih _)

theorem foldl_widenRow_ge (w : GoString → ℚ) (rows : List Node) : ∀ (l : List ℚ),
    (∀ row ∈ rows, (rowCells row).length ≤ l.length) →
    ∀ row ∈ rows, ∀ (j : Nat) (cell : Node), (rowCells row).get? j = some cell →
      ∃ y, (rows.foldl (fun l row => widenRow l 0 (rowWidths w row)) l).get? j = some y ∧
        cellWidth w cell ≤ y := by
  induction rows with
  | nil =>
    intro l _ row hrow
    exact absurd hrow (List.not_mem_nil row)
  | cons r rs ih =>
    intro l hlen row hrow j cell hcell
    simp only [List.foldl_cons]
    rcases List.mem_cons.mp hrow with h | h
    · subst h
      have hx : (rowWidths w row).get? j = some (cellWidth w cell) := by
        simp only [rowWidths, List.get?_eq_getElem?, List.getElem?_map] at hcell ⊢
        rw [hcell]
        rfl
      have hl : 0 + (rowWidths w row).length ≤ l.length := by
        simp only [rowWidths, List.length_map, Nat.zero_add]
        exact hlen row (List.mem_cons_self _ _)
      obtain ⟨y, hy, hxy⟩ := widenRow_ge (rowWidths w row) l 0 j _ hx hl
      rw [Nat.zero_add] at hy
      obtain ⟨z, hz, hyz⟩ := foldl_widenRow_grows w rs _ j y hy
      exact ⟨z, hz, le_trans hxy hyz⟩
    · exact ih (widenRow l 0 (rowWidths w r))
        (fun row2 h2 => by
          rw [widenRow_length]
          exact hlen row2 (List.mem_cons_of_mem _ h2))
        row h j cell hcell

theorem isRow_cells (cols : Nat) (row : Node) (h : isRow cols row = true) :
    (rowCells row).length ≤ cols := by
  match row, h with
  | .container _ .TableRow cells, h =>
    simp only [isRow, Bool.and_eq_true, decide_eq_true_eq] at h
    exact h.2

theorem isSection_rows (cols : Nat) (sec : Node) (h : isSection cols sec = true) :
    ∀ row ∈ sectionRows sec, (rowCells row).length ≤ cols := by
  intro row hrow
  match sec, h with
  | .container _ .TableBody rows, h =>
    simp only [isSection, List.all_eq_true] at h
    exact isRow_cells cols row (h row hrow)
  | .container _ (.OtherContainer _) rows, h =>
    simp only [isSection, List.all_eq_true] at h
    exact isRow_cells cols row (h row hrow)

theorem tableRows_cells (table : Node) (htable : isTable table = true) :
    ∀ row ∈ tableRows table, (rowCells row).length ≤ headerCount table := by
  obtain ⟨i, i2, i3, cells, sections, rfl, _, hsec⟩ := isTable_shape table htable
  intro row hrow
  simp only [tableRows, List.singleton_append, List.mem_cons, List.mem_flatMap] at hrow
  simp only [headerCount]
  rcases hrow with h | ⟨sec, hs, hr⟩
  · subst h
    exact le_refl _
  · exact isSection_rows _ sec (List.all_eq_true.mp hsec sec hs) row hr

/-- Each column of the widths expected for a table is at least the padded width of every
cell of that column. -/
theorem specWidths_ge (w : GoString → ℚ) (table : Node) (htable : isTable table = true)
    (row : Node) (hrow : row ∈ tableRows table) (j : Nat) (cell : Node)
    (hcell : (rowCells row).get? j = some cell) :
    ∃ y, (specWidths w table).get? j = some y ∧ cellWidth w cell ≤ y := by
  unfold specWidths
  exact foldl_widenRow_ge w (tableRows table) _
    (fun row2 h2 => by
      rw [List.length_replicate]
      exact tableRows_cells table htable row2 h2)
    row hrow j cell hcell

theorem mapLookup_mapAssign {β : Type} (m : List (Nat × β)) (k : Nat) (v : β) :
    mapLookup (mapAssign m k v) k = some v := by
  unfold mapLookup mapAssign
  induction m with
  | nil => simp
  | cons e es ih =>
    by_cases he : e.1 = k
    · simp [he]
    · by_cases hany : es.any (fun e => decide (e.1 = k)) = true
      · rw [if_pos hany] at ih
        have hany2 : (e :: es).any (fun e => decide (e.1 = k)) = true := by
          simp only [List.any_cons, hany, Bool.or_true]
        rw [if_pos hany2]
        simp only [List.map_cons, he, if_false, List.find?_cons, decide_False]
        exact ih
      · rw [if_neg hany] at ih
        have hany2 : ¬ ((e :: es).any (fun e => decide (e.1 = k)) = true) := by
          simp only [List.any_cons, Bool.or_eq_true, decide_eq_true_eq, he, false_or]
          exact hany
        rw [if_neg hany2]
        simp only [List.cons_append, List.find?_cons, he, decide_False]
        exact ih

theorem view_get_arr (st : Prepass) (c : Nat) (cur : ℚ) (h : st.view.get? c = some cur) :
    st.lengths.arr < st.heap.length := by
  by_contra hge
  have h0 : st.heap.getD st.lengths.arr [] = [] := by
    simp [List.getD_eq_getElem?_getD, List.getElem?_eq_none (Nat.le_of_not_lt hge)]
  unfold Prepass.view Slice.elems at h
  rw [h0] at h
  simp at h

/-- Leaving a cell, without any assumption on the slice but that the current column is in
range. -/
theorem prepassVisit_cell_leave_view (g : Nat → Nat) (w : GoString → ℚ) (i : Nat)
    (kids : List Node) (st : Prepass) (cur : ℚ)
    (hcur : st.view.get? st.cellnum = some cur) :
    ∃ st2, prepassVisit g w (.container i .TableCell kids) false st = some st2 ∧
      st2.textlength = 0 ∧ st2.cellnum = st.cellnum + 1 ∧
      ((¬ cur < padded st.textlength ∧ st2.view = st.view) ∨
        (cur < padded st.textlength ∧
          st2.view = st.view.set st.cellnum (padded st.textlength))) := by
  have harr := view_get_arr st st.cellnum cur hcur
  have hat : Prepass.lengthsAt { st with textlength := padded st.textlength }
      st.cellnum = some cur := by
    rw [lengthsAt_eq_view]
    exact hcur
  by_cases hgt : padded st.textlength > cur
  · refine ⟨{ (Prepass.lengthsSet { st with textlength := padded st.textlength }
        st.cellnum (padded st.textlength)) with
        textlength := 0, cellnum := st.cellnum + 1 }, ?_, rfl, rfl, Or.inr ⟨hgt, ?_⟩⟩
    · unfold padded at hat hgt ⊢
      simp only [prepassVisit, Bool.false_eq_true, if_false, hat, hgt, if_true]
      rfl
    · exact lengthsSet_view st st.cellnum (padded st.textlength) harr
  · refine ⟨{ st with textlength := 0, cellnum := st.cellnum + 1 }, ?_, rfl, rfl,
      Or.inl ⟨hgt, rfl⟩⟩
    unfold padded at hat hgt
    simp only [prepassVisit, Bool.false_eq_true, if_false, hat, hgt]

/-- Every step of the callback but the entry of a table header keeps or widens each
column, and keeps the slice within its backing array. -/
theorem prepassVisit_grows (g : Nat → Nat) (w : GoString → ℚ) (node : Node) (entering : Bool)
    (st st2 : Prepass)
    (hne : ∀ i cs, node = .container i .TableHeader cs → entering = false)
    (hin : st.Inside 0) (hstep : prepassVisit g w node entering st = some st2) :
    columnsGrow st.view st2.view ∧ st2.Inside 0 := by
  cases node with
  | leaf i k l =>
    have hv : st2 = st ∨ st2 = { st with textlength := addFloat64 st.textlength (w l) } := by
      cases k <;> simp only [prepassVisit] at hstep
      all_goals first
        | exact Or.inl (Option.some.inj hstep).symm
        | (split at hstep
           · exact Or.inr (Option.some.inj hstep).symm
           · exact Or.inl (Option.some.inj hstep).symm)
    rcases hv with h | h <;> subst h
    · exact ⟨columnsGrow_refl _, hin⟩
    · exact ⟨columnsGrow_refl _, hin⟩
  | container i k cs =>
    by_cases hk : isTableKind k = false
    · rw [prepassVisit_other g w i k cs entering st hk] at hstep
      cases hstep
      exact ⟨columnsGrow_refl _, hin⟩
    · cases k <;> simp only [isTableKind, not_true_eq_false, not_false_eq_true] at hk
      · -- Table
        cases entering <;> simp only [prepassVisit, Bool.false_eq_true, if_false, if_true,
          Option.some.injEq] at hstep <;> subst hstep <;> exact ⟨columnsGrow_refl _, hin⟩
      · -- TableHeader
        have he := hne i cs rfl
        subst he
        simp only [prepassVisit, Bool.false_eq_true, if_false, Option.some.injEq] at hstep
        subst hstep
        exact ⟨columnsGrow_refl _, hin⟩
      · -- TableRow
        cases entering <;> simp only [prepassVisit, Bool.false_eq_true, if_false, if_true,
          Option.some.injEq] at hstep <;> subst hstep <;> exact ⟨columnsGrow_refl _, hin⟩
      · -- TableCell
        cases entering
        · cases hat : st.view.get? st.cellnum with
          | none =>
            have hat2 : Prepass.lengthsAt
                { st with textlength := padded st.textlength } st.cellnum
                = none := by
              rw [lengthsAt_eq_view]
              exact hat
            unfold padded at hat2
            simp [prepassVisit, hat2] at hstep
          | some cur =>
            obtain ⟨st3, h3, hk3, hv3, _, _⟩ :=
              prepassVisit_cell_leave g w i cs 0 st cur hin hat
            rw [h3] at hstep
            cases hstep
            rw [hv3]
            exact ⟨widen_grows _ _ _, hk3.2.2.2.2⟩
        · by_cases hh : st.inheader = true
          · simp only [prepassVisit, if_true, hh, Option.some.injEq] at hstep
            subst hstep
            rw [appendZero_view g st hin.2.2]
            exact ⟨columnsGrow_append _ _, (appendZero_keeps g 0 st hin).2.2.2.2⟩
          · simp only [prepassVisit, if_true, hh, Bool.false_eq_true, if_false,
              Option.some.injEq] at hstep
            subst hstep
            exact ⟨columnsGrow_refl _, hin⟩

/-- C14, amended. Leaving a cell whose column is in range returns, resets the accumulator
to 0 and advances the column index; the columns either all stay as they were, or the width
of the current column, and only it, is replaced by the padded accumulator, which is then
strictly larger than the width it replaces. The padded accumulator is the `float64` the
statement `textlength += textlength * 0.2` computes. Every step of the callback other than
the entry of a table header (where the columns of a new table start) keeps or widens each
recorded column. So, after the walk over a table with a header row none of whose rows has
more cells than the header row, the slice stored for the table has, in each column, a
width that is at least the padded text width of every cell of that column. -/
theorem prepass_columns_grow (g : Nat → Nat) (w : GoString → ℚ) :
    (∀ (i : Nat) (kids : List Node) (st : Prepass) (cur : ℚ),
      st.view.get? st.cellnum = some cur →
      ∃ st2, prepassVisit g w (.container i .TableCell kids) false st = some st2 ∧
        st2.textlength = 0 ∧ st2.cellnum = st.cellnum + 1 ∧
        ((¬ cur < padded st.textlength ∧ st2.view = st.view) ∨
          (cur < padded st.textlength ∧
            st2.view = st.view.set st.cellnum (padded st.textlength)))) ∧
    (∀ t : ℚ, padded t = addFloat64 t (mulFloat64 t (float64 0.2))) ∧
    (∀ (node : Node) (entering : Bool) (st st2 : Prepass),
      (∀ i cs, node = .container i .TableHeader cs → entering = false) →
      st.Inside 0 → prepassVisit g w node entering st = some st2 →
      columnsGrow st.view st2.view ∧ st2.Inside 0) ∧
    (∀ (table : Node) (st : Prepass), isTable table = true → st.textlength = 0 →
      ∃ st2, prepassRun g w table (some st) = some st2 ∧
        mapLookup st2.columnWidths (nodeId table) = some st2.lengths ∧
        ∀ row ∈ tableRows table, ∀ (j : Nat) (cell : Node),
          (rowCells row).get? j = some cell →
          ∃ x, st2.view.get? j = some x ∧ padded (textWidth w cell) ≤ x) := by
  refine ⟨prepassVisit_cell_leave_view g w, fun _ => rfl, prepassVisit_grows g w, ?_⟩
  intro table st htable htext
  obtain ⟨st2, h1, _, hcw, _, _, hview, _, _, _⟩ := prepassRun_table g w table st htable htext
  refine ⟨st2, h1, ?_, ?_⟩
  · rw [hcw]
    exact mapLookup_mapAssign _ _ _
  · intro row hrow j cell hcell
    obtain ⟨y, hy, hle⟩ := specWidths_ge w table htable row hrow j cell hcell
    exact ⟨y, by rw [hview]; exact hy, hle⟩

/-- C14, refuted at a table of one cell whose text measures 26.016 (the `float64` of that
literal, the first fraction below). The measured text width of the cell is that number,
and the width stored for the column is the `float64` 31.219199999999997 (the second
fraction), which is below 1.2 times the measured text width: the product and the sum of
`textlength += textlength * 0.2` are rounded. -/
theorem setColumnWidths_below_six_fifths :
    textWidth (exampleRoundedEnv.GetStringWidth PdfRenderer.zero.Pdf) (exampleCell 73 "x")
      = 3661426497052213 / 140737488355328 ∧
    (setColumnWidths exampleRoundedEnv (.container 0 .Document [exampleOneCellTable])
        PdfRenderer.zero).bind (fun r => mapLookup r.ColumnWidths (nodeId exampleOneCellTable))
      = some [8787423592925311 / 281474976710656] ∧
    (8787423592925311 / 281474976710656 : ℚ)
      < 6 / 5 * (3661426497052213 / 140737488355328) ∧
    padded (3661426497052213 / 140737488355328) = 8787423592925311 / 281474976710656 := by
  decide!

/-- C14 as amended, at the table of the scenario: leaving a cell with a text of width 100
in a column of width 72 gives that column the width 120; entering a row is a step that
keeps the columns; and after the walk over the table the first column is at least 72, the
padded width of the cell `body`, which measures 60. -/
theorem prepass_columns_grow_witness :
    exampleCellEnd.view.get? exampleCellEnd.cellnum = some 72 ∧
    (∃ st2, prepassVisit exampleGrowCap exampleWidth (.container 50 .TableCell []) false
        exampleCellEnd = some st2 ∧ st2.view = [120, 48]) ∧
    exampleCellEnd.Inside 0 ∧
    columnsGrow exampleCellEnd.view exampleCellEnd.view ∧
    isTable exampleTable = true ∧
    (∃ st2, prepassRun exampleGrowCap exampleWidth exampleTable (some Prepass.init) = some st2 ∧
      ∃ x, st2.view.get? 0 = some x ∧ 72 ≤ x) := by
  have h := prepass_columns_grow exampleGrowCap exampleWidth
  have hcur : exampleCellEnd.view.get? exampleCellEnd.cellnum = some 72 := by decide!
  have hin : exampleCellEnd.Inside 0 := ⟨by decide, by decide, by decide⟩
  have htable : isTable exampleTable = true := by decide
  refine ⟨hcur, ?_, hin, ?_, htable, ?_⟩
  · obtain ⟨st2, h1, _, _, hor⟩ := h.1 50 [] exampleCellEnd 72 hcur
    refine ⟨st2, h1, ?_⟩
    rcases hor with ⟨hno, _⟩ | ⟨_, hv⟩
    · exact absurd (by decide!) hno
    · rw [hv]
      decide!
  · exact (h.2.2.1 (.container 18 .TableRow []) true exampleCellEnd exampleCellEnd
      (fun i cs hc => by cases hc) hin rfl).1
  · obtain ⟨st2, h1, _, hall⟩ := h.2.2.2 exampleTable Prepass.init htable rfl
    refine ⟨st2, h1, ?_⟩
    have hrow : Node.container 18 .TableRow [exampleCell 19 "body", exampleCell 21 "A"]
        ∈ tableRows exampleTable := by
      simp [tableRows, exampleTable, sectionRows]
    obtain ⟨x, hx, hle⟩ := hall _ hrow 0 (exampleCell 19 "body") rfl
    refine ⟨x, hx, ?_⟩
    have hw : padded (textWidth exampleWidth (exampleCell 19 "body")) = 72 := by decide!
    rw [hw] at hle
    exact hle

/-! ## Only texts are measured: C18 -/

mutual
theorem accumulate_textFree (w : GoString → ℚ) :
    ∀ (n : Node) (acc : ℚ), textFree n = true → accumulate w n acc = acc
  | .leaf _ k _, acc, h => by
    simp only [textFree, decide_eq_true_eq] at h
    simp [accumulate, h]
  | .container _ _ cs, acc, h => by
    simp only [textFree] at h
    simp only [accumulate]
    exact accumulateList_textFree w cs acc h
theorem accumulateList_textFree (w : GoString → ℚ) :
    ∀ (ns : List Node) (acc : ℚ), textFreeList ns = true → accumulateList w ns acc = acc
  | [], _, _ => rfl
  | n :: ns, acc, h => by
    simp only [textFreeList, Bool.and_eq_true] at h
    simp only [accumulateList]
    rw [accumulate_textFree w n acc h.1, accumulateList_textFree w ns acc h.2]
end

mutual
/-- The accumulator after a subtree: the string widths of the `Text` nodes of the subtree,
met in pre-order, added one after the other. -/
theorem accumulate_eq_foldl (w : GoString → ℚ) :
    ∀ (n : Node) (acc : ℚ), accumulate w n acc
      = ((preorder n).filterMap textLiteral).foldl (fun a lit => addFloat64 a (w lit)) acc
  | .leaf _ k lit, acc => by
    cases k <;> simp [accumulate, preorder, textLiteral]
  | .container _ _ cs, acc => by
    simp only [accumulate, preorder, List.filterMap_cons, textLiteral]
    exact accumulateList_eq_foldl w cs acc
theorem accumulateList_eq_foldl (w : GoString → ℚ) :
    ∀ (ns : List Node) (acc : ℚ), accumulateList w ns acc
      = ((preorderList ns).filterMap textLiteral).foldl (fun a lit => addFloat64 a (w lit)) acc
  | [], _ => rfl
  | n :: ns, acc => by
    simp only [accumulateList, preorderList, List.filterMap_append, List.foldl_append]
    rw [accumulate_eq_foldl w n acc, accumulateList_eq_foldl w ns]
end

theorem addText_outside (st : Prepass) (f : ℚ → ℚ) (h : st.intable = false) :
    st.addText f = st := by
  simp [Prepass.addText, h]

theorem padded_zero : padded 0 = 0 := by decide!

/-- C18. A leaf that is not a `Text`, an inline code for one, leaves the local variables
as they are, and a `Text` adds its string width to the accumulator inside a table and
nothing outside. The walk over the content of a cell adds the string widths of all the
`Text` nodes of the content, at any depth and in pre-order, and nothing for the other
nodes. So the walk over a cell replaces the width of the current column when the padded
sum is larger; with no `Text` in the cell the sum is 0 and the columns stay as they are, a
width never being negative. Outside the tables the walk over a subtree changes nothing.
The additions are those of `float64`. -/
theorem prepass_measures_text_only (g : Nat → Nat) (w : GoString → ℚ) :
    (∀ (i : Nat) (k : LeafKind) (lit : GoString) (entering : Bool) (st : Prepass),
      k ≠ .Text → prepassVisit g w (.leaf i k lit) entering st = some st) ∧
    (∀ (i : Nat) (lit : GoString) (st : Prepass),
      prepassVisit g w (.leaf i .Text lit) true st
        = some (if st.intable then
            { st with textlength := addFloat64 st.textlength (w lit) } else st)) ∧
    (∀ (kids : List Node) (st : Prepass), tableFreeList kids = true →
      prepassRunList g w kids (some st)
        = some (if st.intable then
            { st with textlength := accumulateList w kids st.textlength } else st)) ∧
    (∀ (kids : List Node) (acc : ℚ), accumulateList w kids acc
      = ((preorderList kids).filterMap textLiteral).foldl
          (fun a lit => addFloat64 a (w lit)) acc) ∧
    (∀ (cell : Node) (st : Prepass) (cur : ℚ), isCell cell = true → st.Inside 0 →
      st.intable = true → st.textlength = 0 →
      (if st.inheader then st.view ++ [0] else st.view).get? st.cellnum = some cur →
      ∃ st2, prepassRun g w cell (some st) = some st2 ∧
        st2.view = widen (if st.inheader then st.view ++ [0] else st.view) st.cellnum
          (padded (textWidth w cell)) ∧
        (textFree cell = true → 0 ≤ cur →
          textWidth w cell = 0 ∧
          st2.view = (if st.inheader then st.view ++ [0] else st.view))) ∧
    (∀ (n : Node) (st : Prepass), tableFree n = true → st.intable = false →
      prepassRun g w n (some st) = some st) := by
  refine ⟨?_, ?_, ?_, accumulateList_eq_foldl w, ?_, ?_⟩
  · intro i k lit entering st hk
    cases k <;> first | exact absurd rfl hk | rfl
  · intro i lit st
    cases hi : st.intable <;> simp [prepassVisit, hi]
  · intro kids st hfree
    rw [prepassRunList_tableFree g w kids st hfree]
    rfl
  · intro cell st cur hcell hin htab htext hcur
    obtain ⟨st2, h1, _, hview, _, _⟩ := prepassRun_cell g w cell 0 st cur hcell hin htab htext hcur
    refine ⟨st2, h1, ?_, ?_⟩
    · rw [hview, cellWidth]
    · intro hfree hpos
      have h0 : textWidth w cell = 0 := accumulate_textFree w cell 0 hfree
      refine ⟨h0, ?_⟩
      rw [hview, cellWidth, h0]
      rcases widen_cases _ st.cellnum (padded 0) cur hcur with ⟨_, h⟩ | ⟨hgt, _⟩
      · exact h
      · rw [padded_zero] at hgt
        exact absurd hpos (not_le_of_lt hgt)
  · intro n st hfree hout
    rw [prepassRun_tableFree g w n st hfree, addText_outside st _ hout]

/-- C18, in a table of two columns of widths 72 and 48: a cell whose only content is an
inline code of string width 100 leaves the columns as they are, a cell with texts of widths
5 and 60 inside an emphasis and a link inside a strong emphasis, next to that inline
code, gives the first column 78, the padded width of 65, and a paragraph outside a table
changes nothing. -/
theorem prepass_measures_text_only_witness :
    isCell exampleCodeCell = true ∧ textFree exampleCodeCell = true ∧
    isCell exampleNestedCell = true ∧ examplePrepass.Inside 0 ∧
    (∃ st2, prepassRun exampleGrowCap exampleWidth exampleCodeCell (some examplePrepass)
        = some st2 ∧ st2.view = [72, 48]) ∧
    textWidth exampleWidth exampleNestedCell = 65 ∧
    (∃ st2, prepassRun exampleGrowCap exampleWidth exampleNestedCell (some examplePrepass)
        = some st2 ∧ st2.view = [78, 48]) ∧
    tableFree exampleParagraph = true ∧
    prepassRun exampleGrowCap exampleWidth exampleParagraph (some Prepass.init)
      = some Prepass.init := by
  have h := prepass_measures_text_only exampleGrowCap exampleWidth
  have hin : examplePrepass.Inside 0 := ⟨by decide, by decide, by decide⟩
  have hcur : (if examplePrepass.inheader then examplePrepass.view ++ [0]
      else examplePrepass.view).get? examplePrepass.cellnum = some 72 := by decide!
  refine ⟨by decide, by decide, by decide, hin, ?_, by decide!, ?_, by decide, ?_⟩
  · obtain ⟨st2, h1, _, h3⟩ :=
      h.2.2.2.2.1 exampleCodeCell examplePrepass 72 (by decide) hin rfl rfl hcur
    refine ⟨st2, h1, ?_⟩
    rw [(h3 (by decide) (by norm_num)).2]
    decide!
  · obtain ⟨st2, h1, h2, _⟩ :=
      h.2.2.2.2.1 exampleNestedCell examplePrepass 72 (by decide) hin rfl rfl hcur
    refine ⟨st2, h1, ?_⟩
    rw [h2]
    decide!
  · exact h.2.2.2.2.2 exampleParagraph Prepass.init (by decide) rfl

/-! ## Widths of one table in the entry of another: C16 -/

/-- C16, at three documents holding the table of the scenario, which has a header row.
Alone, and after a paragraph, the table gets the widths 72 and 48. Followed by a table
without a header row, whose first cell has a text of width 100, the same table gets the
widths 120 and 48: the later table is measured into the slice stored for the earlier
one. Each document has one key for each of its tables. -/
theorem setColumnWidths_entry_depends_on_later_table :
    (setColumnWidths exampleEnv (.container 0 .Document [exampleTable])
        PdfRenderer.zero).bind (fun r => mapLookup r.ColumnWidths (nodeId exampleTable))
      = some [72, 48] ∧
    (setColumnWidths exampleEnv (.container 0 .Document [exampleParagraph, exampleTable])
        PdfRenderer.zero).bind (fun r => mapLookup r.ColumnWidths (nodeId exampleTable))
      = some [72, 48] ∧
    (setColumnWidths exampleEnv
        (.container 0 .Document [exampleParagraph, exampleTable, exampleHeaderlessTable])
        PdfRenderer.zero).bind (fun r => mapLookup r.ColumnWidths (nodeId exampleTable))
      = some [120, 48] ∧
    (setColumnWidths exampleEnv
        (.container 0 .Document [exampleParagraph, exampleTable, exampleHeaderlessTable])
        PdfRenderer.zero).map (fun r => r.ColumnWidths.map Prod.fst)
      = some [10, 30] := by
  decide!

end Mdtopdf
